import Mathlib

/-!
# The input manager of `src/InputMgr.cc`

A shallow embedding of the input manager: cells delivered by a reader (`LogVal`),
their canonical byte encoding (`GetLogValLength`, `CopyLogVal`, `HashLogVals`), the
conversion to host values (`LogValToVal`, `LogValToRecordVal`, `LogValToIndexVal`),
the per-stream state (`ReaderInfo`) and the operations on it (`SendEntry`,
`EndCurrentSend`, `Put`, `Delete`, `Clear`).

Conventions of the embedding.
* A call that ends in `reporter->InternalError`, in a failing `assert`, in a read
  past the end of the row, or in the use of a deleted object returns `Except.error`.
* The two filter loops can spin forever in the source; they take a fuel argument and
  return `Err.Diverges` when it runs out.
* The host runtime (values, the destination table, the event registry, the
  dictionary class) is not part of `src/`; the small models used for it are marked
  `Modelled from the spec`.
-/

namespace InputMgr

/-! ## Type tags, cells, host types and host values -/

/-- Type tags of the host type system (`TypeTag`). -/
inductive TypeTag
  | TYPE_VOID | TYPE_BOOL | TYPE_INT | TYPE_COUNT | TYPE_COUNTER | TYPE_DOUBLE | TYPE_TIME
  | TYPE_INTERVAL | TYPE_STRING | TYPE_PATTERN | TYPE_ENUM | TYPE_TIMER | TYPE_PORT
  | TYPE_ADDR | TYPE_NET | TYPE_SUBNET | TYPE_ANY | TYPE_TABLE | TYPE_UNION | TYPE_RECORD
  | TYPE_LIST | TYPE_FUNC | TYPE_FILE | TYPE_VECTOR | TYPE_TYPE | TYPE_ERROR
  deriving DecidableEq, Repr

open TypeTag

/-- How a call can fail to return normally. -/
inductive Err
  /-- The call reached `reporter->InternalError`. -/
  | InternalError
  /-- An `assert` failed. -/
  | AssertFailed
  /-- The row was read past its end. -/
  | OutOfBounds
  /-- A deleted `InputHash` object was dereferenced. -/
  | Dangling
  /-- The loop did not finish within the fuel given. -/
  | Diverges
  deriving DecidableEq, Repr

/-- Equality of the results of two calls is decidable. -/
instance decEqExcept {ε α : Type} [DecidableEq ε] [DecidableEq α] :
    DecidableEq (Except ε α)
  | .ok a, .ok b =>
    if h : a = b then isTrue (by rw [h]) else isFalse (by intro e; cases e; exact h rfl)
  | .error a, .error b =>
    if h : a = b then isTrue (by rw [h]) else isFalse (by intro e; cases e; exact h rfl)
  | .ok _, .error _ => isFalse (by intro e; cases e)
  | .error _, .ok _ => isFalse (by intro e; cases e)

/-- A cell delivered by a reader (`LogVal`): the type tag together with the member of
the value union that the tag selects. Integers are kept unbounded here and reduced to
their machine width where bytes are produced; a double is kept as its 64-bit pattern;
a string is kept as its bytes. -/
inductive LogVal
  | bool (int_val : Int)
  | int (int_val : Int)
  | count (uint_val : Nat)
  | counter (uint_val : Nat)
  | port (uint_val : Nat)
  | double (double_val : Nat)
  | time (double_val : Nat)
  | interval (double_val : Nat)
  | string (string_val : List Nat)
  | enum (string_val : List Nat)
  | addr (addr_val : List Nat)
  | subnet (net : List Nat) (width : Nat)
  | table (vals : List LogVal)
  | vector (vals : List LogVal)

/-- The field `val->type`. -/
def LogVal.type : LogVal → TypeTag
  | .bool _ => TYPE_BOOL
  | .int _ => TYPE_INT
  | .count _ => TYPE_COUNT
  | .counter _ => TYPE_COUNTER
  | .port _ => TYPE_PORT
  | .double _ => TYPE_DOUBLE
  | .time _ => TYPE_TIME
  | .interval _ => TYPE_INTERVAL
  | .string _ => TYPE_STRING
  | .enum _ => TYPE_ENUM
  | .addr _ => TYPE_ADDR
  | .subnet _ _ => TYPE_SUBNET
  | .table _ => TYPE_TABLE
  | .vector _ => TYPE_VECTOR

/-- Modelled from the spec: the host types (`BroType`) the manager inspects. A `base`
type has only a tag; a record lists its fields in declaration order; a table has a list
of index types and is a set when it has no yield type; a vector has a yield type. -/
inductive BroType
  | base (tag : TypeTag)
  | record (fields : List (String × BroType))
  | table (indices : List BroType) (yield : Option BroType)
  | vector (yield : BroType)

/-- A record type is given by its fields in declaration order. -/
abbrev RecordType := List (String × BroType)

/-- The method `BroType::Tag`. -/
def BroType.Tag : BroType → TypeTag
  | .base tag => tag
  | .record _ => TYPE_RECORD
  | .table _ _ => TYPE_TABLE
  | .vector _ => TYPE_VECTOR

/-- Modelled from the spec: the host values the manager builds. `int`, `uint` and
`double` stand for `new Val(x, type)` at the three argument types; a set is a
`TableVal` holding its members, a record holds its field values in declaration order,
a `ListVal` holds the components of a table index. -/
inductive Val
  | int (v : Int) (type : TypeTag)
  | uint (v : Nat) (type : TypeTag)
  | double (v : Nat) (type : TypeTag)
  | StringVal (s : List Nat)
  | PortVal (p : Nat)
  | AddrVal (a : List Nat)
  | SubNetVal (net : List Nat) (width : Nat)
  | TableVal (index : TypeTag) (members : List Val)
  | VectorVal (yield : TypeTag) (elems : List Val)
  | RecordVal (fields : List Val)
  | ListVal (vals : List Val)

mutual
/-- Equality of host values is decidable. -/
def Val.decEq : (a b : Val) → Decidable (a = b)
  | .int v t, b =>
    match b with
    | .int v2 t2 =>
      if h : v = v2 ∧ t = t2 then isTrue (by rw [h.1, h.2])
      else isFalse (by intro e; cases e; exact h ⟨rfl, rfl⟩)
    | .uint _ _ | .double _ _ | .StringVal _ | .PortVal _ | .AddrVal _ | .SubNetVal _ _
    | .TableVal _ _ | .VectorVal _ _ | .RecordVal _ | .ListVal _ =>
      isFalse (by intro e; cases e)
  | .uint v t, b =>
    match b with
    | .uint v2 t2 =>
      if h : v = v2 ∧ t = t2 then isTrue (by rw [h.1, h.2])
      else isFalse (by intro e; cases e; exact h ⟨rfl, rfl⟩)
    | .int _ _ | .double _ _ | .StringVal _ | .PortVal _ | .AddrVal _ | .SubNetVal _ _
    | .TableVal _ _ | .VectorVal _ _ | .RecordVal _ | .ListVal _ =>
      isFalse (by intro e; cases e)
  | .double v t, b =>
    match b with
    | .double v2 t2 =>
      if h : v = v2 ∧ t = t2 then isTrue (by rw [h.1, h.2])
      else isFalse (by intro e; cases e; exact h ⟨rfl, rfl⟩)
    | .int _ _ | .uint _ _ | .StringVal _ | .PortVal _ | .AddrVal _ | .SubNetVal _ _
    | .TableVal _ _ | .VectorVal _ _ | .RecordVal _ | .ListVal _ =>
      isFalse (by intro e; cases e)
  | .StringVal s, b =>
    match b with
    | .StringVal s2 =>
      if h : s = s2 then isTrue (by rw [h])
      else isFalse (by intro e; cases e; exact h rfl)
    | .int _ _ | .uint _ _ | .double _ _ | .PortVal _ | .AddrVal _ | .SubNetVal _ _
    | .TableVal _ _ | .VectorVal _ _ | .RecordVal _ | .ListVal _ =>
      isFalse (by intro e; cases e)
  | .PortVal s, b =>
    match b with
    | .PortVal s2 =>
      if h : s = s2 then isTrue (by rw [h])
      else isFalse (by intro e; cases e; exact h rfl)
    | .int _ _ | .uint _ _ | .double _ _ | .StringVal _ | .AddrVal _ | .SubNetVal _ _
    | .TableVal _ _ | .VectorVal _ _ | .RecordVal _ | .ListVal _ =>
      isFalse (by intro e; cases e)
  | .AddrVal s, b =>
    match b with
    | .AddrVal s2 =>
      if h : s = s2 then isTrue (by rw [h])
      else isFalse (by intro e; cases e; exact h rfl)
    | .int _ _ | .uint _ _ | .double _ _ | .StringVal _ | .PortVal _ | .SubNetVal _ _
    | .TableVal _ _ | .VectorVal _ _ | .RecordVal _ | .ListVal _ =>
      isFalse (by intro e; cases e)
  | .SubNetVal n w, b =>
    match b with
    | .SubNetVal n2 w2 =>
      if h : n = n2 ∧ w = w2 then isTrue (by rw [h.1, h.2])
      else isFalse (by intro e; cases e; exact h ⟨rfl, rfl⟩)
    | .int _ _ | .uint _ _ | .double _ _ | .StringVal _ | .PortVal _ | .AddrVal _
    | .TableVal _ _ | .VectorVal _ _ | .RecordVal _ | .ListVal _ =>
      isFalse (by intro e; cases e)
  | .TableVal t xs, b =>
    match b with
    | .TableVal t2 ys =>
      match Val.decEqList xs ys with
      | isTrue h =>
        if ht : t = t2 then isTrue (by rw [h, ht])
        else isFalse (by intro e; cases e; exact ht rfl)
      | isFalse h => isFalse (by intro e; cases e; exact h rfl)
    | .int _ _ | .uint _ _ | .double _ _ | .StringVal _ | .PortVal _ | .AddrVal _
    | .SubNetVal _ _ | .VectorVal _ _ | .RecordVal _ | .ListVal _ =>
      isFalse (by intro e; cases e)
  | .VectorVal t xs, b =>
    match b with
    | .VectorVal t2 ys =>
      match Val.decEqList xs ys with
      | isTrue h =>
        if ht : t = t2 then isTrue (by rw [h, ht])
        else isFalse (by intro e; cases e; exact ht rfl)
      | isFalse h => isFalse (by intro e; cases e; exact h rfl)
    | .int _ _ | .uint _ _ | .double _ _ | .StringVal _ | .PortVal _ | .AddrVal _
    | .SubNetVal _ _ | .TableVal _ _ | .RecordVal _ | .ListVal _ =>
      isFalse (by intro e; cases e)
  | .RecordVal xs, b =>
    match b with
    | .RecordVal ys =>
      match Val.decEqList xs ys with
      | isTrue h => isTrue (by rw [h])
      | isFalse h => isFalse (by intro e; cases e; exact h rfl)
    | .int _ _ | .uint _ _ | .double _ _ | .StringVal _ | .PortVal _ | .AddrVal _
    | .SubNetVal _ _ | .TableVal _ _ | .VectorVal _ _ | .ListVal _ =>
      isFalse (by intro e; cases e)
  | .ListVal xs, b =>
    match b with
    | .ListVal ys =>
      match Val.decEqList xs ys with
      | isTrue h => isTrue (by rw [h])
      | isFalse h => isFalse (by intro e; cases e; exact h rfl)
    | .int _ _ | .uint _ _ | .double _ _ | .StringVal _ | .PortVal _ | .AddrVal _
    | .SubNetVal _ _ | .TableVal _ _ | .VectorVal _ _ | .RecordVal _ =>
      isFalse (by intro e; cases e)
/-- Equality of lists of host values is decidable. -/
def Val.decEqList : (a b : List Val) → Decidable (a = b)
  | [], [] => isTrue rfl
  | [], _ :: _ => isFalse (by intro e; cases e)
  | _ :: _, [] => isFalse (by intro e; cases e)
  | x :: xs, y :: ys =>
    match Val.decEq x y, Val.decEqList xs ys with
    | isTrue h1, isTrue h2 => isTrue (by rw [h1, h2])
    | isFalse h1, _ => isFalse (by intro e; cases e; exact h1 rfl)
    | _, isFalse h2 => isFalse (by intro e; cases e; exact h2 rfl)
end

instance : DecidableEq Val := Val.decEq

/-! ## The canonical byte encoding and the fingerprint -/

/-- Modelled from the spec: `sizeof(val->val.int_val)`, a native-width signed integer. -/
def sizeof_int_val : Nat := 8

/-- Modelled from the spec: `sizeof(val->val.uint_val)`, a native-width unsigned integer. -/
def sizeof_uint_val : Nat := 8

/-- Modelled from the spec: `sizeof(val->val.double_val)`, an IEEE-754 double. -/
def sizeof_double_val : Nat := 8

/-- Modelled from the spec: `NUM_ADDR_WORDS`, an address is four 32-bit words. -/
def NUM_ADDR_WORDS : Nat := 4

/-- The size `sizeof(uint32_t)`. -/
def sizeof_uint32_t : Nat := 4

/-- Modelled from the spec: `sizeof(val->val.subnet_val.width)`. -/
def sizeof_subnet_width : Nat := 4

/-- Modelled from the spec: `sizeof(val->val.subnet_val.net)`, an address. -/
def sizeof_subnet_net : Nat := NUM_ADDR_WORDS * sizeof_uint32_t

/-- The `n` bytes of the unsigned number `v` reduced modulo `256 ^ n`, lowest first. -/
def toBytes : Nat → Nat → List Nat
  | 0, _ => []
  | n + 1, v => v % 256 :: toBytes n (v / 256)

/-- The bytes of a signed integer of `n` bytes in two's complement. -/
def intBytes (n : Nat) (v : Int) : List Nat :=
  toBytes n (v % (256 ^ n : Nat)).toNat

/-- The bytes of the first `NUM_ADDR_WORDS` words of an address array; a word the list
does not have reads as 0. -/
def addrBytes (words : List Nat) : List Nat :=
  ((List.range NUM_ADDR_WORDS).map fun j => toBytes sizeof_uint32_t (words.getD j 0)).flatten

/-- A buffer obtained from `malloc`: a byte is `none` until it is written. -/
abbrev Buffer := List (Option Nat)

/-- The call `malloc(length)`. The source's `malloc` leaves in a byte what the heap held;
the buffer keeps such a byte as `none`, which tells that it was never written and not
what it holds. -/
def malloc (length : Nat) : Buffer := List.replicate length none

/-- The call `memcpy(data + pos, src, src.length)`; a write past the end of the buffer
is dropped. -/
def memcpy : Buffer → Nat → List Nat → Buffer
  | [], _, _ => []
  | d :: ds, 0, [] => d :: ds
  | _ :: ds, 0, b :: bs => some b :: memcpy ds 0 bs
  | d :: ds, p + 1, src => d :: memcpy ds p src

mutual
/-- The function `InputMgr::GetLogValLength`. -/
def GetLogValLength : LogVal → Nat
  | .bool _ => sizeof_int_val
  | .int _ => sizeof_int_val
  | .count _ => sizeof_uint_val
  | .counter _ => sizeof_uint_val
  | .port _ => sizeof_uint_val
  | .double _ => sizeof_double_val
  | .time _ => sizeof_double_val
  | .interval _ => sizeof_double_val
  | .string s => s.length
  | .enum s => s.length
  | .addr _ => NUM_ADDR_WORDS * sizeof_uint32_t
  | .subnet _ _ => sizeof_subnet_width + sizeof_subnet_net
  | .table vals => GetLogValLength.loop vals
  | .vector vals => GetLogValLength.loop vals
/-- The loop `for i < size: length += GetLogValLength(vals[i])`. -/
def GetLogValLength.loop : List LogVal → Nat
  | [] => 0
  | v :: vs => GetLogValLength v + GetLogValLength.loop vs
end

mutual
/-- The function `InputMgr::CopyLogVal`: the buffer after the writes and the length
returned. For a subnet both `memcpy` calls write at `data + startpos`. -/
def CopyLogVal (data : Buffer) (startpos : Nat) : LogVal → Buffer × Nat
  | .bool v => (memcpy data startpos (intBytes sizeof_int_val v), sizeof_int_val)
  | .int v => (memcpy data startpos (intBytes sizeof_int_val v), sizeof_int_val)
  | .count v => (memcpy data startpos (toBytes sizeof_uint_val v), sizeof_uint_val)
  | .counter v => (memcpy data startpos (toBytes sizeof_uint_val v), sizeof_uint_val)
  | .port v => (memcpy data startpos (toBytes sizeof_uint_val v), sizeof_uint_val)
  | .double v => (memcpy data startpos (toBytes sizeof_double_val v), sizeof_double_val)
  | .time v => (memcpy data startpos (toBytes sizeof_double_val v), sizeof_double_val)
  | .interval v => (memcpy data startpos (toBytes sizeof_double_val v), sizeof_double_val)
  | .string s => (memcpy data startpos s, s.length)
  | .enum s => (memcpy data startpos s, s.length)
  | .addr a => (memcpy data startpos (addrBytes a), NUM_ADDR_WORDS * sizeof_uint32_t)
  | .subnet net width =>
    let data1 := memcpy data startpos (toBytes sizeof_subnet_width width)
    let data2 := memcpy data1 startpos (addrBytes net)
    (data2, sizeof_subnet_width + sizeof_subnet_net)
  | .table vals => CopyLogVal.loop startpos vals data 0
  | .vector vals => CopyLogVal.loop startpos vals data 0
/-- The loop `for i < size: length += CopyLogVal(data, startpos+length, vals[i])`. -/
def CopyLogVal.loop (startpos : Nat) : List LogVal → Buffer → Nat → Buffer × Nat
  | [], data, length => (data, length)
  | v :: vs, data, length =>
    CopyLogVal.loop startpos vs (CopyLogVal data (startpos + length) v).1
      (length + (CopyLogVal data (startpos + length) v).2)
end

/-- Modelled from the spec: a `HashKey` built by `new HashKey(data, length)`; its
identity is the canonical byte encoding it was built from. -/
structure HashKey where
  key : Buffer
  deriving DecidableEq, Repr

/-- Modelled from the spec: `HashKey::Hash`. The hash primitive is outside `src/`; the
spec defines hashing of a fingerprint by the bytes of its encoding, so the hash is
taken to be those bytes. -/
def HashKey.Hash (k : HashKey) : Buffer := k.key

/-- The first loop of `HashLogVals`: the sum of `GetLogValLength(vals[i])` for
`i < num_elements`. -/
def HashLogVals.length : Nat → List LogVal → Except Err Nat
  | 0, _ => .ok 0
  | _ + 1, [] => .error .OutOfBounds
  | n + 1, v :: vs =>
    match HashLogVals.length n vs with
    | .ok l => .ok (GetLogValLength v + l)
    | .error e => .error e

/-- The second loop of `HashLogVals`: `position += CopyLogVal(data, position, vals[i])`
for `i < num_elements`. -/
def HashLogVals.copy : Nat → List LogVal → Buffer → Nat → Except Err (Buffer × Nat)
  | 0, _, data, position => .ok (data, position)
  | _ + 1, [], _, _ => .error .OutOfBounds
  | n + 1, v :: vs, data, position =>
    HashLogVals.copy n vs (CopyLogVal data position v).1
      (position + (CopyLogVal data position v).2)

/-- The function `InputMgr::HashLogVals` on the cells `vals[0 .. num_elements)`. The
key is built from all `length` bytes. A key that keeps a `none` byte, as every Subnet cell
leaves some, stands for a key whose bytes depend on the heap: two such keys that are
equal here need not be equal in a run, so what is stated of the comparison of keys is
stated for keys with all bytes written. -/
def HashLogVals (num_elements : Nat) (vals : List LogVal) : Except Err HashKey :=
  match HashLogVals.length num_elements vals with
  | .error e => .error e
  | .ok length =>
    match HashLogVals.copy num_elements vals (malloc length) 0 with
    | .error e => .error e
    | .ok (data, position) =>
      if position = length then .ok ⟨data⟩ else .error .AssertFailed

/-! ## Conversion of cells to host values -/

/-- Modelled from the spec: `TableVal::Assign(member, 0)` on a set, which holds a
member once. -/
def setAssign (members : List Val) (v : Val) : List Val :=
  if v ∈ members then members else members ++ [v]

mutual
/-- The `switch` of `InputMgr::LogValToVal`, entered once the requested tag has been
checked. The vector branch reads its elements through `set_val`, which shares its
layout with `vector_val`. -/
def LogValToVal.switch : LogVal → Except Err Val
  | .bool v => .ok (.int v TYPE_BOOL)
  | .int v => .ok (.int v TYPE_INT)
  | .count v => .ok (.uint v TYPE_COUNT)
  | .counter v => .ok (.uint v TYPE_COUNTER)
  | .double v => .ok (.double v TYPE_DOUBLE)
  | .time v => .ok (.double v TYPE_TIME)
  | .interval v => .ok (.double v TYPE_INTERVAL)
  | .string s => .ok (.StringVal s)
  | .port v => .ok (.PortVal v)
  | .addr a => .ok (.AddrVal a)
  | .subnet net width => .ok (.SubNetVal net width)
  | .table [] => .error .InternalError
  | .table (v :: vs) =>
    match LogValToVal.setLoop v.type (v :: vs) [] with
    | .ok members => .ok (.TableVal v.type members)
    | .error e => .error e
  | .vector [] => .error .AssertFailed
  | .vector [_] => .error .AssertFailed
  | .vector (v :: w :: vs) =>
    match LogValToVal.vectorLoop v.type (v :: w :: vs) with
    | .ok elems => .ok (.VectorVal v.type elems)
    | .error e => .error e
  | .enum _ => .error .InternalError
/-- The loop of the set branch: `assert(vals[i]->type == type)` and then
`t->Assign(LogValToVal(vals[i], type), 0)`. -/
def LogValToVal.setLoop (type : TypeTag) : List LogVal → List Val → Except Err (List Val)
  | [], members => .ok members
  | v :: vs, members =>
    if v.type ≠ type then .error .AssertFailed
    else if type ≠ TYPE_ANY ∧ type ≠ v.type then .error .InternalError
    else
      match LogValToVal.switch v with
      | .ok x => LogValToVal.setLoop type vs (setAssign members x)
      | .error e => .error e
/-- The loop of the vector branch: `assert(vals[i]->type == type)` and then
`v->Assign(i, LogValToVal(vals[i], type), 0)`. -/
def LogValToVal.vectorLoop (type : TypeTag) : List LogVal → Except Err (List Val)
  | [] => .ok []
  | v :: vs =>
    if v.type ≠ type then .error .AssertFailed
    else if type ≠ TYPE_ANY ∧ type ≠ v.type then .error .InternalError
    else
      match LogValToVal.switch v with
      | .ok x =>
        match LogValToVal.vectorLoop type vs with
        | .ok xs => .ok (x :: xs)
        | .error e => .error e
      | .error e => .error e
end

/-- The function `InputMgr::LogValToVal`; `request_type` is `TYPE_ANY` when the caller
leaves it out. -/
def LogValToVal (val : LogVal) (request_type : TypeTag) : Except Err Val :=
  if request_type ≠ TYPE_ANY ∧ request_type ≠ val.type then .error .InternalError
  else LogValToVal.switch val

/-- The read `vals[position]`. -/
def readCell (vals : List LogVal) (position : Nat) : Except Err LogVal :=
  match vals.get? position with
  | some v => .ok v
  | none => .error .OutOfBounds

mutual
/-- The function `InputMgr::LogValToRecordVal`: the record built and the cursor after
it. -/
def LogValToRecordVal (vals : List LogVal) : BroType → Nat → Except Err (Val × Nat)
  | .record fields, position =>
    match LogValToRecordVal.loop vals fields position with
    | .ok (fs, p) => .ok (.RecordVal fs, p)
    | .error e => .error e
  | .base _, _ => .error .InternalError
  | .table _ _, _ => .error .InternalError
  | .vector _, _ => .error .InternalError
/-- The loop over the fields of the record in `LogValToRecordVal`. -/
def LogValToRecordVal.loop (vals : List LogVal) :
    List (String × BroType) → Nat → Except Err (List Val × Nat)
  | [], position => .ok ([], position)
  | (name, t) :: rest, position =>
    match LogValToRecordVal.field vals (name, t) position with
    | .ok (fieldVal, p) =>
      match LogValToRecordVal.loop vals rest p with
      | .ok (fs, q) => .ok (fieldVal :: fs, q)
      | .error e => .error e
    | .error e => .error e
/-- One round of the loop: a record field recurses with the same cursor, any other
field converts `vals[*position]` and advances the cursor by one. -/
def LogValToRecordVal.field (vals : List LogVal) :
    String × BroType → Nat → Except Err (Val × Nat)
  | (_, .record fields), position => LogValToRecordVal vals (.record fields) position
  | (_, .base tag), position =>
    match readCell vals position with
    | .ok c =>
      match LogValToVal c tag with
      | .ok v => .ok (v, position + 1)
      | .error e => .error e
    | .error e => .error e
  | (_, .table _ _), position =>
    match readCell vals position with
    | .ok c =>
      match LogValToVal c TYPE_TABLE with
      | .ok v => .ok (v, position + 1)
      | .error e => .error e
    | .error e => .error e
  | (_, .vector _), position =>
    match readCell vals position with
    | .ok c =>
      match LogValToVal c TYPE_VECTOR with
      | .ok v => .ok (v, position + 1)
      | .error e => .error e
    | .error e => .error e
end

/-- The body shared by the loops that assemble an index list or a value record: a
record field is built by `LogValToRecordVal` with the same cursor, any other field
converts `vals[position]` at the field's tag and advances the cursor by one. -/
def convertField (vals : List LogVal) (t : BroType) (position : Nat) :
    Except Err (Val × Nat) :=
  if t.Tag = TYPE_RECORD then LogValToRecordVal vals t position
  else
    match readCell vals position with
    | .ok c =>
      match LogValToVal c t.Tag with
      | .ok v => .ok (v, position + 1)
      | .error e => .error e
    | .error e => .error e

/-- The loop `for j < type->NumFields()` of `LogValToIndexVal`, of `SendEntry` and of
`Put`: the values built and the cursor after them. -/
def convertFields (vals : List LogVal) : RecordType → Nat → Except Err (List Val × Nat)
  | [], position => .ok ([], position)
  | (_, t) :: rest, position =>
    match convertField vals t position with
    | .ok (v, p) =>
      match convertFields vals rest p with
      | .ok (vs, q) => .ok (v :: vs, q)
      | .error e => .error e
    | .error e => .error e

/-- The `else` branch of `LogValToIndexVal`: a `ListVal` of the converted fields. -/
def LogValToIndexVal.list (type : RecordType) (vals : List LogVal) :
    Except Err (Val × Nat) :=
  match convertFields vals type 0 with
  | .ok (l, p) => .ok (.ListVal l, p)
  | .error e => .error e

/-- The two branches of `LogValToIndexVal`: the index value and the cursor after it.
The test reads `type->FieldType(0)` only when `num_fields == 1`. -/
def LogValToIndexVal.walk (num_fields : Nat) (type : RecordType) (vals : List LogVal) :
    Except Err (Val × Nat) :=
  if num_fields = 1 then
    match type with
    | [] => .error .OutOfBounds
    | (_, t) :: _ =>
      if t.Tag ≠ TYPE_RECORD then
        match readCell vals 0 with
        | .ok c =>
          match LogValToVal c TYPE_ANY with
          | .ok v => .ok (v, 1)
          | .error e => .error e
        | .error e => .error e
      else LogValToIndexVal.list type vals
  else LogValToIndexVal.list type vals

/-- The function `InputMgr::LogValToIndexVal`. -/
def LogValToIndexVal (num_fields : Nat) (type : RecordType) (vals : List LogVal) :
    Except Err Val :=
  match LogValToIndexVal.walk num_fields type vals with
  | .ok (idxval, position) =>
    if position = num_fields then .ok idxval else .error .AssertFailed
  | .error e => .error e

/-! ## The dictionaries, the destination table and the stream state -/

/-- Modelled from the spec: the key under which the destination table files an index
value, its own hash of that value. The key holds the components of the index, which is
what `RecoverIndex` gives back. -/
abbrev IndexKey := List Val

/-- The class `InputHash`. -/
structure InputHash where
  valhash : HashKey
  idxkey : IndexKey
  deriving DecidableEq

/-- A pointer of type `InputHash*`: null, an object, or an object that was deleted. -/
inductive Ptr
  | null
  | obj (h : InputHash)
  | deleted
  deriving DecidableEq

/-- Modelled from the spec: a dictionary `PDict(InputHash)` from fingerprints to
`InputHash*`, listed in iteration order. -/
abbrev PDict := List (HashKey × Ptr)

/-- Modelled from the spec: `Lookup(key)`, the value filed under the key, null when
there is none. -/
def PDict.Lookup : PDict → HashKey → Ptr
  | [], _ => .null
  | (k, p) :: d, key => if k = key then p else PDict.Lookup d key

/-- Modelled from the spec: the dictionary after `Remove(key)` or `RemoveEntry(key)`;
the value they return is `Lookup(key)` before. -/
def PDict.Remove (d : PDict) (key : HashKey) : PDict :=
  d.filter fun e => decide (e.1 ≠ key)

/-- Modelled from the spec: the dictionary after `Insert(key, val)`, which replaces the
value of a key that is present and adds the key otherwise. -/
def PDict.Insert : PDict → HashKey → Ptr → PDict
  | [], key, p => [(key, p)]
  | (k, q) :: d, key, p => if k = key then (k, p) :: d else (k, q) :: PDict.Insert d key p

/-- Modelled from the spec: the destination table, from index keys to values. -/
abbrev TableVal := List (IndexKey × Val)

/-- Modelled from the spec: `TableVal::ComputeHash`, null for a value the table cannot
hash. An index list is filed under its components, a bare value under itself. -/
def ComputeHash : Val → Option IndexKey
  | .ListVal l => some l
  | .int v t => some [.int v t]
  | .uint v t => some [.uint v t]
  | .double v t => some [.double v t]
  | .StringVal s => some [.StringVal s]
  | .PortVal p => some [.PortVal p]
  | .AddrVal a => some [.AddrVal a]
  | .SubNetVal n w => some [.SubNetVal n w]
  | .TableVal t m => some [.TableVal t m]
  | .VectorVal t e => some [.VectorVal t e]
  | .RecordVal f => some [.RecordVal f]

/-- Modelled from the spec: `TableVal::RecoverIndex`, the index list a key stands
for. -/
def RecoverIndex (k : IndexKey) : Option Val := some (.ListVal k)

/-- Modelled from the spec: the value the table holds under a key. -/
def TableVal.find : TableVal → IndexKey → Option Val
  | [], _ => none
  | (k, v) :: t, key => if k = key then some v else TableVal.find t key

/-- Modelled from the spec: `TableVal::Lookup(index)`. -/
def TableVal.Lookup (tab : TableVal) (index : Val) : Option Val :=
  match ComputeHash index with
  | some k => tab.find k
  | none => none

/-- Modelled from the spec: the table after `Assign(index, k, val)`. -/
def TableVal.Assign : TableVal → IndexKey → Val → TableVal
  | [], key, v => [(key, v)]
  | (k, w) :: t, key, v =>
    if k = key then (k, v) :: t else (k, w) :: TableVal.Assign t key v

/-- Modelled from the spec: the table after `Delete(k)`. -/
def TableVal.Delete (tab : TableVal) (key : IndexKey) : TableVal :=
  tab.filter fun e => decide (e.1 ≠ key)

/-- Modelled from the spec: the table after `RemoveAll()`. -/
def TableVal.RemoveAll (_tab : TableVal) : TableVal := []

/-- The enumeration `Input::Event`. -/
inductive EventTag
  | EVENT_NEW
  | EVENT_CHANGED
  | EVENT_REMOVED
  deriving DecidableEq, Repr

open EventTag

/-- The struct `InputMgr::Filter`; `pred` is `none` for a filter registered without a
predicate. -/
structure Filter where
  name : String
  pred : Option (EventTag → Val → Val → Bool)

/-- Modelled from the spec: an `EnumVal` of the host, the object `obj` that a pointer
to it names and the enumerator `AsEnum()` it holds. -/
structure EnumVal where
  obj : Nat
  AsEnum : Nat
  deriving DecidableEq, Repr

/-- The struct `InputMgr::ReaderInfo`. The enumerator `type` and the reader object are
kept by their numbers. -/
structure ReaderInfo where
  id : EnumVal
  type : Nat
  reader : Nat
  num_idx_fields : Nat
  num_val_fields : Nat
  want_record : Bool
  tab : TableVal
  rtype : RecordType
  itype : RecordType
  currDict : PDict
  lastDict : PDict
  events : List String
  filters : List Filter

/-- An event handed to the host dispatcher by `mgr.Dispatch`. -/
structure Event where
  name : String
  tag : EventTag
  left : Val
  right : Val
  deriving DecidableEq

/-- A call of a filter predicate. -/
structure PredCall where
  name : String
  tag : EventTag
  idx : Val
  val : Val
  deriving DecidableEq

/-- What a manager operation hands to the host: the events dispatched and the
predicate calls made, in order. -/
structure Out where
  events : List Event
  calls : List PredCall
  deriving DecidableEq

/-- The function `InputMgr::SendEvent(name, event, left, right)`: the events it
dispatches. `event_registry` lists the names that `event_registry->Lookup` finds. -/
def SendEvent (event_registry : List String) (name : String) (event : EventTag)
    (left right : Val) : List Event :=
  if name ∈ event_registry then [⟨name, event, left, right⟩] else []

/-! ## The operations on a stream -/

/-- The value half of a row as `SendEntry` and `Put` build it: the bare value of the
single cell when `num_val_fields == 1 && !want_record`, else a record of `rtype`
assembled from the cursor `num_idx_fields` on. -/
def valvalOf (i : ReaderInfo) (vals : List LogVal) : Except Err Val :=
  if i.num_val_fields = 1 ∧ i.want_record = false then
    match readCell vals i.num_idx_fields with
    | .ok c => LogValToVal c TYPE_ANY
    | .error e => .error e
  else
    match convertFields vals i.rtype i.num_idx_fields with
    | .ok (r, _) => .ok (.RecordVal r)
    | .error e => .error e

/-- The filter loop of `SendEntry`: `true` when no predicate vetoes, `false` at the
first veto, with the calls made. A filter without a predicate takes the `continue`
that does not advance the iterator. -/
def SendEntry.filterLoop (ev : EventTag) (idxval valval : Val) :
    Nat → List Filter → Except Err (Bool × List PredCall)
  | _, [] => .ok (true, [])
  | 0, _ :: _ => .error .Diverges
  | fuel + 1, f :: rest =>
    match f.pred with
    | none => SendEntry.filterLoop ev idxval valval fuel (f :: rest)
    | some p =>
      if p ev idxval valval = false then .ok (false, [⟨f.name, ev, idxval, valval⟩])
      else
        match SendEntry.filterLoop ev idxval valval fuel rest with
        | .ok (r, calls) => .ok (r, ⟨f.name, ev, idxval, valval⟩ :: calls)
        | .error e => .error e

/-- The event loop of `SendEntry`: a changed row sends the old value, after
`assert(oldval != 0)`; a new row sends the new value. -/
def SendEntry.eventLoop (event_registry : List String) (updated : Bool)
    (idxval valval : Val) (oldval : Option Val) : List String → Except Err (List Event)
  | [] => .ok []
  | name :: rest =>
    if updated then
      match oldval with
      | none => .error .AssertFailed
      | some old =>
        match SendEntry.eventLoop event_registry updated idxval valval oldval rest with
        | .ok evs => .ok (SendEvent event_registry name EVENT_CHANGED idxval old ++ evs)
        | .error e => .error e
    else
      match SendEntry.eventLoop event_registry updated idxval valval oldval rest with
      | .ok evs => .ok (SendEvent event_registry name EVENT_NEW idxval valval ++ evs)
      | .error e => .error e

/-- The part of `SendEntry` from the filters on: `h` is the pointer found in
`lastDict`, already deleted when `updated` is set. -/
def SendEntry.finish (event_registry : List String) (fuel : Nat) (i : ReaderInfo)
    (idxhash valhash : HashKey) (updated : Bool) (h : Ptr) (idxval valval : Val) :
    Except Err (ReaderInfo × Out) :=
  let oldval : Option Val := if updated then i.tab.Lookup idxval else none
  let ev := if updated then EVENT_CHANGED else EVENT_NEW
  match SendEntry.filterLoop ev idxval valval fuel i.filters with
  | .error e => .error e
  | .ok (false, calls) =>
    if updated = false then
      .ok ({ i with currDict := i.currDict.Remove idxhash }, ⟨[], calls⟩)
    else
      .ok ({ i with currDict := i.currDict.Insert idxhash h }, ⟨[], calls⟩)
  | .ok (true, calls) =>
    match ComputeHash idxval with
    | none => .error .InternalError
    | some k =>
      match ComputeHash idxval with
      | none => .error .InternalError
      | some k2 =>
        match SendEntry.eventLoop event_registry updated idxval valval oldval i.events with
        | .error e => .error e
        | .ok evs =>
          .ok ({ i with
                  tab := i.tab.Assign k valval
                  currDict := i.currDict.Insert idxhash (.obj ⟨valhash, k2⟩) },
               ⟨evs, calls⟩)

/-- The part of `SendEntry` after the lookup in `lastDict`: the conversions of the
index and of the value, then the filters, the assignment and the events. -/
def SendEntry.update (event_registry : List String) (fuel : Nat) (i : ReaderInfo)
    (vals : List LogVal) (idxhash valhash : HashKey) (updated : Bool) (h : Ptr) :
    Except Err (ReaderInfo × Out) :=
  match LogValToIndexVal i.num_idx_fields i.itype vals with
  | .error e => .error e
  | .ok idxval =>
    match valvalOf i vals with
    | .error e => .error e
    | .ok valval =>
      SendEntry.finish event_registry fuel i idxhash valhash updated h idxval valval

/-- The function `InputMgr::SendEntry` on the stream `FindReader(reader)` returns. -/
def SendEntry (event_registry : List String) (fuel : Nat) (i : ReaderInfo)
    (vals : List LogVal) : Except Err (ReaderInfo × Out) :=
  match HashLogVals i.num_idx_fields vals with
  | .error e => .error e
  | .ok idxhash =>
    match HashLogVals i.num_val_fields (vals.drop i.num_idx_fields) with
    | .error e => .error e
    | .ok valhash =>
      match i.lastDict.Lookup idxhash with
      | .null => SendEntry.update event_registry fuel i vals idxhash valhash false .null
      | .deleted => .error .Dangling
      | .obj h =>
        if h.valhash.Hash = valhash.Hash then
          .ok ({ i with
                  lastDict := i.lastDict.Remove idxhash
                  currDict := i.currDict.Insert idxhash (.obj h) }, ⟨[], []⟩)
        else
          SendEntry.update event_registry fuel
            { i with lastDict := i.lastDict.Remove idxhash } vals idxhash valhash true
            .deleted

/-- The filter loop of `EndCurrentSend` for the entry under `key`: the two
dictionaries, `doBreak` and the calls made. After a veto the loop goes on with the
next filter. -/
def EndCurrentSend.filterLoop (key : HashKey) (idx val : Val) :
    Nat → List Filter → PDict × PDict × Bool →
      Except Err ((PDict × PDict × Bool) × List PredCall)
  | _, [], st => .ok (st, [])
  | 0, _ :: _, _ => .error .Diverges
  | fuel + 1, f :: rest, (lastDict, currDict, doBreak) =>
    match f.pred with
    | none =>
      EndCurrentSend.filterLoop key idx val fuel (f :: rest) (lastDict, currDict, doBreak)
    | some p =>
      let st : PDict × PDict × Bool :=
        if p EVENT_REMOVED idx val = false then
          (lastDict.Remove key, currDict.Insert key (lastDict.Lookup key), true)
        else (lastDict, currDict, doBreak)
      match EndCurrentSend.filterLoop key idx val fuel rest st with
      | .ok (st2, calls) => .ok (st2, ⟨f.name, EVENT_REMOVED, idx, val⟩ :: calls)
      | .error e => .error e

/-- The event loop of `EndCurrentSend`. -/
def EndCurrentSend.eventLoop (event_registry : List String) (idx val : Val) :
    List String → List Event
  | [] => []
  | name :: rest =>
    SendEvent event_registry name EVENT_REMOVED idx val ++
      EndCurrentSend.eventLoop event_registry idx val rest

/-- The `while` loop of `EndCurrentSend` over the entries `NextEntry` yields; it ends
at the end of the dictionary or at an entry whose value is null. -/
def EndCurrentSend.loop (event_registry : List String) (fuel : Nat) :
    List (HashKey × Ptr) → ReaderInfo → Out → Except Err (ReaderInfo × Out)
  | [], i, out => .ok (i, out)
  | (_, .null) :: _, i, out => .ok (i, out)
  | (_, .deleted) :: _, _, _ => .error .Dangling
  | (lastDictIdxKey, .obj ih) :: rest, i, out =>
    if i.events.length ≠ 0 ∨ i.filters.length ≠ 0 then
      match RecoverIndex ih.idxkey with
      | none => .error .AssertFailed
      | some idx =>
        match i.tab.Lookup idx with
        | none => .error .AssertFailed
        | some val =>
          match EndCurrentSend.filterLoop lastDictIdxKey idx val fuel i.filters
              (i.lastDict, i.currDict, false) with
          | .error e => .error e
          | .ok ((lastDict, currDict, doBreak), calls) =>
            if doBreak then
              EndCurrentSend.loop event_registry fuel rest
                { i with lastDict := lastDict, currDict := currDict }
                ⟨out.events, out.calls ++ calls⟩
            else
              EndCurrentSend.loop event_registry fuel rest
                { i with
                    tab := i.tab.Delete ih.idxkey
                    lastDict := lastDict.Remove lastDictIdxKey
                    currDict := currDict }
                ⟨out.events ++ EndCurrentSend.eventLoop event_registry idx val i.events,
                  out.calls ++ calls⟩
    else
      EndCurrentSend.loop event_registry fuel rest
        { i with
            tab := i.tab.Delete ih.idxkey
            lastDict := i.lastDict.Remove lastDictIdxKey }
        out

/-- The function `InputMgr::EndCurrentSend` on the stream `FindReader(reader)`
returns: the loop over `lastDict`, then `lastDict = currDict` and a fresh `currDict`. -/
def EndCurrentSend (event_registry : List String) (fuel : Nat) (i : ReaderInfo) :
    Except Err (ReaderInfo × Out) :=
  match EndCurrentSend.loop event_registry fuel i.lastDict i ⟨[], []⟩ with
  | .error e => .error e
  | .ok (j, out) => .ok ({ j with lastDict := j.currDict, currDict := [] }, out)

/-- The function `InputMgr::Put` on the stream `FindReader(reader)` returns. -/
def Put (i : ReaderInfo) (vals : List LogVal) : Except Err ReaderInfo :=
  match LogValToIndexVal i.num_idx_fields i.itype vals with
  | .error e => .error e
  | .ok idxval =>
    match valvalOf i vals with
    | .error e => .error e
    | .ok valval =>
      match ComputeHash idxval with
      | none => .ok i
      | some k => .ok { i with tab := i.tab.Assign k valval }

/-- The function `InputMgr::Clear` on the stream `FindReader(reader)` returns. -/
def Clear (i : ReaderInfo) : ReaderInfo :=
  { i with tab := i.tab.RemoveAll }

/-- The function `InputMgr::Delete` on the stream `FindReader(reader)` returns: the
stream afterwards and whether a row was removed. -/
def Delete (i : ReaderInfo) (vals : List LogVal) : Except Err (ReaderInfo × Bool) :=
  match LogValToIndexVal i.num_idx_fields i.itype vals with
  | .error e => .error e
  | .ok idxval =>
    match ComputeHash idxval with
    | none => .ok (i, false)
    | some k => .ok ({ i with tab := i.tab.Delete k }, (i.tab.find k).isSome)

/-- The rows of one snapshot delivered in order through `SendEntry`. -/
def SendEntries (event_registry : List String) (fuel : Nat) :
    ReaderInfo → List (List LogVal) → Except Err (ReaderInfo × Out)
  | i, [] => .ok (i, ⟨[], []⟩)
  | i, vals :: rows =>
    match SendEntry event_registry fuel i vals with
    | .error e => .error e
    | .ok (j, out) =>
      match SendEntries event_registry fuel j rows with
      | .error e => .error e
      | .ok (k, out2) => .ok (k, ⟨out.events ++ out2.events, out.calls ++ out2.calls⟩)

/-- One snapshot: the rows delivered through `SendEntry`, then `EndCurrentSend`. -/
def Snapshot (event_registry : List String) (fuel : Nat) (i : ReaderInfo)
    (rows : List (List LogVal)) : Except Err (ReaderInfo × Out) :=
  match SendEntries event_registry fuel i rows with
  | .error e => .error e
  | .ok (j, out) =>
    match EndCurrentSend event_registry fuel j with
    | .error e => .error e
    | .ok (k, out2) => .ok (k, ⟨out.events ++ out2.events, out.calls ++ out2.calls⟩)

/-! ## Compatible types and the schema of a stream -/

/-- Modelled from the spec: `BroType::IsSet`, a table type without a yield type. -/
def BroType.IsSet : BroType → Bool
  | .table _ none => true
  | _ => false

/-- Modelled from the spec: `Indices()` of a table type, its index types in order. -/
def BroType.Indices : BroType → List BroType
  | .table indices _ => indices
  | _ => []

/-- Modelled from the spec: `YieldType()`, null for a type that yields nothing. -/
def BroType.YieldType : BroType → Option BroType
  | .table _ yield => yield
  | .vector yield => some yield
  | _ => none

mutual
/-- Modelled from the spec: `same_type`, the structural comparison of two host types. -/
def same_type : BroType → BroType → Bool
  | .base a, .base b => decide (a = b)
  | .record fs, .record gs => same_type.fields fs gs
  | .table is y, .table js z => same_type.list is js && same_type.opt y z
  | .vector y, .vector z => same_type y z
  | _, _ => false
termination_by structural t => t
/-- The comparison of `same_type` on the fields of two records. -/
def same_type.fields : List (String × BroType) → List (String × BroType) → Bool
  | [], [] => true
  | f :: fs, g :: gs => same_type.field f g && same_type.fields fs gs
  | _, _ => false
termination_by structural fs => fs
/-- The comparison of `same_type` on one field of each record. -/
def same_type.field : String × BroType → String × BroType → Bool
  | (n, t), (m, u) => decide (n = m) && same_type t u
termination_by structural f => f
/-- The comparison of `same_type` on two type lists. -/
def same_type.list : List BroType → List BroType → Bool
  | [], [] => true
  | t :: ts, u :: us => same_type t u && same_type.list ts us
  | _, _ => false
termination_by structural ts => ts
/-- The comparison of `same_type` on two yield types, either of which may be absent. -/
def same_type.opt : Option BroType → Option BroType → Bool
  | none, none => true
  | some t, some u => same_type t u
  | _, _ => false
termination_by structural t => t
end

/-- Modelled from the spec: `TypeList::PureType`, the type that all members of the list
share, null when the list is empty or its members differ. -/
def PureType : List BroType → Option BroType
  | [] => none
  | t :: rest => if rest.all (fun u => same_type u t) then some t else none

/-- The `switch` of `InputMgr::IsCompatibleType` on the tag of a type that is not null;
`inner` answers the calls `IsCompatibleType(·, true)` of the table and vector cases. -/
def IsCompatibleType.switch (inner : Option BroType → Bool) (t : BroType)
    (atomic_only : Bool) : Bool :=
  match t.Tag with
  | TYPE_BOOL | TYPE_INT | TYPE_COUNT | TYPE_COUNTER | TYPE_PORT | TYPE_SUBNET
  | TYPE_ADDR | TYPE_DOUBLE | TYPE_TIME | TYPE_INTERVAL | TYPE_ENUM | TYPE_STRING => true
  | TYPE_RECORD => !atomic_only
  | TYPE_TABLE =>
    if atomic_only then false
    else if !t.IsSet then false
    else inner (PureType t.Indices)
  | TYPE_VECTOR =>
    if atomic_only then false
    else inner t.YieldType
  | _ => false

/-- The function `InputMgr::IsCompatibleType(t, atomic_only)`; `atomic_only` is false
when the caller leaves it out. The inner call runs with `atomic_only` set, where the
switch calls no further. -/
def IsCompatibleType (t : Option BroType) (atomic_only : Bool := false) : Bool :=
  match t with
  | none => false
  | some t =>
    IsCompatibleType.switch
      (fun u =>
        match u with
        | none => false
        | some u => IsCompatibleType.switch (fun _ => false) u true)
      t atomic_only

/-- The struct `LogField`: the name of a leaf, its tag and, once set, the tag of what a
set or vector leaf holds. -/
structure LogField where
  name : String
  type : TypeTag
  subtype : Option TypeTag
  deriving DecidableEq, Repr

mutual
/-- The function `InputMgr::UnrollRecordType(fields, rec, nameprepend)`: what it returns
and the vector `fields` after the call. -/
def UnrollRecordType (fields : List LogField) :
    List (String × BroType) → String → Except Err (Bool × List LogField)
  | [], _ => .ok (true, fields)
  | (name, t) :: rest, nameprepend =>
    if !IsCompatibleType (some t) then .ok (false, fields)
    else
      match UnrollRecordType.field fields name t nameprepend with
      | .ok (true, fields1) => UnrollRecordType fields1 rest nameprepend
      | .ok (false, fields1) => .ok (false, fields1)
      | .error e => .error e
termination_by structural rec => rec
/-- One round of the loop after the compatibility test, on the field `name` of type
`t`: a record field recurses with the longer prefix, any other field pushes one
`LogField`. A type tagged as a record, table or vector that is no such type, and a null
pure type, end the call. -/
def UnrollRecordType.field (fields : List LogField) (name : String) :
    BroType → String → Except Err (Bool × List LogField)
  | .record sub, nameprepend =>
    UnrollRecordType fields sub (nameprepend ++ name ++ ".")
  | .base tag, nameprepend =>
    if tag = TYPE_RECORD then .error .InternalError
    else if tag = TYPE_TABLE then .error .InternalError
    else if tag = TYPE_VECTOR then .error .InternalError
    else .ok (true, fields ++ [⟨nameprepend ++ name, tag, none⟩])
  | .table indices _, nameprepend =>
    match PureType indices with
    | some p => .ok (true, fields ++ [⟨nameprepend ++ name, TYPE_TABLE, some p.Tag⟩])
    | none => .error .InternalError
  | .vector yield, nameprepend =>
    .ok (true, fields ++ [⟨nameprepend ++ name, TYPE_VECTOR, some yield.Tag⟩])
termination_by structural t => t
end

/-! ## The manager: events, streams and Readers -/

/-- The body of `InputMgr::RegisterEvent` on the stream `FindReader(id)` returns: the
stream after the call and what the call returns. -/
def RegisterEvent (i : ReaderInfo) (eventName : String) : ReaderInfo × Bool :=
  ({ i with events := i.events ++ [eventName] }, true)

/-- The loop of `InputMgr::UnregisterEvent` over the list `events`: the list after the
loop and what the call returns. -/
def UnregisterEvent.loop (eventName : String) : List String → List String × Bool
  | [] => ([], false)
  | e :: rest =>
    if e = eventName then (rest, true)
    else
      let r := UnregisterEvent.loop eventName rest
      (e :: r.1, r.2)

/-- The body of `InputMgr::UnregisterEvent` on the stream `FindReader(id)` returns. -/
def UnregisterEvent (i : ReaderInfo) (eventName : String) : ReaderInfo × Bool :=
  let r := UnregisterEvent.loop eventName i.events
  ({ i with events := r.1 }, r.2)

/-- Modelled from the spec: a Reader as `CreateReader` meets it, by what `Init` returns
for a source and a schema, the rows its first `Update` delivers through `SendEntry`
before `EndCurrentSend`, and what that `Update` returns. -/
structure InputReader where
  Init : String → Nat → Nat → List LogField → Bool
  rows : List (List LogVal)
  Update : Bool

/-- The struct `InputReaderDefinition`. The pointer `init` is kept as the value the
function returns when called and `factory` as the Reader it instantiates; each is
`none` for a null pointer. -/
structure InputReaderDefinition where
  type : Nat
  name : String
  init : Option Bool
  factory : Option InputReader

/-- Modelled from the spec: the enumerator `BifEnum::Input::READER_DEFAULT`. -/
def READER_DEFAULT : Nat := 0

/-- Modelled from the spec: the enumerator `BifEnum::Input::READER_ASCII`. -/
def READER_ASCII : Nat := 1

/-- Modelled from the spec: the record value `description` handed to `CreateReader`;
`right_type` tells whether its type is `Input::ReaderDescription`, the other fields are
the fields of that record. -/
structure ReaderDescription where
  right_type : Bool
  reader : EnumVal
  source : String
  idx : RecordType
  val : RecordType
  destination : TableVal
  want_record : Bool

/-- The state of the manager: the vector `readers`, the table `input_readers`, the
kinds whose `init` function was called, in order, and the number of Reader objects the
factories have made, which names the next one. -/
structure Manager where
  readers : List ReaderInfo
  input_readers : List InputReaderDefinition
  init_calls : List Nat
  instantiated : Nat

/-- The function `InputMgr::FindReader(const EnumVal* id)`. -/
def FindReader (m : Manager) (id : EnumVal) : Option ReaderInfo :=
  m.readers.find? fun s => decide (s.id.AsEnum = id.AsEnum)

/-- The function `InputMgr::RemoveReader(id)`; the test `(*s)->id == id` compares the
two pointers. -/
def RemoveReader (m : Manager) (id : EnumVal) : Manager × Bool :=
  match m.readers.find? fun s => decide (s.id.obj = id.obj) with
  | none => (m, false)
  | some _ =>
    ({ m with readers := m.readers.eraseP fun s => decide (s.id.obj = id.obj) }, true)

/-- The loop `while ( true )` of `CreateReader` over the table `input_readers`: the
table after the loop, the kinds whose `init` was called, and the factory to call, `none`
where the function returns 0. Running off a table without end marker is out of
bounds. -/
def CreateReader.find (reader : Nat) :
    List InputReaderDefinition →
      Except Err (List InputReaderDefinition × List Nat × Option InputReader)
  | [] => .error .OutOfBounds
  | ir :: rest =>
    if ir.type = READER_DEFAULT then .ok (ir :: rest, [], none)
    else if ir.type ≠ reader then
      match CreateReader.find reader rest with
      | .ok (table, calls, f) => .ok (ir :: table, calls, f)
      | .error e => .error e
    else
      match ir.init with
      | some true => .ok ({ ir with init := none } :: rest, [ir.type], ir.factory)
      | some false => .ok ({ ir with factory := none } :: rest, [ir.type], none)
      | none => .ok (ir :: rest, [], ir.factory)

/-- The statement `assert( RemoveReader(id) ); return 0;` of `CreateReader`. -/
def CreateReader.remove (m : Manager) (id : EnumVal) (out : Out) :
    Except Err (Manager × Option Nat × Out) :=
  match RemoveReader m id with
  | (m1, true) => .ok (m1, none, out)
  | (_, false) => .error .AssertFailed

/-- The function `InputMgr::CreateReader(id, description)`: the manager after the call,
the Reader object returned, `none` for 0, and what the first `Update` handed to the
host. The callbacks of the new Reader reach the stream just pushed. -/
def CreateReader (event_registry : List String) (fuel : Nat) (m : Manager) (id : EnumVal)
    (description : ReaderDescription) : Except Err (Manager × Option Nat × Out) :=
  if !description.right_type then .ok (m, none, ⟨[], []⟩)
  else
    match CreateReader.find description.reader.AsEnum m.input_readers with
    | .error e => .error e
    | .ok (table, calls, none) =>
      .ok ({ m with input_readers := table, init_calls := m.init_calls ++ calls }, none,
        ⟨[], []⟩)
    | .ok (table, calls, some factory) =>
      let reader_obj := m.instantiated + 1
      let m1 : Manager :=
        { m with input_readers := table, init_calls := m.init_calls ++ calls,
                 instantiated := reader_obj }
      match UnrollRecordType [] description.idx "" with
      | .error e => .error e
      | .ok (unrolled_idx, fieldsV1) =>
        let idxfields := fieldsV1.length
        match (if !unrolled_idx then .ok (false, fieldsV1)
               else UnrollRecordType fieldsV1 description.val "") with
        | .error e => .error e
        | .ok (unrolled_val, fieldsV) =>
          let valfields := fieldsV.length - idxfields
          if !unrolled_idx || !unrolled_val then .ok (m1, none, ⟨[], []⟩)
          else
            let info : ReaderInfo :=
              { id := id, type := description.reader.AsEnum, reader := reader_obj,
                num_idx_fields := idxfields, num_val_fields := valfields,
                want_record := description.want_record, tab := description.destination,
                rtype := description.val, itype := description.idx, currDict := [],
                lastDict := [], events := [], filters := [] }
            if valfields > 1 ∧ info.want_record = false then .error .AssertFailed
            else
              let m2 : Manager := { m1 with readers := m1.readers ++ [info] }
              if !factory.Init description.source fieldsV.length idxfields fieldsV then
                CreateReader.remove m2 id ⟨[], []⟩
              else
                match Snapshot event_registry fuel info factory.rows with
                | .error e => .error e
                | .ok (info1, out) =>
                  let m3 : Manager := { m1 with readers := m1.readers ++ [info1] }
                  if !factory.Update then CreateReader.remove m3 id out
                  else .ok (m3, some reader_obj, out)

/-! ## Vocabulary of the statements -/

/-- The idx_keys recorded by the objects filed in a dictionary, in iteration order. -/
def PDict.idxkeys (d : PDict) : List IndexKey :=
  d.filterMap fun e =>
    match e.2 with
    | .obj h => some h.idxkey
    | .null => none
    | .deleted => none

/-- Every value filed in the dictionary is an object that was not deleted. -/
def PDict.AllObj (d : PDict) : Prop :=
  ∀ e ∈ d, ∃ h, e.2 = .obj h

/-- For every object filed in the dictionary, the table holds an entry at its
idx_key. -/
def PrevInDst (d : PDict) (tab : TableVal) : Prop :=
  ∀ fp h, (fp, Ptr.obj h) ∈ d → (tab.find h.idxkey).isSome = true

/-- The `Removed` events of one entry: one for each subscribed name the registry
knows, in subscription order, with the index recovered from the idx_key and the value
the table holds for it. -/
def removedEventsOf (event_registry : List String) (events : List String)
    (tab : TableVal) (e : HashKey × Ptr) : List Event :=
  match e.2 with
  | .obj h =>
    match tab.find h.idxkey with
    | some v =>
      (events.filter fun name => decide (name ∈ event_registry)).map fun name =>
        ⟨name, EVENT_REMOVED, .ListVal h.idxkey, v⟩
    | none => []
  | .null => []
  | .deleted => []

/-- How `SendEntry` classifies a row against `lastDict`. -/
inductive RowClass
  /-- The fingerprint of the index is in `lastDict` with the same value hash. -/
  | unchanged
  /-- The fingerprint of the index is in `lastDict` with another value hash. -/
  | changed
  /-- The fingerprint of the index is not in `lastDict`. -/
  | new
  deriving DecidableEq, Repr

/-- The branch `SendEntry` takes for a row: the two hashes, the lookup in `lastDict`
and the comparison of the value hashes. -/
def classify (i : ReaderInfo) (vals : List LogVal) : Except Err RowClass :=
  match HashLogVals i.num_idx_fields vals with
  | .error e => .error e
  | .ok idxhash =>
    match HashLogVals i.num_val_fields (vals.drop i.num_idx_fields) with
    | .error e => .error e
    | .ok valhash =>
      match i.lastDict.Lookup idxhash with
      | .null => .ok .new
      | .deleted => .error .Dangling
      | .obj h => if h.valhash.Hash = valhash.Hash then .ok .unchanged else .ok .changed

/-- The classification of each row of a snapshot, taken as the row is delivered. -/
def classifyRows (event_registry : List String) (fuel : Nat) :
    ReaderInfo → List (List LogVal) → List (Except Err RowClass)
  | _, [] => []
  | i, vals :: rows =>
    classify i vals ::
      match SendEntry event_registry fuel i vals with
      | .ok (j, _) => classifyRows event_registry fuel j rows
      | .error _ => []

/-- The key under which the table files the index of a row. -/
def idxkeyOf (i : ReaderInfo) (vals : List LogVal) : Except Err IndexKey :=
  match LogValToIndexVal i.num_idx_fields i.itype vals with
  | .error e => .error e
  | .ok idxval =>
    match ComputeHash idxval with
    | some k => .ok k
    | none => .error .InternalError

/-- The index fingerprints of the rows. -/
def fpsOf (i : ReaderInfo) (rows : List (List LogVal)) : List HashKey :=
  rows.filterMap fun vals => (HashLogVals i.num_idx_fields vals).toOption

/-- The index keys of the rows. -/
def keysOf (i : ReaderInfo) (rows : List (List LogVal)) : List IndexKey :=
  rows.filterMap fun vals => (idxkeyOf i vals).toOption

/-- A row whose two halves `SendEntry` can hash and convert. -/
def Convertible (i : ReaderInfo) (vals : List LogVal) : Prop :=
  ∃ idxhash valhash idxval valval k,
    HashLogVals i.num_idx_fields vals = .ok idxhash ∧
    HashLogVals i.num_val_fields (vals.drop i.num_idx_fields) = .ok valhash ∧
    LogValToIndexVal i.num_idx_fields i.itype vals = .ok idxval ∧
    valvalOf i vals = .ok valval ∧
    ComputeHash idxval = some k

/-- A row that converts and that some filter predicate vetoes as `New`. -/
def VetoedNew (fuel : Nat) (i : ReaderInfo) (vals : List LogVal) : Prop :=
  ∃ idxval valval calls,
    LogValToIndexVal i.num_idx_fields i.itype vals = .ok idxval ∧
    valvalOf i vals = .ok valval ∧
    SendEntry.filterLoop EVENT_NEW idxval valval fuel i.filters = .ok (false, calls)

/-- The twelve atomic kinds. -/
def atomicKinds : List TypeTag :=
  [TYPE_BOOL, TYPE_INT, TYPE_COUNT, TYPE_COUNTER, TYPE_PORT, TYPE_SUBNET, TYPE_ADDR,
   TYPE_DOUBLE, TYPE_TIME, TYPE_INTERVAL, TYPE_ENUM, TYPE_STRING]

/-- The inner kind of a leaf: the tag of the pure index type of a table type and the tag
of the yield type of a vector type; other types have none. -/
def innerKind : BroType → Option TypeTag
  | .table indices _ => (PureType indices).map BroType.Tag
  | .vector yield => some yield.Tag
  | _ => none

mutual
/-- The leaves of a record type, the fields that are no records, in depth-first
declaration order, each with the field names on the way from the root to it. -/
def leafPaths : List (String × BroType) → List (List String × BroType)
  | [] => []
  | (name, t) :: rest => leafPaths.field name t ++ leafPaths rest
termination_by structural rec => rec
/-- The leaves below the field `name` of type `t`. -/
def leafPaths.field (name : String) : BroType → List (List String × BroType)
  | .record sub => (leafPaths sub).map fun l => (name :: l.1, l.2)
  | .base tag => [([name], .base tag)]
  | .table indices yield => [([name], .table indices yield)]
  | .vector yield => [([name], .vector yield)]
termination_by structural t => t
end

/-- The names of a path joined by dots. -/
def dotJoined : List String → String
  | [] => ""
  | [name] => name
  | name :: rest => name ++ "." ++ dotJoined rest

/-- The `LogField` the spec gives a leaf under the prefix `p`: the prefix followed by
the dot-joined path, the tag of the leaf and its inner kind. -/
def leafField (p : String) (l : List String × BroType) : LogField :=
  ⟨p ++ dotJoined l.1, l.2.Tag, innerKind l.2⟩

/-- The `LogField`s of the leaves of a record type under the prefix `p`. -/
def leafFields (p : String) (rec : RecordType) : List LogField :=
  (leafPaths rec).map (leafField p)

/-- The cells `vals[position]`, `vals[position + 1]`, ... converted by `LogValToVal`,
the k-th at the tag of the k-th `LogField`. -/
def convertCells (vals : List LogVal) : Nat → List LogField → Except Err (List Val)
  | _, [] => .ok []
  | position, f :: fs =>
    match readCell vals position with
    | .error e => .error e
    | .ok c =>
      match LogValToVal c f.type with
      | .error e => .error e
      | .ok v =>
        match convertCells vals (position + 1) fs with
        | .error e => .error e
        | .ok vs => .ok (v :: vs)

mutual
/-- The values a host value holds below its records, in order. -/
def Val.leaves : Val → List Val
  | .RecordVal fields => Val.leaves.loop fields
  | .int v t => [.int v t]
  | .uint v t => [.uint v t]
  | .double v t => [.double v t]
  | .StringVal s => [.StringVal s]
  | .PortVal p => [.PortVal p]
  | .AddrVal a => [.AddrVal a]
  | .SubNetVal n w => [.SubNetVal n w]
  | .TableVal i m => [.TableVal i m]
  | .VectorVal y e => [.VectorVal y e]
  | .ListVal l => [.ListVal l]
termination_by structural v => v
/-- The leaves of the values of a list, in order. -/
def Val.leaves.loop : List Val → List Val
  | [] => []
  | v :: vs => Val.leaves v ++ Val.leaves.loop vs
termination_by structural vs => vs
end

/-- The fields of a stream that the delivery of rows leaves alone: the stream without
its table and its two dictionaries. -/
def ReaderInfo.settings (i : ReaderInfo) : ReaderInfo :=
  { i with tab := [], currDict := [], lastDict := [] }

/-- No two registered streams have the same id enumerator. -/
def DistinctIds (m : Manager) : Prop :=
  (m.readers.map fun s => s.id.AsEnum).Nodup

mutual
/-- The canonical byte encoding of a cell as the spec tables it: the raw bytes of a
number, the bytes of a String or Enum, the four words of an address, for a Subnet the
width and then the address, for a Set or Vector the encodings of its cells in order. -/
def canonicalEncoding : LogVal → List Nat
  | .bool v => intBytes sizeof_int_val v
  | .int v => intBytes sizeof_int_val v
  | .count v => toBytes sizeof_uint_val v
  | .counter v => toBytes sizeof_uint_val v
  | .port v => toBytes sizeof_uint_val v
  | .double v => toBytes sizeof_double_val v
  | .time v => toBytes sizeof_double_val v
  | .interval v => toBytes sizeof_double_val v
  | .string s => s
  | .enum s => s
  | .addr a => addrBytes a
  | .subnet net width => toBytes sizeof_subnet_width width ++ addrBytes net
  | .table vals => canonicalEncoding.loop vals
  | .vector vals => canonicalEncoding.loop vals
termination_by structural val => val
/-- The encodings of the cells of a list, one after the other. -/
def canonicalEncoding.loop : List LogVal → List Nat
  | [] => []
  | v :: vs => canonicalEncoding v ++ canonicalEncoding.loop vs
termination_by structural vals => vals
end

/-- The schema of a cell: its kind, for a String or Enum the number of its bytes, and
for a Set or Vector the schemas of the cells it holds. -/
inductive Schema
  | atom (kind : TypeTag)
  | bytes (kind : TypeTag) (length : Nat)
  | container (kind : TypeTag) (cells : List Schema)

mutual
/-- The schema of a cell. -/
def LogVal.schema : LogVal → Schema
  | .bool _ => .atom TYPE_BOOL
  | .int _ => .atom TYPE_INT
  | .count _ => .atom TYPE_COUNT
  | .counter _ => .atom TYPE_COUNTER
  | .port _ => .atom TYPE_PORT
  | .double _ => .atom TYPE_DOUBLE
  | .time _ => .atom TYPE_TIME
  | .interval _ => .atom TYPE_INTERVAL
  | .string s => .bytes TYPE_STRING s.length
  | .enum s => .bytes TYPE_ENUM s.length
  | .addr _ => .atom TYPE_ADDR
  | .subnet _ _ => .atom TYPE_SUBNET
  | .table vals => .container TYPE_TABLE (LogVal.schema.loop vals)
  | .vector vals => .container TYPE_VECTOR (LogVal.schema.loop vals)
termination_by structural val => val
/-- The schemas of the cells of a row, or of a Set or Vector. -/
def LogVal.schema.loop : List LogVal → List Schema
  | [] => []
  | v :: vs => LogVal.schema v :: LogVal.schema.loop vs
termination_by structural vals => vals
end

mutual
/-- Whether a cell is no Subnet and holds none. -/
def LogVal.noSubnet : LogVal → Bool
  | .subnet _ _ => false
  | .table vals => LogVal.noSubnet.loop vals
  | .vector vals => LogVal.noSubnet.loop vals
  | .bool _ => true
  | .int _ => true
  | .count _ => true
  | .counter _ => true
  | .port _ => true
  | .double _ => true
  | .time _ => true
  | .interval _ => true
  | .string _ => true
  | .enum _ => true
  | .addr _ => true
termination_by structural val => val
/-- Whether no cell of a list is a Subnet or holds one. -/
def LogVal.noSubnet.loop : List LogVal → Bool
  | [] => true
  | v :: vs => LogVal.noSubnet v && LogVal.noSubnet.loop vs
termination_by structural vals => vals
end

mutual
/-- Whether the numbers of a cell are ones the machine holds: a signed field within 64
bits in two's complement, an unsigned field and the bits of a double within 64 bits, an
address of `NUM_ADDR_WORDS` words of 32 bits. -/
def LogVal.representable : LogVal → Bool
  | .bool v => decide (-(2 ^ 63 : Int) ≤ v ∧ v < 2 ^ 63)
  | .int v => decide (-(2 ^ 63 : Int) ≤ v ∧ v < 2 ^ 63)
  | .count v => decide (v < 2 ^ 64)
  | .counter v => decide (v < 2 ^ 64)
  | .port v => decide (v < 2 ^ 64)
  | .double v => decide (v < 2 ^ 64)
  | .time v => decide (v < 2 ^ 64)
  | .interval v => decide (v < 2 ^ 64)
  | .string _ => true
  | .enum _ => true
  | .addr a => decide (a.length = NUM_ADDR_WORDS) && a.all fun w => decide (w < 2 ^ 32)
  | .subnet net width =>
    decide (net.length = NUM_ADDR_WORDS) && (net.all fun w => decide (w < 2 ^ 32))
      && decide (width < 2 ^ 32)
  | .table vals => LogVal.representable.loop vals
  | .vector vals => LogVal.representable.loop vals
termination_by structural val => val
/-- Whether the numbers of all cells of a list are ones the machine holds. -/
def LogVal.representable.loop : List LogVal → Bool
  | [] => true
  | v :: vs => LogVal.representable v && LogVal.representable.loop vs
termination_by structural vals => vals
end

/-- The encoding of a cell: the bytes `CopyLogVal` leaves in a buffer of its own of
`GetLogValLength` bytes, `none` where it writes nothing. -/
def cellEncoding (val : LogVal) : Buffer :=
  (CopyLogVal (malloc (GetLogValLength val)) 0 val).1

/-- The buffer `data` with the bytes `bytes` laid over it from `pos` on; a byte that is
`none` leaves the buffer as it is, and bytes past the end of the buffer are dropped. -/
def overlay : Buffer → Nat → Buffer → Buffer
  | [], _, _ => []
  | d :: ds, 0, [] => d :: ds
  | d :: ds, 0, b :: bs => (b.orElse fun _ => d) :: overlay ds 0 bs
  | d :: ds, p + 1, bytes => d :: overlay ds p bytes

mutual
/-- The bytes `CopyLogVal` writes for a cell, in the order of the buffer, `none` for a
byte of the range it does not write: for a Subnet the address lies where the width was
written, and as many bytes as the width has stay unwritten behind it. -/
def LogVal.written : LogVal → Buffer
  | .bool v => (intBytes sizeof_int_val v).map some
  | .int v => (intBytes sizeof_int_val v).map some
  | .count v => (toBytes sizeof_uint_val v).map some
  | .counter v => (toBytes sizeof_uint_val v).map some
  | .port v => (toBytes sizeof_uint_val v).map some
  | .double v => (toBytes sizeof_double_val v).map some
  | .time v => (toBytes sizeof_double_val v).map some
  | .interval v => (toBytes sizeof_double_val v).map some
  | .string s => s.map some
  | .enum s => s.map some
  | .addr a => (addrBytes a).map some
  | .subnet net _ => (addrBytes net).map some ++ List.replicate sizeof_subnet_width none
  | .table vals => LogVal.written.loop vals
  | .vector vals => LogVal.written.loop vals
termination_by structural val => val
/-- The bytes written for the cells of a list, one after the other. -/
def LogVal.written.loop : List LogVal → Buffer
  | [] => []
  | v :: vs => LogVal.written v ++ LogVal.written.loop vs
termination_by structural vals => vals
end

/-- Whether every byte of a key was written. A key built from a buffer that keeps a
byte `malloc` left as it was depends on what the heap held, not on the row alone. -/
def HashKey.written (k : HashKey) : Bool := k.key.all Option.isSome

/-- Every fingerprint of the dictionary, and the value fingerprint of every object filed
in it, has all its bytes written. -/
def PDict.Written (d : PDict) : Prop :=
  ∀ e ∈ d, e.1.written = true ∧ ∀ h, e.2 = .obj h → h.valhash.written = true

/-! ## Streams and rows used as concrete inputs -/

/-- A stream with index type `{host: addr}` and value type `{count: count}`,
`want_record = false`, nothing subscribed and nothing stored. -/
def exStream : ReaderInfo :=
  { id := ⟨0, 0⟩, type := 0, reader := 0, num_idx_fields := 1, num_val_fields := 1,
    want_record := false, tab := [], rtype := [("count", .base TYPE_COUNT)],
    itype := [("host", .base TYPE_ADDR)], currDict := [], lastDict := [], events := [],
    filters := [] }

/-- The row `(10.0.0.1, 1)`. -/
def exRow1 : List LogVal := [.addr [10, 0, 0, 1], .count 1]

/-- The row `(10.0.0.1, 2)`. -/
def exRow2 : List LogVal := [.addr [10, 0, 0, 1], .count 2]

/-- The row `(10.0.0.2, 7)`. -/
def exRow3 : List LogVal := [.addr [10, 0, 0, 2], .count 7]

/-- The index fingerprint of `exRow1` and `exRow2`. -/
def exIdxHash : HashKey := ⟨(addrBytes [10, 0, 0, 1]).map some⟩

/-- The value fingerprint of `exRow1`. -/
def exValHash1 : HashKey := ⟨(toBytes 8 1).map some⟩

/-- The value fingerprint of `exRow2`. -/
def exValHash2 : HashKey := ⟨(toBytes 8 2).map some⟩

/-- The entry `SendEntry` files for `exRow1`. -/
def exEntry1 : InputHash := ⟨exValHash1, [.AddrVal [10, 0, 0, 1]]⟩

/-- The stream `exStream` after a snapshot that delivered `exRow1`. -/
def exStreamWithRow1 : ReaderInfo :=
  { exStream with
      tab := [([.AddrVal [10, 0, 0, 1]], .uint 1 TYPE_COUNT)]
      lastDict := [(exIdxHash, .obj exEntry1)] }

/-- A filter whose predicate vetoes everything. -/
def vetoAll (name : String) : Filter := ⟨name, some fun _ _ _ => false⟩

/-- A filter whose predicate lets everything pass. -/
def passAll (name : String) : Filter := ⟨name, some fun _ _ _ => true⟩

/-- A filter registered without a predicate. -/
def noPred (name : String) : Filter := ⟨name, none⟩

/-- A filter whose predicate vetoes removals and lets everything else pass. -/
def vetoRemoved (name : String) : Filter :=
  ⟨name, some fun ev _ _ => decide (ev ≠ EVENT_REMOVED)⟩

/-- A stream with index type `{a: string, b: string}` and value type
`{count: count}`, `want_record = false`. -/
def exStreamStr : ReaderInfo :=
  { id := ⟨0, 0⟩, type := 0, reader := 0, num_idx_fields := 2, num_val_fields := 1,
    want_record := false, tab := [], rtype := [("count", .base TYPE_COUNT)],
    itype := [("a", .base TYPE_STRING), ("b", .base TYPE_STRING)], currDict := [],
    lastDict := [], events := [], filters := [] }

/-- The row `("ab", "c", 1)`. -/
def exRowAB_C : List LogVal := [.string [97, 98], .string [99], .count 1]

/-- The row `("a", "bc", 1)`. -/
def exRowA_BC : List LogVal := [.string [97], .string [98, 99], .count 1]

/-- The stream `exStreamStr` after a snapshot that delivered `exRowAB_C`. -/
def exStreamStrWithAB_C : ReaderInfo :=
  { exStreamStr with
      tab := [([.StringVal [97, 98], .StringVal [99]], .uint 1 TYPE_COUNT)]
      lastDict := [(⟨[some 97, some 98, some 99]⟩,
        .obj ⟨exValHash1, [.StringVal [97, 98], .StringVal [99]]⟩)] }

/-- The stream `exStream` with the event `added` subscribed. -/
def exStreamAdded : ReaderInfo := { exStream with events := ["added"] }

/-- The stream `exStreamWithRow1` with the event `added` subscribed. -/
def exStreamAddedWithRow1 : ReaderInfo := { exStreamWithRow1 with events := ["added"] }

/-- A filter that lets a row pass only when its index is `10.0.0.1`. -/
def guardFilter : Filter := ⟨"guard", some fun _ idx _ => decide (idx = .AddrVal [10, 0, 0, 1])⟩

/-- The stream `exStreamAdded` with `guardFilter` registered. -/
def exStreamGuarded : ReaderInfo := { exStreamAdded with filters := [guardFilter] }

/-- The stream `exStreamGuarded` after a snapshot that delivered `exRow1` and
`exRow3`. -/
def exStreamGuardedWithRow1 : ReaderInfo :=
  { exStreamAddedWithRow1 with filters := [guardFilter] }

/-- A record type with a nested record, a set and a vector. -/
def exRecordType : RecordType :=
  [("a", .base TYPE_COUNT),
   ("r", .record [("x", .base TYPE_STRING), ("s", .table [.base TYPE_ADDR] none)]),
   ("v", .vector (.base TYPE_INT))]

/-- The `LogField`s of `exRecordType` under the prefix `p.`. -/
def exLogFields : List LogField :=
  [⟨"p.a", TYPE_COUNT, none⟩, ⟨"p.r.x", TYPE_STRING, none⟩,
   ⟨"p.r.s", TYPE_TABLE, some TYPE_ADDR⟩, ⟨"p.v", TYPE_VECTOR, some TYPE_INT⟩]

/-- A row with one cell ahead of the four cells of `exRecordType`. -/
def exRecordRow : List LogVal :=
  [.count 9, .count 1, .string [104, 105], .table [.addr [1, 2, 3, 4]],
   .vector [.int 1, .int 2]]

/-- The conversions of the four cells of `exRecordRow` after the first. -/
def exRecordLeaves : List Val :=
  [.uint 1 TYPE_COUNT, .StringVal [104, 105], .TableVal TYPE_ADDR [.AddrVal [1, 2, 3, 4]],
   .VectorVal TYPE_INT [.int 1 TYPE_INT, .int 2 TYPE_INT]]

/-- A record type whose single field is a set of counts. -/
def exSetRecordType : RecordType := [("s", .table [.base TYPE_COUNT] none)]

/-- The stream `exStream` subscribed to the events `a`, `b` and `a` again. -/
def exStreamEvents : ReaderInfo := { exStream with events := ["a", "b", "a"] }

/-- A Reader whose `Init` fails for the source `missing` and whose first `Update`
delivers no row. -/
def exAscii : InputReader :=
  { Init := fun source _ _ _ => decide (source ≠ "missing"), rows := [], Update := true }

/-- A manager without streams whose table `input_readers` holds the Ascii Reader and
the end marker. -/
def exManager : Manager :=
  { readers := [],
    input_readers :=
      [⟨READER_ASCII, "Ascii", none, some exAscii⟩, ⟨READER_DEFAULT, "None", none, none⟩],
    init_calls := [], instantiated := 0 }

/-- A description of an Ascii stream with one index field and two value fields. -/
def exDescription (source : String) (want_record : Bool) : ReaderDescription :=
  { right_type := true, reader := ⟨100, READER_ASCII⟩, source := source,
    idx := [("i", .base TYPE_COUNT)],
    val := [("a", .base TYPE_COUNT), ("b", .base TYPE_STRING)],
    destination := [], want_record := want_record }

/-- The stream `CreateReader` makes from `exDescription` for the `EnumVal` object 7
holding the enumerator 1, with the Reader object `reader`. -/
def exCreated (reader : Nat) : ReaderInfo :=
  { id := ⟨7, 1⟩, type := READER_ASCII, reader := reader, num_idx_fields := 1,
    num_val_fields := 2, want_record := true, tab := [],
    rtype := [("a", .base TYPE_COUNT), ("b", .base TYPE_STRING)],
    itype := [("i", .base TYPE_COUNT)], currDict := [], lastDict := [], events := [],
    filters := [] }

/-- The manager `exManager` after one successful `CreateReader`. -/
def exManagerOne : Manager :=
  { exManager with readers := [exCreated 1], instantiated := 1 }

/-- The manager `exManagerOne` after a `CreateReader` with the same `EnumVal` object
whose Reader failed in `Init`. -/
def exManagerAfterFailure : Manager :=
  { exManager with readers := [exCreated 2], instantiated := 2 }

/-- The manager `exManagerOne` after a second successful `CreateReader` with the same
`EnumVal` object. -/
def exManagerTwo : Manager :=
  { exManager with readers := [exCreated 1, exCreated 2], instantiated := 2 }

/-- A row of a Count, a String, a Set of one address and a Vector of two Ints. -/
def exMixedRow : List LogVal :=
  [.count 1, .string [97, 98], .table [.addr [1, 2, 3, 4]], .vector [.int (-1), .int 2]]

/-- An index type of a count and a set of addresses. -/
def exIndexWithSet : RecordType :=
  [("a", .base TYPE_COUNT), ("s", .table [.base TYPE_ADDR] none)]

/-- An index type with an empty record whose single leaf lies in a nested record. -/
def exIndexNested : RecordType :=
  [("e", .record []), ("r", .record [("x", .base TYPE_COUNT)])]

/-- A manager without streams whose table `input_readers` holds a kind with an `init`
function that returns false. -/
def exManagerFailingInit : Manager :=
  { readers := [],
    input_readers :=
      [⟨READER_ASCII, "Ascii", some false, some exAscii⟩,
       ⟨READER_DEFAULT, "None", none, none⟩],
    init_calls := [], instantiated := 0 }

/-- The manager `exManagerFailingInit` after `calls` calls of `CreateReader` for the
kind: the factory is cleared, `init` is still set, and `init` was called `calls`
times. -/
def exManagerFailedInit (calls : List Nat) : Manager :=
  { readers := [],
    input_readers :=
      [⟨READER_ASCII, "Ascii", some false, none⟩, ⟨READER_DEFAULT, "None", none, none⟩],
    init_calls := calls, instantiated := 0 }

/-- A row whose second cell is a Set holding a Vector of a String and a Subnet. -/
def exNestedRow : List LogVal :=
  [.count 1, .table [.vector [.string [97], .subnet [1, 2, 3, 4] 24]], .int 2]

/-! ## Facts about the embedding -/

/-- After `Insert(key, val)` the key is looked up as `val`. -/
theorem PDict_Lookup_Insert_self (d : PDict) (k : HashKey) (p : Ptr) :
    (d.Insert k p).Lookup k = p := by
  induction d with
  | nil => simp [PDict.Insert, PDict.Lookup]
  | cons e d ih =>
    obtain ⟨k2, q⟩ := e
    by_cases h : k2 = k
    · simp [PDict.Insert, PDict.Lookup, h]
    · simp [PDict.Insert, PDict.Lookup, h, ih]

/-- `Insert` leaves the lookup of every other key alone. -/
theorem PDict_Lookup_Insert_ne (d : PDict) {k k2 : HashKey} (p : Ptr) (h : k2 ≠ k) :
    (d.Insert k p).Lookup k2 = d.Lookup k2 := by
  induction d with
  | nil => simp [PDict.Insert, PDict.Lookup, Ne.symm h]
  | cons e d ih =>
    obtain ⟨k3, q⟩ := e
    by_cases h3 : k3 = k
    · subst h3
      simp [PDict.Insert, PDict.Lookup, Ne.symm h]
    · by_cases h4 : k3 = k2
      · subst h4
        simp [PDict.Insert, PDict.Lookup, h3]
      · simp [PDict.Insert, PDict.Lookup, h3, h4, ih]

/-- After `Remove(key)` the key is looked up as null. -/
theorem PDict_Lookup_Remove_self (d : PDict) (k : HashKey) :
    (d.Remove k).Lookup k = .null := by
  induction d with
  | nil => simp [PDict.Remove, PDict.Lookup]
  | cons e d ih =>
    obtain ⟨k2, q⟩ := e
    by_cases h : k2 = k
    · simpa [PDict.Remove, h] using ih
    · simpa [PDict.Remove, PDict.Lookup, h] using ih

/-- `Remove` leaves the lookup of every other key alone. -/
theorem PDict_Lookup_Remove_ne (d : PDict) {k k2 : HashKey} (h : k2 ≠ k) :
    (d.Remove k).Lookup k2 = d.Lookup k2 := by
  induction d with
  | nil => simp [PDict.Remove, PDict.Lookup]
  | cons e d ih =>
    obtain ⟨k3, q⟩ := e
    by_cases h3 : k3 = k
    · subst h3
      have : ¬ k3 = k2 := fun e => h e.symm
      simpa [PDict.Remove, PDict.Lookup, this] using ih
    · by_cases h4 : k3 = k2
      · subst h4
        simp [PDict.Remove, PDict.Lookup, h3]
      · simpa [PDict.Remove, PDict.Lookup, h3, h4] using ih

/-- The entries left by `Remove(key)` are the entries under other keys. -/
theorem PDict_mem_Remove {d : PDict} {k : HashKey} {e : HashKey × Ptr} :
    e ∈ d.Remove k ↔ e ∈ d ∧ e.1 ≠ k := by
  simp [PDict.Remove]

/-- An entry found after `Insert` is the inserted one or was there before. -/
theorem PDict_mem_Insert {d : PDict} {k : HashKey} {p : Ptr} {e : HashKey × Ptr}
    (h : e ∈ d.Insert k p) : e = (k, p) ∨ e ∈ d := by
  induction d with
  | nil => simp [PDict.Insert] at h; exact Or.inl h
  | cons a d ih =>
    obtain ⟨k3, q⟩ := a
    by_cases h3 : k3 = k
    · subst h3
      simp only [PDict.Insert, if_true, List.mem_cons] at h
      rcases h with h | h
      · exact Or.inl h
      · exact Or.inr (List.mem_cons_of_mem _ h)
    · simp only [PDict.Insert, h3, if_false, List.mem_cons] at h
      rcases h with h | h
      · exact Or.inr (h ▸ List.mem_cons_self _ _)
      · rcases ih h with h | h
        · exact Or.inl h
        · exact Or.inr (List.mem_cons_of_mem _ h)

/-- A value found by `Lookup` that is not null is filed in the dictionary. -/
theorem PDict_mem_of_Lookup {d : PDict} {k : HashKey} {p : Ptr}
    (h : d.Lookup k = p) (hp : p ≠ .null) : (k, p) ∈ d := by
  induction d with
  | nil => simp [PDict.Lookup] at h; exact absurd h.symm hp
  | cons a d ih =>
    obtain ⟨k3, q⟩ := a
    by_cases h3 : k3 = k
    · subst h3
      simp [PDict.Lookup] at h
      subst h
      exact List.mem_cons_self _ _
    · simp [PDict.Lookup, h3] at h
      exact List.mem_cons_of_mem _ (ih h)

/-- With distinct keys, an entry of the dictionary is what `Lookup` finds. -/
theorem PDict_Lookup_of_mem {d : PDict} {k : HashKey} {p : Ptr}
    (hn : (d.map Prod.fst).Nodup) (h : (k, p) ∈ d) : d.Lookup k = p := by
  induction d with
  | nil => simp at h
  | cons a d ih =>
    obtain ⟨k3, q⟩ := a
    simp only [List.map_cons, List.nodup_cons] at hn
    rcases List.mem_cons.1 h with h | h
    · cases h
      simp [PDict.Lookup]
    · have : k3 ≠ k := by
        intro e
        subst e
        exact hn.1 (List.mem_map_of_mem Prod.fst h)
      simp [PDict.Lookup, this, ih hn.2 h]

/-- A key absent from the dictionary is looked up as null. -/
theorem PDict_Lookup_of_not_mem {d : PDict} {k : HashKey}
    (h : k ∉ d.map Prod.fst) : d.Lookup k = .null := by
  induction d with
  | nil => rfl
  | cons a d ih =>
    obtain ⟨k3, q⟩ := a
    simp only [List.map_cons, List.mem_cons, not_or] at h
    simp [PDict.Lookup, Ne.symm h.1, ih h.2]

/-- The keys after `Insert(key, val)` are the key and the keys before. -/
theorem PDict_keys_Insert (d : PDict) (k : HashKey) (p : Ptr) (k2 : HashKey) :
    k2 ∈ (d.Insert k p).map Prod.fst ↔ k2 = k ∨ k2 ∈ d.map Prod.fst := by
  induction d with
  | nil => simp [PDict.Insert]
  | cons a d ih =>
    obtain ⟨k3, q⟩ := a
    by_cases h3 : k3 = k
    · subst h3
      simp [PDict.Insert]
    · simp only [PDict.Insert, h3, if_false, List.map_cons, List.mem_cons, ih]
      tauto

/-- The keys after `Remove(key)` are the other keys. -/
theorem PDict_keys_Remove (d : PDict) (k : HashKey) (k2 : HashKey) :
    k2 ∈ (d.Remove k).map Prod.fst ↔ k2 ∈ d.map Prod.fst ∧ k2 ≠ k := by
  simp only [PDict.Remove, List.mem_map, List.mem_filter, decide_eq_true_eq]
  constructor
  · rintro ⟨e, ⟨he, hne⟩, rfl⟩
    exact ⟨⟨e, he, rfl⟩, hne⟩
  · rintro ⟨⟨e, he, rfl⟩, hne⟩
    exact ⟨e, ⟨he, hne⟩, rfl⟩

/-- `Insert` keeps the keys distinct. -/
theorem PDict_nodup_Insert {d : PDict} (k : HashKey) (p : Ptr)
    (hn : (d.map Prod.fst).Nodup) : ((d.Insert k p).map Prod.fst).Nodup := by
  induction d with
  | nil => simp [PDict.Insert]
  | cons a d ih =>
    obtain ⟨k3, q⟩ := a
    simp only [List.map_cons, List.nodup_cons] at hn
    by_cases h3 : k3 = k
    · subst h3
      simpa [PDict.Insert] using hn
    · simp only [PDict.Insert, h3, if_false, List.map_cons, List.nodup_cons]
      refine ⟨?_, ih hn.2⟩
      rw [PDict_keys_Insert]
      rintro (h | h)
      · exact h3 h
      · exact hn.1 h

/-- `Remove` keeps the keys distinct. -/
theorem PDict_nodup_Remove {d : PDict} (k : HashKey)
    (hn : (d.map Prod.fst).Nodup) : ((d.Remove k).map Prod.fst).Nodup := by
  unfold PDict.Remove
  exact (List.Sublist.map _ (List.filter_sublist d)).nodup hn

/-- After `Assign` the table holds the value under the key. -/
theorem TableVal_find_Assign_self (t : TableVal) (k : IndexKey) (v : Val) :
    (t.Assign k v).find k = some v := by
  induction t with
  | nil => simp [TableVal.Assign, TableVal.find]
  | cons e t ih =>
    obtain ⟨k2, w⟩ := e
    by_cases h : k2 = k
    · simp [TableVal.Assign, TableVal.find, h]
    · simp [TableVal.Assign, TableVal.find, h, ih]

/-- `Assign` leaves every other key alone. -/
theorem TableVal_find_Assign_ne (t : TableVal) {k k2 : IndexKey} (v : Val) (h : k2 ≠ k) :
    (t.Assign k v).find k2 = t.find k2 := by
  induction t with
  | nil => simp [TableVal.Assign, TableVal.find, Ne.symm h]
  | cons e t ih =>
    obtain ⟨k3, w⟩ := e
    by_cases h3 : k3 = k
    · subst h3
      simp [TableVal.Assign, TableVal.find, Ne.symm h]
    · by_cases h4 : k3 = k2
      · subst h4
        simp [TableVal.Assign, TableVal.find, h3]
      · simp [TableVal.Assign, TableVal.find, h3, h4, ih]

/-- After `Delete` the table holds nothing under the key. -/
theorem TableVal_find_Delete_self (t : TableVal) (k : IndexKey) :
    (t.Delete k).find k = none := by
  induction t with
  | nil => simp [TableVal.Delete, TableVal.find]
  | cons e t ih =>
    obtain ⟨k2, w⟩ := e
    by_cases h : k2 = k
    · simpa [TableVal.Delete, h] using ih
    · simpa [TableVal.Delete, TableVal.find, h] using ih

/-- `Delete` leaves every other key alone. -/
theorem TableVal_find_Delete_ne (t : TableVal) {k k2 : IndexKey} (h : k2 ≠ k) :
    (t.Delete k).find k2 = t.find k2 := by
  induction t with
  | nil => simp [TableVal.Delete, TableVal.find]
  | cons e t ih =>
    obtain ⟨k3, w⟩ := e
    by_cases h3 : k3 = k
    · subst h3
      have : ¬ k3 = k2 := fun e => h e.symm
      simpa [TableVal.Delete, TableVal.find, this] using ih
    · by_cases h4 : k3 = k2
      · subst h4
        simp [TableVal.Delete, TableVal.find, h3]
      · simpa [TableVal.Delete, TableVal.find, h3, h4] using ih

/-- The table holds a value under a key exactly when the key is among its keys. -/
theorem TableVal_find_isSome (t : TableVal) (k : IndexKey) :
    (t.find k).isSome = true ↔ k ∈ t.map Prod.fst := by
  induction t with
  | nil => simp [TableVal.find]
  | cons e t ih =>
    obtain ⟨k2, w⟩ := e
    by_cases h : k2 = k
    · simp [TableVal.find, h]
    · simp [TableVal.find, h, ih, Ne.symm h]

/-- An index list is filed under its components. -/
theorem ComputeHash_ListVal (k : IndexKey) : ComputeHash (.ListVal k) = some k := rfl

/-- The table can hash every value of the model. -/
theorem ComputeHash_isSome (v : Val) : ∃ k, ComputeHash v = some k := by
  cases v <;> exact ⟨_, rfl⟩

/-- Looking up an index list is looking up its components. -/
theorem TableVal_Lookup_ListVal (t : TableVal) (k : IndexKey) :
    t.Lookup (.ListVal k) = t.find k := rfl

/-- When every filter has a predicate that returns true, the filter loop of `SendEntry`
calls all of them in order and lets the row pass. -/
theorem SendEntry_filterLoop_pass (ev : EventTag) (idxval valval : Val) (fuel : Nat)
    (fs : List Filter)
    (hall : ∀ g ∈ fs, ∃ q, g.pred = some q ∧ q ev idxval valval = true)
    (hfuel : fs.length ≤ fuel) :
    SendEntry.filterLoop ev idxval valval fuel fs
      = .ok (true, fs.map fun g => ⟨g.name, ev, idxval, valval⟩) := by
  induction fs generalizing fuel with
  | nil => cases fuel <;> rfl
  | cons f rest ih =>
    cases fuel with
    | zero => simp at hfuel
    | succ n =>
      obtain ⟨q, hq, hqt⟩ := hall f (List.mem_cons_self _ _)
      have hrest := ih n (fun g hg => hall g (List.mem_cons_of_mem _ hg))
        (by simpa using hfuel)
      simp [SendEntry.filterLoop, hq, hqt, hrest]

/-- The filter loop of `SendEntry` stops at the first predicate that returns false, after
calling the ones before it in order. -/
theorem SendEntry_filterLoop_veto (ev : EventTag) (idxval valval : Val) (fuel : Nat)
    (pre post : List Filter) (f : Filter) (p : EventTag → Val → Val → Bool)
    (hall : ∀ g ∈ pre, ∃ q, g.pred = some q ∧ q ev idxval valval = true)
    (hf : f.pred = some p) (hveto : p ev idxval valval = false)
    (hfuel : pre.length < fuel) :
    SendEntry.filterLoop ev idxval valval fuel (pre ++ f :: post)
      = .ok (false, (pre ++ [f]).map fun g => ⟨g.name, ev, idxval, valval⟩) := by
  induction pre generalizing fuel with
  | nil =>
    cases fuel with
    | zero => simp at hfuel
    | succ n => simp [SendEntry.filterLoop, hf, hveto]
  | cons g rest ih =>
    cases fuel with
    | zero => simp at hfuel
    | succ n =>
      obtain ⟨q, hq, hqt⟩ := hall g (List.mem_cons_self _ _)
      have hrest := ih n (fun g hg => hall g (List.mem_cons_of_mem _ hg))
        (by simpa using hfuel)
      simp [SendEntry.filterLoop, hq, hqt, hrest]

/-- The filter loop of `SendEntry` never leaves a filter without a predicate. -/
theorem SendEntry_filterLoop_none (ev : EventTag) (idxval valval : Val) (fuel : Nat)
    (f : Filter) (rest : List Filter) (hf : f.pred = none) :
    SendEntry.filterLoop ev idxval valval fuel (f :: rest) = .error .Diverges := by
  induction fuel with
  | zero => rfl
  | succ n ih => simp [SendEntry.filterLoop, hf, ih]

/-- The filter loop of `SendEntry` does not end once it reaches a filter without a predicate. -/
theorem SendEntry_filterLoop_diverges (ev : EventTag) (idxval valval : Val) (fuel : Nat)
    (pre post : List Filter) (f : Filter)
    (hall : ∀ g ∈ pre, ∃ q, g.pred = some q ∧ q ev idxval valval = true)
    (hf : f.pred = none) :
    SendEntry.filterLoop ev idxval valval fuel (pre ++ f :: post) = .error .Diverges := by
  induction pre generalizing fuel with
  | nil => exact SendEntry_filterLoop_none ev idxval valval fuel f post hf
  | cons g rest ih =>
    cases fuel with
    | zero => rfl
    | succ n =>
      obtain ⟨q, hq, hqt⟩ := hall g (List.mem_cons_self _ _)
      have hrest := ih n (fun g hg => hall g (List.mem_cons_of_mem _ hg))
      simp [SendEntry.filterLoop, hq, hqt, hrest]

/-- `SendEntry` on a row whose fingerprint is not in `lastDict`. -/
theorem SendEntry_new (event_registry : List String) (fuel : Nat) (i : ReaderInfo)
    (vals : List LogVal) (idxhash valhash : HashKey) (idxval valval : Val)
    (hidx : HashLogVals i.num_idx_fields vals = .ok idxhash)
    (hval : HashLogVals i.num_val_fields (vals.drop i.num_idx_fields) = .ok valhash)
    (hnew : i.lastDict.Lookup idxhash = .null)
    (hi : LogValToIndexVal i.num_idx_fields i.itype vals = .ok idxval)
    (hv : valvalOf i vals = .ok valval) :
    SendEntry event_registry fuel i vals
      = SendEntry.finish event_registry fuel i idxhash valhash false .null idxval valval := by
  simp only [SendEntry, hidx, hval, hnew, SendEntry.update, hi, hv]

/-- `SendEntry` on a row whose fingerprint is in `lastDict` with another value hash: the
entry is removed and deleted before the filters run. -/
theorem SendEntry_changed (event_registry : List String) (fuel : Nat) (i : ReaderInfo)
    (vals : List LogVal) (idxhash valhash : HashKey) (idxval valval : Val) (h : InputHash)
    (hidx : HashLogVals i.num_idx_fields vals = .ok idxhash)
    (hval : HashLogVals i.num_val_fields (vals.drop i.num_idx_fields) = .ok valhash)
    (hold : i.lastDict.Lookup idxhash = .obj h)
    (hne : h.valhash.Hash ≠ valhash.Hash)
    (hi : LogValToIndexVal i.num_idx_fields i.itype vals = .ok idxval)
    (hv : valvalOf i vals = .ok valval) :
    SendEntry event_registry fuel i vals
      = SendEntry.finish event_registry fuel { i with lastDict := i.lastDict.Remove idxhash }
          idxhash valhash true .deleted idxval valval := by
  have hv2 : valvalOf { i with lastDict := i.lastDict.Remove idxhash } vals = .ok valval := hv
  simp only [SendEntry, hidx, hval, hold, hne, if_false, SendEntry.update, hi, hv2]

/-- `SendEntry` on a row whose fingerprint is in `lastDict` with the same value hash. -/
theorem SendEntry_unchanged (event_registry : List String) (fuel : Nat) (i : ReaderInfo)
    (vals : List LogVal) (idxhash valhash : HashKey) (h : InputHash)
    (hidx : HashLogVals i.num_idx_fields vals = .ok idxhash)
    (hval : HashLogVals i.num_val_fields (vals.drop i.num_idx_fields) = .ok valhash)
    (hold : i.lastDict.Lookup idxhash = .obj h)
    (heq : h.valhash.Hash = valhash.Hash) :
    SendEntry event_registry fuel i vals
      = .ok ({ i with
                lastDict := i.lastDict.Remove idxhash
                currDict := i.currDict.Insert idxhash (.obj h) }, ⟨[], []⟩) := by
  simp only [SendEntry, hidx, hval, hold, heq, if_true]

/-- Without filters the filter loop of `EndCurrentSend` does nothing. -/
theorem EndCurrentSend_filterLoop_nil (key : HashKey) (idx val : Val) (fuel : Nat)
    (st : PDict × PDict × Bool) :
    EndCurrentSend.filterLoop key idx val fuel [] st = .ok (st, []) := by
  cases fuel <;> rfl

/-- The event loop of `EndCurrentSend` dispatches one event for each subscribed name the
registry knows, in order. -/
theorem EndCurrentSend_eventLoop_eq (event_registry : List String) (idx val : Val)
    (events : List String) :
    EndCurrentSend.eventLoop event_registry idx val events
      = (events.filter fun name => decide (name ∈ event_registry)).map fun name =>
          ⟨name, EVENT_REMOVED, idx, val⟩ := by
  induction events with
  | nil => rfl
  | cons name rest ih =>
    by_cases h : name ∈ event_registry
    · simp [EndCurrentSend.eventLoop, SendEvent, h, ih]
    · simp [EndCurrentSend.eventLoop, SendEvent, h, ih]

/-- The idx_keys of a dictionary that starts with an object. -/
theorem PDict_idxkeys_cons_obj (k : HashKey) (h : InputHash) (l : PDict) :
    PDict.idxkeys ((k, .obj h) :: l) = h.idxkey :: PDict.idxkeys l := by
  simp [PDict.idxkeys]

/-- Deleting one more key from the table. -/
theorem TableVal_Delete_filter (t : TableVal) (k : IndexKey) (ks : List IndexKey) :
    (t.Delete k).filter (fun e => decide (e.1 ∉ ks))
      = t.filter (fun e => decide (e.1 ∉ k :: ks)) := by
  unfold TableVal.Delete
  rw [List.filter_filter]
  apply List.filter_congr
  intro e _
  by_cases h1 : e.1 = k <;> by_cases h2 : e.1 ∈ ks <;> simp [h1, h2]

/-- Removing one more key from the dictionary. -/
theorem PDict_Remove_filter (d : PDict) (k : HashKey) (ks : List HashKey) :
    (d.Remove k).filter (fun e => decide (e.1 ∉ ks))
      = d.filter (fun e => decide (e.1 ∉ k :: ks)) := by
  unfold PDict.Remove
  rw [List.filter_filter]
  apply List.filter_congr
  intro e _
  by_cases h1 : e.1 = k <;> by_cases h2 : e.1 ∈ ks <;> simp [h1, h2]

/-- Deleting a key from the table does not change the events of entries with other idx_keys. -/
theorem removedEventsOf_Delete (event_registry events : List String) (tab : TableVal)
    (k : IndexKey) (l : PDict) (hk : k ∉ PDict.idxkeys l) :
    l.flatMap (removedEventsOf event_registry events (tab.Delete k))
      = l.flatMap (removedEventsOf event_registry events tab) := by
  induction l with
  | nil => rfl
  | cons e l ih =>
    obtain ⟨fp, p⟩ := e
    cases p with
    | null =>
      have : k ∉ PDict.idxkeys l := by simpa [PDict.idxkeys] using hk
      simp [List.flatMap_cons, removedEventsOf, ih this]
    | deleted =>
      have : k ∉ PDict.idxkeys l := by simpa [PDict.idxkeys] using hk
      simp [List.flatMap_cons, removedEventsOf, ih this]
    | obj h =>
      rw [PDict_idxkeys_cons_obj] at hk
      simp only [List.mem_cons, not_or] at hk
      have hne : h.idxkey ≠ k := fun e => hk.1 e.symm
      simp [List.flatMap_cons, removedEventsOf, ih hk.2, TableVal_find_Delete_ne _ hne]

/-- The loop of `EndCurrentSend` on a stream without filters. -/
theorem EndCurrentSend_loop_no_filters (event_registry : List String) (fuel : Nat)
    (l : PDict) (i : ReaderInfo) (out : Out)
    (hf : i.filters = []) (hobj : PDict.AllObj l) (hnd : (PDict.idxkeys l).Nodup)
    (hin : i.events = [] ∨ PrevInDst l i.tab) :
    EndCurrentSend.loop event_registry fuel l i out
      = .ok ({ i with
                tab := i.tab.filter (fun e => decide (e.1 ∉ PDict.idxkeys l))
                lastDict := i.lastDict.filter (fun e => decide (e.1 ∉ l.map Prod.fst)) },
             ⟨out.events ++ l.flatMap (removedEventsOf event_registry i.events i.tab),
               out.calls⟩) := by
  induction l generalizing i out with
  | nil =>
    simp [EndCurrentSend.loop, PDict.idxkeys]
  | cons e l ih =>
    obtain ⟨key, p⟩ := e
    obtain ⟨h, hp⟩ := hobj (key, p) (List.mem_cons_self _ _)
    simp only at hp
    subst hp
    have hobj2 : PDict.AllObj l := fun e he => hobj e (List.mem_cons_of_mem _ he)
    rw [PDict_idxkeys_cons_obj, List.nodup_cons] at hnd
    by_cases hev : i.events = []
    · -- no event and no filter: the entry is deleted straight away
      have hcond : ¬ (i.events.length ≠ 0 ∨ i.filters.length ≠ 0) := by simp [hev, hf]
      rw [EndCurrentSend.loop, if_neg hcond]
      refine (ih { i with tab := i.tab.Delete h.idxkey, lastDict := i.lastDict.Remove key }
        out hf hobj2 hnd.2 (Or.inl hev)).trans ?_
      simp only [TableVal_Delete_filter, PDict_Remove_filter, PDict_idxkeys_cons_obj,
        List.map_cons]
      have e1 : l.flatMap (removedEventsOf event_registry i.events (i.tab.Delete h.idxkey))
          = l.flatMap (removedEventsOf event_registry i.events i.tab) :=
        removedEventsOf_Delete _ _ _ _ _ hnd.1
      have e2 : removedEventsOf event_registry i.events i.tab (key, Ptr.obj h) = [] := by
        simp only [removedEventsOf, hev]
        cases i.tab.find h.idxkey <;> simp
      simp [List.flatMap_cons, e1, e2]
    · have hin2 : PrevInDst ((key, Ptr.obj h) :: l) i.tab := by
        rcases hin with hin | hin
        · exact absurd hin hev
        · exact hin
      have hcond : i.events.length ≠ 0 ∨ i.filters.length ≠ 0 := by
        left
        simpa using hev
      obtain ⟨v, hv⟩ := Option.isSome_iff_exists.1 (hin2 key h (List.mem_cons_self _ _))
      have hlk : i.tab.Lookup (.ListVal h.idxkey) = some v := hv
      have hin3 : PrevInDst l (i.tab.Delete h.idxkey) := by
        intro fp h2 hmem
        have hne : h2.idxkey ≠ h.idxkey := by
          intro e
          apply hnd.1
          rw [← e]
          simp only [PDict.idxkeys, List.mem_filterMap]
          exact ⟨(fp, .obj h2), hmem, rfl⟩
        rw [TableVal_find_Delete_ne _ hne]
        exact hin2 fp h2 (List.mem_cons_of_mem _ hmem)
      rw [EndCurrentSend.loop, if_pos hcond]
      simp only [RecoverIndex, hlk, hf, EndCurrentSend_filterLoop_nil]
      simp only [Bool.false_eq_true, if_false]
      refine (ih _ _ rfl hobj2 hnd.2 (Or.inr hin3)).trans ?_
      simp only [TableVal_Delete_filter, PDict_Remove_filter, PDict_idxkeys_cons_obj,
        List.map_cons]
      have e1 : l.flatMap (removedEventsOf event_registry i.events (i.tab.Delete h.idxkey))
          = l.flatMap (removedEventsOf event_registry i.events i.tab) :=
        removedEventsOf_Delete _ _ _ _ _ hnd.1
      have e2 : removedEventsOf event_registry i.events i.tab (key, Ptr.obj h)
          = EndCurrentSend.eventLoop event_registry (.ListVal h.idxkey) v i.events := by
        simp only [removedEventsOf, hv, EndCurrentSend_eventLoop_eq]
      simp [List.flatMap_cons, e1, e2]

/-- The filter loop of `EndCurrentSend` changes `currDict` only under the key of the entry
at hand. -/
theorem EndCurrentSend_filterLoop_curr_other (key : HashKey) (idx val : Val) (fuel : Nat)
    (fs : List Filter) (st st2 : PDict × PDict × Bool) (calls : List PredCall)
    (hrun : EndCurrentSend.filterLoop key idx val fuel fs st = .ok (st2, calls))
    (fp : HashKey) (hfp : fp ≠ key) :
    st2.2.1.Lookup fp = st.2.1.Lookup fp := by
  induction fuel generalizing fs st calls with
  | zero =>
    cases fs with
    | nil =>
      simp [EndCurrentSend.filterLoop] at hrun
      rw [hrun.1]
    | cons f rest => simp [EndCurrentSend.filterLoop] at hrun
  | succ n ih =>
    cases fs with
    | nil =>
      simp [EndCurrentSend.filterLoop] at hrun
      rw [hrun.1]
    | cons f rest =>
      obtain ⟨lastDict, currDict, doBreak⟩ := st
      cases hp : f.pred with
      | none =>
        simp only [EndCurrentSend.filterLoop, hp] at hrun
        exact ih _ _ _ hrun
      | some p =>
        simp only [EndCurrentSend.filterLoop, hp] at hrun
        split at hrun
        · rename_i st3 calls3 heq
          simp only [Except.ok.injEq, Prod.mk.injEq] at hrun
          obtain ⟨rfl, -⟩ := hrun
          rw [ih _ _ _ heq]
          split
          · exact PDict_Lookup_Insert_ne _ _ hfp
          · rfl
        · simp at hrun

/-- The loop of `EndCurrentSend` changes `currDict` only under keys it visits. -/
theorem EndCurrentSend_loop_curr_other (event_registry : List String) (fuel : Nat)
    (l : PDict) (i j : ReaderInfo) (out out2 : Out)
    (hrun : EndCurrentSend.loop event_registry fuel l i out = .ok (j, out2))
    (fp : HashKey) (hfp : PDict.Lookup l fp = .null) :
    j.currDict.Lookup fp = i.currDict.Lookup fp := by
  induction l generalizing i out with
  | nil =>
    simp [EndCurrentSend.loop] at hrun
    rw [← hrun.1]
  | cons e l ih =>
    obtain ⟨key, p⟩ := e
    cases p with
    | null =>
      simp [EndCurrentSend.loop] at hrun
      rw [← hrun.1]
    | deleted => simp [EndCurrentSend.loop] at hrun
    | obj h =>
      have hne : fp ≠ key := by
        intro e
        subst e
        simp [PDict.Lookup] at hfp
      have hfp2 : PDict.Lookup l fp = .null := by
        simpa [PDict.Lookup, Ne.symm hne] using hfp
      rw [EndCurrentSend.loop] at hrun
      split at hrun
      · simp only [RecoverIndex] at hrun
        split at hrun
        · simp at hrun
        · rename_i val hval
          split at hrun
          · simp at hrun
          · rename_i lastDict currDict doBreak calls hfl
            have hc := EndCurrentSend_filterLoop_curr_other _ _ _ _ _ _ _ _ hfl fp hne
            simp only at hc
            split at hrun
            · rw [ih _ _ hrun hfp2]
              exact hc
            · rw [ih _ _ hrun hfp2]
              exact hc
      · rw [ih _ _ hrun hfp2]

/-- The event loop of `SendEntry` for a new row. -/
theorem SendEntry_eventLoop_new (event_registry : List String) (idxval valval : Val)
    (oldval : Option Val) (events : List String) :
    SendEntry.eventLoop event_registry false idxval valval oldval events
      = .ok ((events.filter fun name => decide (name ∈ event_registry)).map fun name =>
          ⟨name, EVENT_NEW, idxval, valval⟩) := by
  induction events with
  | nil => rfl
  | cons name rest ih =>
    by_cases h : name ∈ event_registry
    · simp [SendEntry.eventLoop, SendEvent, h, ih]
    · simp [SendEntry.eventLoop, SendEvent, h, ih]

/-- The event loop of `SendEntry` for a changed row whose old value the table held. -/
theorem SendEntry_eventLoop_changed (event_registry : List String) (idxval valval old : Val)
    (events : List String) :
    SendEntry.eventLoop event_registry true idxval valval (some old) events
      = .ok ((events.filter fun name => decide (name ∈ event_registry)).map fun name =>
          ⟨name, EVENT_CHANGED, idxval, old⟩) := by
  induction events with
  | nil => rfl
  | cons name rest ih =>
    by_cases h : name ∈ event_registry
    · simp [SendEntry.eventLoop, SendEvent, h, ih]
    · simp [SendEntry.eventLoop, SendEvent, h, ih]

/-- The filter loop of `EndCurrentSend` never leaves a filter without a predicate. -/
theorem EndCurrentSend_filterLoop_none (key : HashKey) (idx val : Val) (fuel : Nat)
    (f : Filter) (rest : List Filter) (st : PDict × PDict × Bool) (hf : f.pred = none) :
    EndCurrentSend.filterLoop key idx val fuel (f :: rest) st = .error .Diverges := by
  induction fuel with
  | zero => rfl
  | succ n ih =>
    obtain ⟨a, b, c⟩ := st
    simp [EndCurrentSend.filterLoop, hf, ih]

/-- `EndCurrentSend` does not end when `lastDict` holds an entry and the first filter has no
predicate. -/
theorem EndCurrentSend_diverges (event_registry : List String) (fuel : Nat)
    (i : ReaderInfo) (key : HashKey) (h : InputHash) (rest : PDict) (f : Filter)
    (fs : List Filter) (v : Val)
    (hl : i.lastDict = (key, .obj h) :: rest) (hfs : i.filters = f :: fs)
    (hf : f.pred = none) (hv : i.tab.find h.idxkey = some v) :
    EndCurrentSend event_registry fuel i = .error .Diverges := by
  have hlk : i.tab.Lookup (.ListVal h.idxkey) = some v := hv
  have hcond : i.events.length ≠ 0 ∨ i.filters.length ≠ 0 := by
    right
    simp [hfs]
  unfold EndCurrentSend
  rw [hl, EndCurrentSend.loop, if_pos hcond]
  simp only [RecoverIndex, hlk, hfs, EndCurrentSend_filterLoop_none _ _ _ _ f fs _ hf]

/-- Removing a key twice is removing it once. -/
theorem PDict_Remove_Remove (d : PDict) (k : HashKey) :
    (d.Remove k).Remove k = d.Remove k := by
  simp [PDict.Remove, List.filter_filter]

/-- The second of two inserts under one key wins. -/
theorem PDict_Insert_Insert (d : PDict) (k : HashKey) (p q : Ptr) :
    (d.Insert k p).Insert k q = d.Insert k q := by
  induction d with
  | nil => simp [PDict.Insert]
  | cons e d ih =>
    obtain ⟨k3, r⟩ := e
    by_cases h : k3 = k
    · simp [PDict.Insert, h]
    · simp [PDict.Insert, h, ih]

/-- What the filter loop of `EndCurrentSend` can do to the dictionaries: nothing, or move
the entry to `currDict`, or, after a second veto, file null under its key. -/
theorem EndCurrentSend_filterLoop_spec (key : HashKey) (idx val : Val) (fuel : Nat)
    (fs : List Filter) (last curr last2 curr2 : PDict) (b b2 : Bool)
    (calls : List PredCall)
    (hrun : EndCurrentSend.filterLoop key idx val fuel fs (last, curr, b)
      = .ok ((last2, curr2, b2), calls)) :
    (last2 = last ∧ curr2 = curr ∧ b2 = b) ∨
    (last2 = last.Remove key ∧ b2 = true ∧
      (curr2 = curr.Insert key (last.Lookup key) ∨ curr2 = curr.Insert key .null)) := by
  induction fuel generalizing fs last curr b calls with
  | zero =>
    cases fs with
    | nil =>
      simp [EndCurrentSend.filterLoop] at hrun
      obtain ⟨⟨rfl, rfl, rfl⟩, -⟩ := hrun
      exact Or.inl ⟨rfl, rfl, rfl⟩
    | cons f rest => simp [EndCurrentSend.filterLoop] at hrun
  | succ n ih =>
    cases fs with
    | nil =>
      simp [EndCurrentSend.filterLoop] at hrun
      obtain ⟨⟨rfl, rfl, rfl⟩, -⟩ := hrun
      exact Or.inl ⟨rfl, rfl, rfl⟩
    | cons f rest =>
      cases hp : f.pred with
      | none =>
        simp only [EndCurrentSend.filterLoop, hp] at hrun
        exact ih _ _ _ _ _ hrun
      | some p =>
        simp only [EndCurrentSend.filterLoop, hp] at hrun
        split at hrun
        · rename_i st3 calls3 heq
          simp only [Except.ok.injEq, Prod.mk.injEq] at hrun
          obtain ⟨rfl, -⟩ := hrun
          by_cases hveto : p EVENT_REMOVED idx val = false
          · rw [if_pos hveto] at heq
            rcases ih _ _ _ _ _ heq with ⟨h1, h2, h3⟩ | ⟨h1, h2, h3⟩
            · exact Or.inr ⟨h1, h3, Or.inl h2⟩
            · refine Or.inr ⟨?_, h2, Or.inr ?_⟩
              · rw [h1, PDict_Remove_Remove]
              · rcases h3 with h3 | h3
                · rw [h3, PDict_Insert_Insert, PDict_Lookup_Remove_self]
                · rw [h3, PDict_Insert_Insert]
          · rw [if_neg hveto] at heq
            exact ih _ _ _ _ _ heq
        · simp at hrun

/-- The idx_keys of a dictionary are those of the objects filed in it. -/
theorem PDict_mem_idxkeys {d : PDict} {x : IndexKey} :
    x ∈ PDict.idxkeys d ↔ ∃ fp h, (fp, Ptr.obj h) ∈ d ∧ h.idxkey = x := by
  simp only [PDict.idxkeys, List.mem_filterMap]
  constructor
  · rintro ⟨⟨fp, p⟩, hm, he⟩
    cases p with
    | null => simp at he
    | deleted => simp at he
    | obj h =>
      simp at he
      exact ⟨fp, h, hm, he⟩
  · rintro ⟨fp, h, hm, he⟩
    exact ⟨(fp, .obj h), hm, by simp [he]⟩

/-- The idx_keys of two dictionaries put together. -/
theorem PDict_idxkeys_append (a b : PDict) :
    PDict.idxkeys (a ++ b) = PDict.idxkeys a ++ PDict.idxkeys b := by
  simp [PDict.idxkeys, List.filterMap_append]

/-- The idx_keys of a dictionary, entry by entry. -/
theorem PDict_idxkeys_cons (e : HashKey × Ptr) (d : PDict) :
    PDict.idxkeys (e :: d) = PDict.idxkeys [e] ++ PDict.idxkeys d :=
  PDict_idxkeys_append [e] d

/-- An idx_key found after `Insert` is the inserted one or was there before. -/
theorem PDict_mem_idxkeys_Insert {d : PDict} {k : HashKey} {p : Ptr} {x : IndexKey}
    (h : x ∈ PDict.idxkeys (d.Insert k p)) :
    x ∈ PDict.idxkeys [(k, p)] ∨ x ∈ PDict.idxkeys d := by
  rw [PDict_mem_idxkeys] at h
  obtain ⟨fp, h2, hm, he⟩ := h
  rcases PDict_mem_Insert hm with hm | hm
  · left
    rw [PDict_mem_idxkeys]
    exact ⟨fp, h2, by simp [hm], he⟩
  · right
    rw [PDict_mem_idxkeys]
    exact ⟨fp, h2, hm, he⟩

/-- `Insert` keeps the idx_keys distinct when the inserted one is fresh. -/
theorem PDict_nodup_idxkeys_Insert {d : PDict} {k : HashKey} {p : Ptr}
    (hn : (PDict.idxkeys [(k, p)] ++ PDict.idxkeys d).Nodup) :
    (PDict.idxkeys (d.Insert k p)).Nodup := by
  induction d with
  | nil =>
    have e : PDict.idxkeys ([] : PDict) = [] := rfl
    rw [e, List.append_nil] at hn
    simpa [PDict.Insert] using hn
  | cons e d ih =>
    obtain ⟨k3, q⟩ := e
    rw [PDict_idxkeys_cons (k3, q) d] at hn
    by_cases h3 : k3 = k
    · subst h3
      simp only [PDict.Insert, if_true]
      rw [PDict_idxkeys_cons]
      rw [List.nodup_append] at hn ⊢
      refine ⟨hn.1, (List.nodup_append.1 hn.2.1).2.1, ?_⟩
      intro x hx1 hx2
      exact hn.2.2 hx1 (List.mem_append_right _ hx2)
    · simp only [PDict.Insert, h3, if_false]
      rw [PDict_idxkeys_cons]
      rw [List.nodup_append] at hn
      obtain ⟨hn1, hn2, hn3⟩ := hn
      rw [List.nodup_append] at hn2
      obtain ⟨hq, hd, hqd⟩ := hn2
      rw [List.nodup_append]
      refine ⟨hq, ih ?_, ?_⟩
      · rw [List.nodup_append]
        exact ⟨hn1, hd, fun x hx1 hx2 => hn3 hx1 (List.mem_append_right _ hx2)⟩
      · intro x hx1 hx2
        rcases PDict_mem_idxkeys_Insert hx2 with hx2 | hx2
        · exact hn3 hx2 (List.mem_append_left _ hx1)
        · exact hqd hx1 hx2

/-- `Assign` keeps every key the table held. -/
theorem TableVal_find_Assign_isSome (t : TableVal) (k k2 : IndexKey) (v : Val)
    (h : (t.find k2).isSome = true) : ((t.Assign k v).find k2).isSome = true := by
  by_cases hk : k2 = k
  · subst hk
    simp [TableVal_find_Assign_self]
  · rw [TableVal_find_Assign_ne _ _ hk]
    exact h

/-- Fewer entries and a larger table keep the entries in the table. -/
theorem PrevInDst_mono {d d2 : PDict} {t t2 : TableVal}
    (hd : ∀ e ∈ d2, e ∈ d)
    (ht : ∀ k, (t.find k).isSome = true → (t2.find k).isSome = true)
    (h : PrevInDst d t) : PrevInDst d2 t2 :=
  fun fp h2 hm => ht _ (h fp h2 (hd _ hm))

/-- The ways `SendEntry.finish` can return. -/
theorem SendEntry_finish_inv (event_registry : List String) (fuel : Nat) (i j : ReaderInfo)
    (idxhash valhash : HashKey) (updated : Bool) (h : Ptr) (idxval valval : Val) (out : Out)
    (hrun : SendEntry.finish event_registry fuel i idxhash valhash updated h idxval valval
      = .ok (j, out)) :
    ∃ b calls,
      SendEntry.filterLoop (if updated then EVENT_CHANGED else EVENT_NEW) idxval valval fuel
        i.filters = .ok (b, calls) ∧
      ((b = false ∧ updated = false ∧
          j = { i with currDict := i.currDict.Remove idxhash } ∧ out = ⟨[], calls⟩) ∨
       (b = false ∧ updated = true ∧
          j = { i with currDict := i.currDict.Insert idxhash h } ∧ out = ⟨[], calls⟩) ∨
       (b = true ∧ ∃ k evs, ComputeHash idxval = some k ∧
          SendEntry.eventLoop event_registry updated idxval valval
            (if updated then i.tab.Lookup idxval else none) i.events = .ok evs ∧
          j = { i with
                  tab := i.tab.Assign k valval
                  currDict := i.currDict.Insert idxhash (.obj ⟨valhash, k⟩) } ∧
          out = ⟨evs, calls⟩)) := by
  unfold SendEntry.finish at hrun
  simp only at hrun
  split at hrun
  · simp at hrun
  · rename_i calls hfl
    refine ⟨false, calls, hfl, ?_⟩
    split at hrun
    · rename_i hu
      simp only [Except.ok.injEq, Prod.mk.injEq] at hrun
      exact Or.inl ⟨rfl, hu, hrun.1.symm, hrun.2.symm⟩
    · rename_i hu
      simp only [Except.ok.injEq, Prod.mk.injEq] at hrun
      refine Or.inr (Or.inl ⟨rfl, ?_, hrun.1.symm, hrun.2.symm⟩)
      cases updated
      · exact absurd rfl hu
      · rfl
  · rename_i calls hfl
    refine ⟨true, calls, hfl, Or.inr (Or.inr ⟨rfl, ?_⟩)⟩
    split at hrun
    · simp at hrun
    · rename_i k hk
      simp only [hk] at hrun
      split at hrun
      · simp at hrun
      · rename_i evs hev
        simp only [Except.ok.injEq, Prod.mk.injEq] at hrun
        exact ⟨k, evs, hk, hev, hrun.1.symm, hrun.2.symm⟩

/-- The ways `SendEntry` can return. -/
theorem SendEntry_inv (event_registry : List String) (fuel : Nat) (i j : ReaderInfo)
    (vals : List LogVal) (out : Out)
    (hrun : SendEntry event_registry fuel i vals = .ok (j, out)) :
    ∃ idxhash valhash,
      HashLogVals i.num_idx_fields vals = .ok idxhash ∧
      HashLogVals i.num_val_fields (vals.drop i.num_idx_fields) = .ok valhash ∧
      ((∃ h, i.lastDict.Lookup idxhash = .obj h ∧ h.valhash.Hash = valhash.Hash ∧
          j = { i with
                  lastDict := i.lastDict.Remove idxhash
                  currDict := i.currDict.Insert idxhash (.obj h) } ∧
          out = ⟨[], []⟩) ∨
       (∃ idxval valval,
          LogValToIndexVal i.num_idx_fields i.itype vals = .ok idxval ∧
          valvalOf i vals = .ok valval ∧
          ((i.lastDict.Lookup idxhash = .null ∧
              SendEntry.finish event_registry fuel i idxhash valhash false .null idxval valval
                = .ok (j, out)) ∨
           (∃ h, i.lastDict.Lookup idxhash = .obj h ∧ h.valhash.Hash ≠ valhash.Hash ∧
              SendEntry.finish event_registry fuel
                { i with lastDict := i.lastDict.Remove idxhash } idxhash valhash true .deleted
                idxval valval = .ok (j, out))))) := by
  unfold SendEntry at hrun
  split at hrun
  · simp at hrun
  · rename_i idxhash hidx
    split at hrun
    · simp at hrun
    · rename_i valhash hval
      refine ⟨idxhash, valhash, hidx, hval, ?_⟩
      split at hrun
      · rename_i hnull
        right
        unfold SendEntry.update at hrun
        split at hrun
        · simp at hrun
        · rename_i idxval hi
          split at hrun
          · simp at hrun
          · rename_i valval hv
            exact ⟨idxval, valval, hi, hv, Or.inl ⟨hnull, hrun⟩⟩
      · simp at hrun
      · rename_i h hobj
        split at hrun
        · rename_i heq
          simp only [Except.ok.injEq, Prod.mk.injEq] at hrun
          exact Or.inl ⟨h, hobj, heq, hrun.1.symm, hrun.2.symm⟩
        · rename_i hne
          right
          unfold SendEntry.update at hrun
          split at hrun
          · simp at hrun
          · rename_i idxval hi
            split at hrun
            · simp at hrun
            · rename_i valval hv
              exact ⟨idxval, valval, hi, hv, Or.inr ⟨h, hobj, hne, hrun⟩⟩

/-- What `SendEntry` leaves alone: entries of `lastDict` are only removed and keys of the
table are only added. -/
theorem SendEntry_frame (event_registry : List String) (fuel : Nat) (i j : ReaderInfo)
    (vals : List LogVal) (out : Out)
    (hrun : SendEntry event_registry fuel i vals = .ok (j, out)) :
    (∀ e ∈ j.lastDict, e ∈ i.lastDict) ∧
    (∀ k, (i.tab.find k).isSome = true → (j.tab.find k).isSome = true) := by
  obtain ⟨idxhash, valhash, -, -, hcase⟩ := SendEntry_inv _ _ _ _ _ _ hrun
  rcases hcase with ⟨h, -, -, rfl, -⟩ | ⟨idxval, valval, -, -, hcase⟩
  · exact ⟨fun e he => (PDict_mem_Remove.1 he).1, fun k hk => hk⟩
  · rcases hcase with ⟨-, hfin⟩ | ⟨h, -, -, hfin⟩
    · obtain ⟨b, calls, -, hc⟩ := SendEntry_finish_inv _ _ _ _ _ _ _ _ _ _ _ hfin
      rcases hc with ⟨-, -, rfl, -⟩ | ⟨-, -, rfl, -⟩ | ⟨-, k, evs, -, -, rfl, -⟩
      · exact ⟨fun e he => he, fun k hk => hk⟩
      · exact ⟨fun e he => he, fun k hk => hk⟩
      · exact ⟨fun e he => he, fun k2 hk => TableVal_find_Assign_isSome _ _ _ _ hk⟩
    · obtain ⟨b, calls, -, hc⟩ := SendEntry_finish_inv _ _ _ _ _ _ _ _ _ _ _ hfin
      rcases hc with ⟨-, -, rfl, -⟩ | ⟨-, -, rfl, -⟩ | ⟨-, k, evs, -, -, rfl, -⟩
      · exact ⟨fun e he => (PDict_mem_Remove.1 he).1, fun k hk => hk⟩
      · exact ⟨fun e he => (PDict_mem_Remove.1 he).1, fun k hk => hk⟩
      · exact ⟨fun e he => (PDict_mem_Remove.1 he).1,
          fun k2 hk => TableVal_find_Assign_isSome _ _ _ _ hk⟩

/-- The loop of `EndCurrentSend` keeps every object of `currDict` in the table. -/
theorem EndCurrentSend_loop_keeps (event_registry : List String) (fuel : Nat)
    (l : PDict) (i j : ReaderInfo) (out out2 : Out)
    (hrun : EndCurrentSend.loop event_registry fuel l i out = .ok (j, out2))
    (hcurr : PrevInDst i.currDict i.tab) (hl : PrevInDst l i.tab)
    (hnd : (PDict.idxkeys l ++ PDict.idxkeys i.currDict).Nodup)
    (hkeys : (l.map Prod.fst).Nodup)
    (hlook : ∀ e ∈ l, i.lastDict.Lookup e.1 = e.2) :
    PrevInDst j.currDict j.tab := by
  induction l generalizing i out with
  | nil =>
    simp [EndCurrentSend.loop] at hrun
    rw [← hrun.1]
    exact hcurr
  | cons e l ih =>
    obtain ⟨key, p⟩ := e
    cases p with
    | null =>
      simp [EndCurrentSend.loop] at hrun
      rw [← hrun.1]
      exact hcurr
    | deleted => simp [EndCurrentSend.loop] at hrun
    | obj h =>
      -- facts about the entry under the cursor and the entries after it
      rw [PDict_idxkeys_cons_obj, List.cons_append, List.nodup_cons] at hnd
      obtain ⟨hfresh, hnd2⟩ := hnd
      simp only [List.map_cons, List.nodup_cons] at hkeys
      obtain ⟨hkey, hkeys2⟩ := hkeys
      have hl2 : PrevInDst l i.tab := fun fp h2 hm => hl fp h2 (List.mem_cons_of_mem _ hm)
      have hlk : i.lastDict.Lookup key = .obj h := hlook (key, .obj h) (List.mem_cons_self _ _)
      have hlook2 : ∀ e ∈ l, (i.lastDict.Remove key).Lookup e.1 = e.2 := by
        intro e he
        have hne : e.1 ≠ key := by
          intro e2
          exact hkey (e2 ▸ List.mem_map_of_mem Prod.fst he)
        rw [PDict_Lookup_Remove_ne _ hne]
        exact hlook e (List.mem_cons_of_mem _ he)
      -- the table after the entry is deleted still holds the other entries
      have hdel_l : PrevInDst l (i.tab.Delete h.idxkey) := by
        intro fp h2 hm
        have hne : h2.idxkey ≠ h.idxkey := by
          intro e2
          apply hfresh
          rw [← e2]
          exact List.mem_append_left _ (PDict_mem_idxkeys.2 ⟨fp, h2, hm, rfl⟩)
        rw [TableVal_find_Delete_ne _ hne]
        exact hl2 fp h2 hm
      have hdel_c : PrevInDst i.currDict (i.tab.Delete h.idxkey) := by
        intro fp h2 hm
        have hne : h2.idxkey ≠ h.idxkey := by
          intro e2
          apply hfresh
          rw [← e2]
          exact List.mem_append_right _ (PDict_mem_idxkeys.2 ⟨fp, h2, hm, rfl⟩)
        rw [TableVal_find_Delete_ne _ hne]
        exact hcurr fp h2 hm
      rw [EndCurrentSend.loop] at hrun
      split at hrun
      · simp only [RecoverIndex] at hrun
        split at hrun
        · simp at hrun
        · rename_i val hval
          split at hrun
          · simp at hrun
          · rename_i lastDict currDict doBreak calls hfl
            rcases EndCurrentSend_filterLoop_spec _ _ _ _ _ _ _ _ _ _ _ _ hfl with
              ⟨rfl, rfl, rfl⟩ | ⟨rfl, rfl, hc⟩
            · simp only [Bool.false_eq_true, if_false] at hrun
              exact ih _ _ hrun hdel_c hdel_l hnd2 hkeys2 hlook2
            · simp only [if_true] at hrun
              rw [hlk] at hc
              have hcurr2 : PrevInDst currDict i.tab := by
                intro fp h2 hm
                rcases hc with rfl | rfl
                · rcases PDict_mem_Insert hm with hm | hm
                  · simp only [Prod.mk.injEq, Ptr.obj.injEq] at hm
                    rw [hm.2]
                    exact hl key h (List.mem_cons_self _ _)
                  · exact hcurr fp h2 hm
                · rcases PDict_mem_Insert hm with hm | hm
                  · simp at hm
                  · exact hcurr fp h2 hm
              have hnd3 : (PDict.idxkeys l ++ PDict.idxkeys currDict).Nodup := by
                have hbase := List.nodup_append.1 hnd2
                rw [List.nodup_append]
                refine ⟨hbase.1, ?_, ?_⟩
                · rcases hc with rfl | rfl
                  · apply PDict_nodup_idxkeys_Insert
                    rw [List.nodup_append]
                    refine ⟨by simp [PDict.idxkeys], hbase.2.1, ?_⟩
                    intro x hx1 hx2
                    simp [PDict.idxkeys] at hx1
                    exact hfresh (hx1 ▸ List.mem_append_right _ hx2)
                  · apply PDict_nodup_idxkeys_Insert
                    simpa [PDict.idxkeys] using hbase.2.1
                · intro x hx1 hx2
                  rcases hc with rfl | rfl
                  · rcases PDict_mem_idxkeys_Insert hx2 with hx2 | hx2
                    · simp [PDict.idxkeys] at hx2
                      exact hfresh (hx2 ▸ List.mem_append_left _ hx1)
                    · exact hbase.2.2 hx1 hx2
                  · rcases PDict_mem_idxkeys_Insert hx2 with hx2 | hx2
                    · simp [PDict.idxkeys] at hx2
                    · exact hbase.2.2 hx1 hx2
              exact ih _ _ hrun hcurr2 hl2 hnd3 hkeys2 hlook2
      · exact ih _ _ hrun hdel_c hdel_l hnd2 hkeys2 hlook2

/-- The ways `Put` can return. -/
theorem Put_inv (i j : ReaderInfo) (vals : List LogVal) (hrun : Put i vals = .ok j) :
    j = i ∨ ∃ k v, j = { i with tab := i.tab.Assign k v } := by
  unfold Put at hrun
  split at hrun
  · simp at hrun
  · split at hrun
    · simp at hrun
    · split at hrun
      · simp only [Except.ok.injEq] at hrun
        exact Or.inl hrun.symm
      · simp only [Except.ok.injEq] at hrun
        exact Or.inr ⟨_, _, hrun.symm⟩

/-- The event loop of `SendEntry` still returns when the old value is replaced by another
one. -/
theorem SendEntry_eventLoop_transfer (event_registry : List String) (updated : Bool)
    (idxval valval : Val) (o o2 : Option Val) (events : List String) (evs : List Event)
    (hrun : SendEntry.eventLoop event_registry updated idxval valval o events = .ok evs)
    (ho : o.isSome = true → o2.isSome = true) :
    ∃ evs2, SendEntry.eventLoop event_registry updated idxval valval o2 events = .ok evs2 := by
  cases updated with
  | false => exact ⟨_, SendEntry_eventLoop_new _ _ _ _ _⟩
  | true =>
    cases events with
    | nil => exact ⟨[], rfl⟩
    | cons name rest =>
      cases o with
      | none => simp [SendEntry.eventLoop] at hrun
      | some old =>
        obtain ⟨old2, rfl⟩ := Option.isSome_iff_exists.1 (ho rfl)
        exact ⟨_, SendEntry_eventLoop_changed _ _ _ _ _⟩

/-- The end of `SendEntry` for a new row that is vetoed. -/
theorem SendEntry_finish_veto_new (event_registry : List String) (fuel : Nat)
    (i : ReaderInfo) (idxhash valhash : HashKey) (h : Ptr) (idxval valval : Val)
    (calls : List PredCall)
    (hfl : SendEntry.filterLoop EVENT_NEW idxval valval fuel i.filters = .ok (false, calls)) :
    SendEntry.finish event_registry fuel i idxhash valhash false h idxval valval
      = .ok ({ i with currDict := i.currDict.Remove idxhash }, ⟨[], calls⟩) := by
  simp [SendEntry.finish, hfl]

/-- The end of `SendEntry` for a changed row that is vetoed. -/
theorem SendEntry_finish_veto_changed (event_registry : List String) (fuel : Nat)
    (i : ReaderInfo) (idxhash valhash : HashKey) (h : Ptr) (idxval valval : Val)
    (calls : List PredCall)
    (hfl : SendEntry.filterLoop EVENT_CHANGED idxval valval fuel i.filters
      = .ok (false, calls)) :
    SendEntry.finish event_registry fuel i idxhash valhash true h idxval valval
      = .ok ({ i with currDict := i.currDict.Insert idxhash h }, ⟨[], calls⟩) := by
  simp [SendEntry.finish, hfl]

/-- The end of `SendEntry` for a new row that no filter vetoes. -/
theorem SendEntry_finish_pass_new (event_registry : List String) (fuel : Nat)
    (i : ReaderInfo) (idxhash valhash : HashKey) (h : Ptr) (idxval valval : Val)
    (calls : List PredCall) (k : IndexKey)
    (hfl : SendEntry.filterLoop EVENT_NEW idxval valval fuel i.filters = .ok (true, calls))
    (hk : ComputeHash idxval = some k) :
    SendEntry.finish event_registry fuel i idxhash valhash false h idxval valval
      = .ok ({ i with
                tab := i.tab.Assign k valval
                currDict := i.currDict.Insert idxhash (.obj ⟨valhash, k⟩) },
             ⟨(i.events.filter fun name => decide (name ∈ event_registry)).map fun name =>
                ⟨name, EVENT_NEW, idxval, valval⟩, calls⟩) := by
  simp [SendEntry.finish, hfl, hk, SendEntry_eventLoop_new]

/-- The end of `SendEntry` for a changed row that no filter vetoes. -/
theorem SendEntry_finish_pass_changed (event_registry : List String) (fuel : Nat)
    (i : ReaderInfo) (idxhash valhash : HashKey) (h : Ptr) (idxval valval : Val)
    (calls : List PredCall) (k : IndexKey) (evs : List Event)
    (hfl : SendEntry.filterLoop EVENT_CHANGED idxval valval fuel i.filters
      = .ok (true, calls))
    (hk : ComputeHash idxval = some k)
    (hev : SendEntry.eventLoop event_registry true idxval valval (i.tab.Lookup idxval)
      i.events = .ok evs) :
    SendEntry.finish event_registry fuel i idxhash valhash true h idxval valval
      = .ok ({ i with
                tab := i.tab.Assign k valval
                currDict := i.currDict.Insert idxhash (.obj ⟨valhash, k⟩) },
             ⟨evs, calls⟩) := by
  simp [SendEntry.finish, hfl, hk, hev]

/-- The end of `SendEntry` on two streams that differ only in the table, the second holding
every key the first holds. -/
theorem SendEntry_finish_sim (event_registry : List String) (fuel : Nat) (i j : ReaderInfo)
    (idxhash valhash : HashKey) (updated : Bool) (h : Ptr) (idxval valval : Val) (out : Out)
    (t2 : TableVal)
    (hmono : ∀ k, (i.tab.find k).isSome = true → (t2.find k).isSome = true)
    (hrun : SendEntry.finish event_registry fuel i idxhash valhash updated h idxval valval
      = .ok (j, out)) :
    ∃ t3 out2,
      SendEntry.finish event_registry fuel { i with tab := t2 } idxhash valhash updated h
        idxval valval = .ok ({ j with tab := t3 }, out2) ∧
      (∀ k, (j.tab.find k).isSome = true → (t3.find k).isSome = true) ∧
      out2.calls = out.calls := by
  obtain ⟨b, calls, hfl, hc⟩ := SendEntry_finish_inv _ _ _ _ _ _ _ _ _ _ _ hrun
  have hmono2 : ∀ k v k2, ((i.tab.Assign k v).find k2).isSome = true →
      ((t2.Assign k v).find k2).isSome = true := by
    intro k v k2 hk2
    by_cases e : k2 = k
    · subst e
      simp [TableVal_find_Assign_self]
    · rw [TableVal_find_Assign_ne _ _ e] at hk2 ⊢
      exact hmono k2 hk2
  rcases hc with ⟨rfl, rfl, rfl, rfl⟩ | ⟨rfl, rfl, rfl, rfl⟩ | ⟨rfl, k, evs, hk, hev, rfl, rfl⟩
  · exact ⟨t2, ⟨[], calls⟩,
      SendEntry_finish_veto_new event_registry fuel { i with tab := t2 } idxhash valhash h
        idxval valval calls hfl, hmono, rfl⟩
  · exact ⟨t2, ⟨[], calls⟩,
      SendEntry_finish_veto_changed event_registry fuel { i with tab := t2 } idxhash valhash h
        idxval valval calls hfl, hmono, rfl⟩
  · cases updated with
    | false =>
      exact ⟨t2.Assign k valval, _,
        SendEntry_finish_pass_new event_registry fuel { i with tab := t2 } idxhash valhash h
          idxval valval calls k hfl hk, hmono2 k valval, rfl⟩
    | true =>
      have hlk : (i.tab.Lookup idxval).isSome = true → (t2.Lookup idxval).isSome = true := by
        simp only [TableVal.Lookup, hk]
        exact hmono k
      obtain ⟨evs2, hev2⟩ := SendEntry_eventLoop_transfer _ _ _ _ _ _ _ _ hev hlk
      exact ⟨t2.Assign k valval, ⟨evs2, calls⟩,
        SendEntry_finish_pass_changed event_registry fuel { i with tab := t2 } idxhash valhash
          h idxval valval calls k evs2 hfl hk hev2, hmono2 k valval, rfl⟩

/-- `SendEntry` on two streams that differ only in the table, the second holding every key
the first holds. -/
theorem SendEntry_sim (event_registry : List String) (fuel : Nat) (i j : ReaderInfo)
    (vals : List LogVal) (out : Out) (t2 : TableVal)
    (hmono : ∀ k, (i.tab.find k).isSome = true → (t2.find k).isSome = true)
    (hrun : SendEntry event_registry fuel i vals = .ok (j, out)) :
    ∃ t3 out2,
      SendEntry event_registry fuel { i with tab := t2 } vals = .ok ({ j with tab := t3 }, out2) ∧
      (∀ k, (j.tab.find k).isSome = true → (t3.find k).isSome = true) ∧
      out2.calls = out.calls := by
  obtain ⟨idxhash, valhash, hidx, hval, hcase⟩ := SendEntry_inv _ _ _ _ _ _ hrun
  rcases hcase with ⟨h, hobj, heq, rfl, rfl⟩ | ⟨idxval, valval, hi, hv, hcase⟩
  · refine ⟨t2, ⟨[], []⟩, ?_, hmono, rfl⟩
    exact SendEntry_unchanged event_registry fuel { i with tab := t2 } vals idxhash valhash h
      hidx hval hobj heq
  · rcases hcase with ⟨hnull, hfin⟩ | ⟨h, hobj, hne, hfin⟩
    · obtain ⟨t3, out2, h1, h2, h3⟩ := SendEntry_finish_sim _ _ _ _ _ _ _ _ _ _ _ t2 hmono hfin
      refine ⟨t3, out2, ?_, h2, h3⟩
      rw [SendEntry_new event_registry fuel { i with tab := t2 } vals idxhash valhash idxval
        valval hidx hval hnull hi hv]
      exact h1
    · obtain ⟨t3, out2, h1, h2, h3⟩ := SendEntry_finish_sim _ _
        { i with lastDict := i.lastDict.Remove idxhash } _ _ _ _ _ _ _ _ t2 hmono hfin
      refine ⟨t3, out2, ?_, h2, h3⟩
      rw [SendEntry_changed event_registry fuel { i with tab := t2 } vals idxhash valhash idxval
        valval h hidx hval hobj hne hi hv]
      exact h1

/-- A delivery of rows on two streams that differ only in the table, the second holding
every key the first holds. -/
theorem SendEntries_sim (event_registry : List String) (fuel : Nat)
    (rows : List (List LogVal)) (i j : ReaderInfo) (out : Out) (t2 : TableVal)
    (hmono : ∀ k, (i.tab.find k).isSome = true → (t2.find k).isSome = true)
    (hrun : SendEntries event_registry fuel i rows = .ok (j, out)) :
    ∃ t3 out2,
      SendEntries event_registry fuel { i with tab := t2 } rows = .ok ({ j with tab := t3 }, out2) ∧
      classifyRows event_registry fuel { i with tab := t2 } rows
        = classifyRows event_registry fuel i rows ∧
      out2.calls = out.calls := by
  induction rows generalizing i out t2 with
  | nil =>
    simp only [SendEntries, Except.ok.injEq, Prod.mk.injEq] at hrun
    obtain ⟨rfl, rfl⟩ := hrun
    exact ⟨t2, ⟨[], []⟩, rfl, rfl, rfl⟩
  | cons vals rows ih =>
    rw [SendEntries] at hrun
    split at hrun
    · simp at hrun
    · rename_i j1 out1 h1
      split at hrun
      · simp at hrun
      · rename_i j2 out2 h2
        simp only [Except.ok.injEq, Prod.mk.injEq] at hrun
        obtain ⟨rfl, rfl⟩ := hrun
        obtain ⟨t3, o3, hs1, hm1, hc1⟩ := SendEntry_sim _ _ _ _ _ _ t2 hmono h1
        obtain ⟨t4, o4, hs2, hcl, hc2⟩ := ih j1 out2 t3 hm1 h2
        refine ⟨t4, ⟨o3.events ++ o4.events, o3.calls ++ o4.calls⟩, ?_, ?_, ?_⟩
        · rw [SendEntries, hs1]
          simp only [hs2]
        · rw [classifyRows, classifyRows, hs1, h1]
          simp only [hcl]
          rfl
        · simp [hc1, hc2]

/-- Without filters the filter loop of `SendEntry` lets the row pass. -/
theorem SendEntry_filterLoop_nil (ev : EventTag) (idxval valval : Val) (fuel : Nat) :
    SendEntry.filterLoop ev idxval valval fuel [] = .ok (true, []) := by
  cases fuel <;> rfl

/-- A delivery of rows, row by row. -/
theorem SendEntries_cons (event_registry : List String) (fuel : Nat) (s s1 s2 : ReaderInfo)
    (vals : List LogVal) (rest : List (List LogVal)) (o1 o2 : Out)
    (h1 : SendEntry event_registry fuel s vals = .ok (s1, o1))
    (h2 : SendEntries event_registry fuel s1 rest = .ok (s2, o2)) :
    SendEntries event_registry fuel s (vals :: rest)
      = .ok (s2, ⟨o1.events ++ o2.events, o1.calls ++ o2.calls⟩) := by
  rw [SendEntries, h1]
  simp only [h2]

/-- In a dictionary of objects a key looked up as null is absent. -/
theorem PDict_not_mem_keys_of_Lookup_null {d : PDict} {k : HashKey} (hobj : PDict.AllObj d)
    (h : d.Lookup k = .null) : k ∉ d.map Prod.fst := by
  induction d with
  | nil => simp
  | cons e d ih =>
    obtain ⟨k3, p⟩ := e
    have hobj2 : PDict.AllObj d := fun e he => hobj e (List.mem_cons_of_mem _ he)
    by_cases h3 : k3 = k
    · subst h3
      simp only [PDict.Lookup, if_true] at h
      obtain ⟨h2, hp⟩ := hobj (k3, p) (List.mem_cons_self _ _)
      simp only at hp
      rw [hp] at h
      cases h
    · simp only [PDict.Lookup, h3, if_false] at h
      simp only [List.map_cons, List.mem_cons, not_or]
      exact ⟨fun e => h3 e.symm, ih hobj2 h⟩

/-- `Remove` keeps a dictionary of objects one. -/
theorem PDict_AllObj_Remove {d : PDict} (k : HashKey) (hobj : PDict.AllObj d) :
    PDict.AllObj (d.Remove k) :=
  fun e he => hobj e (PDict_mem_Remove.1 he).1

/-- The keys of the table after `Assign`. -/
theorem TableVal_find_Assign_isSome_iff (t : TableVal) (k k2 : IndexKey) (v : Val) :
    ((t.Assign k v).find k2).isSome = true ↔ k2 = k ∨ (t.find k2).isSome = true := by
  by_cases e : k2 = k
  · subst e
    simp [TableVal_find_Assign_self]
  · rw [TableVal_find_Assign_ne _ _ e]
    simp [e]

/-- The table restricted to the keys that satisfy a test. -/
theorem TableVal_find_filter (t : TableVal) (p : IndexKey → Bool) (k : IndexKey) :
    TableVal.find (List.filter (fun e => p e.1) t) k = if p k = true then t.find k else none := by
  induction t with
  | nil => simp [TableVal.find]
  | cons e t ih =>
    obtain ⟨k3, w⟩ := e
    by_cases hp : p k3 = true
    · by_cases h3 : k3 = k
      · subst h3
        simp [List.filter_cons, hp, TableVal.find]
      · simp [List.filter_cons, hp, TableVal.find, h3, ih]
    · by_cases h3 : k3 = k
      · subst h3
        simp [List.filter_cons, hp, ih]
      · simp [List.filter_cons, hp, TableVal.find, h3, ih]

/-- The keys of the table after the keys of a list are deleted. -/
theorem TableVal_find_filter_isSome (t : TableVal) (ks : List IndexKey) (k : IndexKey) :
    (TableVal.find (List.filter (fun e => decide (e.1 ∉ ks)) t) k).isSome = true
      ↔ (t.find k).isSome = true ∧ k ∉ ks := by
  rw [TableVal_find_filter t (fun x => decide (x ∉ ks)) k]
  by_cases h : k ∈ ks
  · simp [h]
  · simp [h]

/-- The index fingerprints of the rows, row by row. -/
theorem fpsOf_cons (s : ReaderInfo) (vals : List LogVal) (rest : List (List LogVal))
    (fp : HashKey) (h : HashLogVals s.num_idx_fields vals = .ok fp) :
    fpsOf s (vals :: rest) = fp :: fpsOf s rest := by
  simp [fpsOf, List.filterMap_cons, h, Except.toOption]

/-- The index keys of the rows, row by row. -/
theorem keysOf_cons (s : ReaderInfo) (vals : List LogVal) (rest : List (List LogVal))
    (k : IndexKey) (h : idxkeyOf s vals = .ok k) :
    keysOf s (vals :: rest) = k :: keysOf s rest := by
  simp [keysOf, List.filterMap_cons, h, Except.toOption]

/-- The index fingerprints of the rows. -/
theorem mem_fpsOf (s : ReaderInfo) (rows : List (List LogVal)) (fp : HashKey) :
    fp ∈ fpsOf s rows ↔ ∃ vals ∈ rows, HashLogVals s.num_idx_fields vals = .ok fp := by
  simp only [fpsOf, List.mem_filterMap]
  constructor
  · rintro ⟨vals, hm, he⟩
    refine ⟨vals, hm, ?_⟩
    cases h : HashLogVals s.num_idx_fields vals with
    | error e => simp [h, Except.toOption] at he
    | ok v =>
      simp [h, Except.toOption] at he
      rw [he]
  · rintro ⟨vals, hm, he⟩
    exact ⟨vals, hm, by simp [he, Except.toOption]⟩

/-- The index keys of the rows. -/
theorem mem_keysOf (s : ReaderInfo) (rows : List (List LogVal)) (k : IndexKey) :
    k ∈ keysOf s rows ↔ ∃ vals ∈ rows, idxkeyOf s vals = .ok k := by
  simp only [keysOf, List.mem_filterMap]
  constructor
  · rintro ⟨vals, hm, he⟩
    refine ⟨vals, hm, ?_⟩
    cases h : idxkeyOf s vals with
    | error e => simp [h, Except.toOption] at he
    | ok v =>
      simp [h, Except.toOption] at he
      rw [he]
  · rintro ⟨vals, hm, he⟩
    exact ⟨vals, hm, by simp [he, Except.toOption]⟩

/-- The rows of a snapshot delivered to a stream without filters. -/
theorem SendEntries_no_filters (event_registry : List String) (fuel : Nat)
    (rows : List (List LogVal)) (s : ReaderInfo)
    (hf : s.filters = [])
    (hobj : PDict.AllObj s.lastDict) (hin : PrevInDst s.lastDict s.tab)
    (hconv : ∀ vals ∈ rows, Convertible s vals)
    (hH : ∀ vals ∈ rows, ∀ fp h, (fp, Ptr.obj h) ∈ s.lastDict →
      HashLogVals s.num_idx_fields vals = .ok fp → idxkeyOf s vals = .ok h.idxkey) :
    ∃ t l c out,
      SendEntries event_registry fuel s rows
        = .ok ({ s with tab := t, lastDict := l, currDict := c }, out) ∧
      l = s.lastDict.filter (fun e => decide (e.1 ∉ fpsOf s rows)) ∧
      (∀ fp, fp ∈ c.map Prod.fst ↔ fp ∈ s.currDict.map Prod.fst ∨ fp ∈ fpsOf s rows) ∧
      (∀ k, (t.find k).isSome = true ↔ (s.tab.find k).isSome = true ∨ k ∈ keysOf s rows) := by
  induction rows generalizing s with
  | nil =>
    refine ⟨s.tab, s.lastDict, s.currDict, ⟨[], []⟩, rfl, ?_, ?_, ?_⟩
    · simp [fpsOf]
    · simp [fpsOf]
    · simp [keysOf]
  | cons vals rest ih =>
    obtain ⟨idxhash, valhash, idxval, valval, k, hidx, hval, hi, hv, hk⟩ :=
      hconv vals (List.mem_cons_self _ _)
    have hkey : idxkeyOf s vals = .ok k := by simp [idxkeyOf, hi, hk]
    have hconv2 : ∀ v ∈ rest, Convertible s v := fun v hv => hconv v (List.mem_cons_of_mem _ hv)
    have hH2 : ∀ v ∈ rest, ∀ fp h, (fp, Ptr.obj h) ∈ s.lastDict →
        HashLogVals s.num_idx_fields v = .ok fp → idxkeyOf s v = .ok h.idxkey :=
      fun v hv => hH v (List.mem_cons_of_mem _ hv)
    -- the state after the first row, in each of the three branches
    have hstep : ∃ s1 o1, SendEntry event_registry fuel s vals = .ok (s1, o1) ∧
        s1 = { s with tab := s1.tab, lastDict := s1.lastDict, currDict := s1.currDict } ∧
        s1.lastDict = s.lastDict.filter (fun e => decide (e.1 ∉ [idxhash])) ∧
        (∀ fp, fp ∈ s1.currDict.map Prod.fst ↔ fp = idxhash ∨ fp ∈ s.currDict.map Prod.fst) ∧
        (∀ k2, (s1.tab.find k2).isSome = true ↔ k2 = k ∨ (s.tab.find k2).isSome = true) := by
      cases hlk : s.lastDict.Lookup idxhash with
      | null =>
        have hnot := PDict_not_mem_keys_of_Lookup_null hobj hlk
        have hs := (SendEntry_new event_registry fuel s vals idxhash valhash idxval valval hidx
          hval hlk hi hv).trans
          (SendEntry_finish_pass_new event_registry fuel s idxhash valhash .null idxval
            valval [] k (by rw [hf]; exact SendEntry_filterLoop_nil _ _ _ _) hk)
        refine ⟨_, _, hs, rfl, ?_, ?_, ?_⟩
        · show s.lastDict = _
          symm
          rw [List.filter_eq_self]
          intro e he
          have : e.1 ≠ idxhash := fun e2 => hnot (e2 ▸ List.mem_map_of_mem Prod.fst he)
          simp [this]
        · intro fp
          exact PDict_keys_Insert _ _ _ _
        · intro k2
          exact TableVal_find_Assign_isSome_iff _ _ _ _
      | deleted =>
        obtain ⟨h2, hp⟩ := hobj _ (PDict_mem_of_Lookup hlk (by simp))
        simp at hp
      | obj h =>
        have hmem : (idxhash, Ptr.obj h) ∈ s.lastDict := PDict_mem_of_Lookup hlk (by simp)
        have hkh : k = h.idxkey := by
          have := hH vals (List.mem_cons_self _ _) idxhash h hmem hidx
          rw [hkey] at this
          exact (Except.ok.inj this)
        have hfound : (s.tab.find k).isSome = true := hkh ▸ hin idxhash h hmem
        have hfilter : s.lastDict.Remove idxhash
            = s.lastDict.filter (fun e => decide (e.1 ∉ [idxhash])) := by
          unfold PDict.Remove
          apply List.filter_congr
          intro e _
          simp
        by_cases heq : h.valhash.Hash = valhash.Hash
        · refine ⟨_, _, SendEntry_unchanged event_registry fuel s vals idxhash valhash h hidx
            hval hlk heq, rfl, hfilter, ?_, ?_⟩
          · intro fp
            exact PDict_keys_Insert _ _ _ _
          · intro k2
            constructor
            · intro h2
              exact Or.inr h2
            · rintro (rfl | h2)
              · exact hfound
              · exact h2
        · obtain ⟨old, hold⟩ := Option.isSome_iff_exists.1 hfound
          have hlook : ({ s with lastDict := s.lastDict.Remove idxhash } : ReaderInfo).tab.Lookup
              idxval = some old := by
            simp only [TableVal.Lookup, hk]
            exact hold
          have hs := (SendEntry_changed event_registry fuel s vals idxhash valhash idxval valval
            h hidx hval hlk heq hi hv).trans
            (SendEntry_finish_pass_changed event_registry fuel
              { s with lastDict := s.lastDict.Remove idxhash } idxhash valhash .deleted idxval
              valval [] k _ (by show SendEntry.filterLoop _ _ _ _ s.filters = _; rw [hf];
                                exact SendEntry_filterLoop_nil _ _ _ _) hk
              (by rw [hlook]; exact SendEntry_eventLoop_changed _ _ _ _ _))
          refine ⟨_, _, hs, rfl, hfilter, ?_, ?_⟩
          · intro fp
            exact PDict_keys_Insert _ _ _ _
          · intro k2
            exact TableVal_find_Assign_isSome_iff _ _ _ _
    obtain ⟨s1, o1, hsend, hcfg, hl1, hc1, ht1⟩ := hstep
    have hsub : ∀ e ∈ s1.lastDict, e ∈ s.lastDict := by
      intro e he
      rw [hl1] at he
      exact (List.mem_filter.1 he).1
    have hnum : s1.num_idx_fields = s.num_idx_fields := by rw [hcfg]
    have hconv3 : ∀ v ∈ rest, Convertible s1 v := by
      intro v hv
      rw [hcfg]
      exact hconv2 v hv
    have hfps : fpsOf s1 rest = fpsOf s rest := by rw [hcfg]; rfl
    have hks : keysOf s1 rest = keysOf s rest := by rw [hcfg]; rfl
    obtain ⟨t, l, c, o2, hrest, hl, hc, ht⟩ := ih s1 (by rw [hcfg]; exact hf)
      (fun e he => hobj e (hsub e he))
      (PrevInDst_mono hsub (fun k2 hk2 => (ht1 k2).2 (Or.inr hk2)) hin)
      hconv3
      (by
        intro v hv fp h hm hfp
        have := hH2 v hv fp h (hsub _ hm) (by rw [← hnum]; exact hfp)
        rw [hcfg]
        exact this)
    refine ⟨t, l, c, ⟨o1.events ++ o2.events, o1.calls ++ o2.calls⟩, ?_, ?_, ?_, ?_⟩
    · have := SendEntries_cons event_registry fuel s s1 _ vals rest o1 o2 hsend hrest
      rw [this, hcfg]
    · rw [hl, hl1, hfps, fpsOf_cons s vals rest idxhash hidx, List.filter_filter]
      apply List.filter_congr
      intro e _
      by_cases h1 : e.1 = idxhash <;> by_cases h2 : e.1 ∈ fpsOf s rest <;> simp [h1, h2]
    · intro fp
      rw [hc, hc1, hfps, fpsOf_cons s vals rest idxhash hidx]
      simp only [List.mem_cons]
      tauto
    · intro k2
      rw [ht, ht1, hks, keysOf_cons s vals rest k hkey]
      simp only [List.mem_cons]
      tauto

/-- The function `EndCurrentSend` on a stream without filters. -/
theorem EndCurrentSend_no_filters (event_registry : List String)
    (fuel : Nat) (i : ReaderInfo)
    (hf : i.filters = []) (hobj : PDict.AllObj i.lastDict)
    (hnd : (PDict.idxkeys i.lastDict).Nodup) (hin : PrevInDst i.lastDict i.tab) :
    EndCurrentSend event_registry fuel i
      = .ok ({ i with
                tab := i.tab.filter (fun e => decide (e.1 ∉ PDict.idxkeys i.lastDict))
                lastDict := i.currDict
                currDict := [] },
             ⟨i.lastDict.flatMap (removedEventsOf event_registry i.events i.tab), []⟩) := by
  unfold EndCurrentSend
  rw [EndCurrentSend_loop_no_filters event_registry fuel i.lastDict i ⟨[], []⟩ hf hobj hnd
    (Or.inr hin)]
  simp

/-- Fewer entries record fewer idx_keys. -/
theorem PDict_idxkeys_filter_sublist (d : PDict) (p : HashKey × Ptr → Bool) :
    (PDict.idxkeys (d.filter p)).Sublist (PDict.idxkeys d) := by
  unfold PDict.idxkeys
  exact List.Sublist.filterMap _ (List.filter_sublist d)

/-- A delivery of rows that returns, row by row. -/
theorem SendEntries_inv_cons (event_registry : List String) (fuel : Nat) (s j : ReaderInfo)
    (vals : List LogVal) (rest : List (List LogVal)) (out : Out)
    (hrun : SendEntries event_registry fuel s (vals :: rest) = .ok (j, out)) :
    ∃ s1 o1 o2, SendEntry event_registry fuel s vals = .ok (s1, o1) ∧
      SendEntries event_registry fuel s1 rest = .ok (j, o2) ∧
      out = ⟨o1.events ++ o2.events, o1.calls ++ o2.calls⟩ := by
  rw [SendEntries] at hrun
  split at hrun
  · simp at hrun
  · rename_i s1 o1 h1
    split at hrun
    · simp at hrun
    · rename_i s2 o2 h2
      simp only [Except.ok.injEq, Prod.mk.injEq] at hrun
      obtain ⟨rfl, rfl⟩ := hrun
      exact ⟨s1, o1, o2, h1, h2, rfl⟩

/-- Inserting an object keeps a dictionary of objects one. -/
theorem PDict_AllObj_Insert {d : PDict} (k : HashKey) (h : InputHash)
    (hobj : PDict.AllObj d) : PDict.AllObj (d.Insert k (.obj h)) := by
  intro e he
  rcases PDict_mem_Insert he with rfl | he
  · exact ⟨h, rfl⟩
  · exact hobj e he

/-- The first snapshot of a stream whose `lastDict` is empty: every row is new, and
afterwards `currDict` holds the rows that passed. -/
theorem SendEntries_first (event_registry : List String) (fuel : Nat)
    (rows : List (List LogVal)) (s j : ReaderInfo) (out : Out)
    (hlast : s.lastDict = [])
    (hnodup : (rows.map fun vals => HashLogVals s.num_idx_fields vals).Nodup)
    (hobjc : PDict.AllObj s.currDict)
    (hrun : SendEntries event_registry fuel s rows = .ok (j, out)) :
    j = { s with tab := j.tab, currDict := j.currDict } ∧
    PDict.AllObj j.currDict ∧
    (∀ fp, fp ∉ fpsOf s rows → j.currDict.Lookup fp = s.currDict.Lookup fp) ∧
    (∀ fp, fp ∈ j.currDict.map Prod.fst → fp ∈ s.currDict.map Prod.fst ∨ fp ∈ fpsOf s rows) ∧
    (∀ vals ∈ rows, ∃ fp valhash, HashLogVals s.num_idx_fields vals = .ok fp ∧
      HashLogVals s.num_val_fields (vals.drop s.num_idx_fields) = .ok valhash ∧
      ((∃ h, j.currDict.Lookup fp = .obj h ∧ h.valhash = valhash) ∨
        (j.currDict.Lookup fp = .null ∧ VetoedNew fuel s vals))) := by
  induction rows generalizing s out with
  | nil =>
    simp only [SendEntries, Except.ok.injEq, Prod.mk.injEq] at hrun
    obtain ⟨rfl, rfl⟩ := hrun
    refine ⟨rfl, hobjc, fun _ _ => rfl, fun fp h => Or.inl h, ?_⟩
    intro vals hv
    simp at hv
  | cons vals rest ih =>
    obtain ⟨s1, o1, o2, hsend, hrest, rfl⟩ := SendEntries_inv_cons _ _ _ _ _ _ _ hrun
    simp only [List.map_cons, List.nodup_cons] at hnodup
    obtain ⟨hfresh, hnodup2⟩ := hnodup
    obtain ⟨idxhash, valhash, hidx, hval, hcase⟩ := SendEntry_inv _ _ _ _ _ _ hsend
    have hnotin : idxhash ∉ fpsOf s rest := by
      intro hin
      obtain ⟨v, hv, hh⟩ := (mem_fpsOf s rest idxhash).1 hin
      apply hfresh
      rw [hidx, ← hh]
      exact List.mem_map_of_mem (fun vals => HashLogVals s.num_idx_fields vals) hv
    have hfps : fpsOf s (vals :: rest) = idxhash :: fpsOf s rest := fpsOf_cons s vals rest _ hidx
    have hlk : s.lastDict.Lookup idxhash = .null := by rw [hlast]; rfl
    rcases hcase with ⟨h, hobj, -⟩ | ⟨idxval, valval, hi, hv, hcase⟩
    · rw [hlk] at hobj
      cases hobj
    · rcases hcase with ⟨-, hfin⟩ | ⟨h, hobj, -⟩
      · obtain ⟨b, calls, hfl, hc⟩ := SendEntry_finish_inv _ _ _ _ _ _ _ _ _ _ _ hfin
        rcases hc with ⟨rfl, -, rfl, rfl⟩ | ⟨-, hu, -⟩ | ⟨rfl, k, evs, hk, hev, rfl, rfl⟩
        · -- vetoed: the fingerprint is dropped from currDict
          obtain ⟨h1, h2, h3, h4, h5⟩ := ih { s with currDict := s.currDict.Remove idxhash }
            o2 hlast hnodup2 (PDict_AllObj_Remove _ hobjc) hrest
          refine ⟨h1, h2, ?_, ?_, ?_⟩
          · intro fp hfp
            rw [hfps] at hfp
            simp only [List.mem_cons, not_or] at hfp
            rw [h3 fp hfp.2]
            exact PDict_Lookup_Remove_ne _ hfp.1
          · intro fp hfp
            rw [hfps]
            rcases h4 fp hfp with h | h
            · exact Or.inl ((PDict_keys_Remove _ _ _).1 h).1
            · exact Or.inr (List.mem_cons_of_mem _ h)
          · intro v hv2
            rcases List.mem_cons.1 hv2 with rfl | hv2
            · refine ⟨idxhash, valhash, hidx, hval,
                Or.inr ⟨?_, idxval, valval, calls, hi, hv, hfl⟩⟩
              rw [h3 idxhash hnotin]
              exact PDict_Lookup_Remove_self _ _
            · exact h5 v hv2
        · cases hu
        · -- passed: the entry is filed in currDict
          obtain ⟨h1, h2, h3, h4, h5⟩ := ih
            { s with
                tab := s.tab.Assign k valval
                currDict := s.currDict.Insert idxhash (.obj ⟨valhash, k⟩) }
            o2 hlast hnodup2 (PDict_AllObj_Insert _ _ hobjc) hrest
          refine ⟨h1, h2, ?_, ?_, ?_⟩
          · intro fp hfp
            rw [hfps] at hfp
            simp only [List.mem_cons, not_or] at hfp
            rw [h3 fp hfp.2]
            exact PDict_Lookup_Insert_ne _ _ hfp.1
          · intro fp hfp
            rw [hfps]
            rcases h4 fp hfp with h | h
            · rcases (PDict_keys_Insert _ _ _ _).1 h with h | h
              · exact Or.inr (h ▸ List.mem_cons_self _ _)
              · exact Or.inl h
            · exact Or.inr (List.mem_cons_of_mem _ h)
          · intro v hv2
            rcases List.mem_cons.1 hv2 with rfl | hv2
            · refine ⟨idxhash, valhash, hidx, hval, Or.inl ⟨⟨valhash, k⟩, ?_, rfl⟩⟩
              rw [h3 idxhash hnotin]
              exact PDict_Lookup_Insert_self _ _ _
            · exact h5 v hv2
      · rw [hlk] at hobj
        cases hobj

/-- The second delivery of the same rows: every row is either found unchanged in `lastDict`
or new and vetoed again; the delivery returns and no event is dispatched. -/
theorem SendEntries_second (event_registry : List String) (fuel : Nat)
    (rows : List (List LogVal)) (s : ReaderInfo)
    (hnodup : (rows.map fun vals => HashLogVals s.num_idx_fields vals).Nodup)
    (hobj : PDict.AllObj s.lastDict)
    (hpre : ∀ vals ∈ rows, ∃ fp valhash, HashLogVals s.num_idx_fields vals = .ok fp ∧
      HashLogVals s.num_val_fields (vals.drop s.num_idx_fields) = .ok valhash ∧
      ((∃ h, s.lastDict.Lookup fp = .obj h ∧ h.valhash = valhash) ∨
        (s.lastDict.Lookup fp = .null ∧ VetoedNew fuel s vals))) :
    ∃ l c calls,
      SendEntries event_registry fuel s rows
        = .ok ({ s with lastDict := l, currDict := c }, ⟨[], calls⟩) ∧
      l = s.lastDict.filter (fun e => decide (e.1 ∉ fpsOf s rows)) := by
  induction rows generalizing s with
  | nil =>
    refine ⟨s.lastDict, s.currDict, [], rfl, ?_⟩
    simp [fpsOf]
  | cons vals rest ih =>
    simp only [List.map_cons, List.nodup_cons] at hnodup
    obtain ⟨hfresh, hnodup2⟩ := hnodup
    obtain ⟨idxhash, valhash, hidx, hval, hthis⟩ := hpre vals (List.mem_cons_self _ _)
    have hne : ∀ v ∈ rest, ∀ fp, HashLogVals s.num_idx_fields v = .ok fp → fp ≠ idxhash := by
      intro v hv fp hfp e
      apply hfresh
      rw [hidx, ← e, ← hfp]
      exact List.mem_map_of_mem (fun vals => HashLogVals s.num_idx_fields vals) hv
    have hfps : fpsOf s (vals :: rest) = idxhash :: fpsOf s rest := fpsOf_cons s vals rest _ hidx
    rcases hthis with ⟨h, hobj1, hvh⟩ | ⟨hnull, idxval, valval, calls, hi, hv, hfl⟩
    · -- found unchanged: moved to currDict, nothing dispatched
      have hsend := SendEntry_unchanged event_registry fuel s vals idxhash valhash h hidx hval
        hobj1 (by rw [hvh])
      obtain ⟨l, c, calls2, hrest, hl⟩ := ih
        { s with
            lastDict := s.lastDict.Remove idxhash
            currDict := s.currDict.Insert idxhash (.obj h) }
        hnodup2 (PDict_AllObj_Remove _ hobj)
        (by
          intro v hv
          obtain ⟨fp, vh, hfp, hvh2, hc⟩ := hpre v (List.mem_cons_of_mem _ hv)
          refine ⟨fp, vh, hfp, hvh2, ?_⟩
          show (∃ h, (s.lastDict.Remove idxhash).Lookup fp = .obj h ∧ _) ∨
            ((s.lastDict.Remove idxhash).Lookup fp = .null ∧ _)
          rw [PDict_Lookup_Remove_ne _ (hne v hv fp hfp)]
          exact hc)
      refine ⟨l, c, [] ++ calls2,
        SendEntries_cons event_registry fuel s _ _ vals rest _ _ hsend hrest, ?_⟩
      have hl2 : l = List.filter (fun e => decide (e.1 ∉ fpsOf s rest))
          (s.lastDict.Remove idxhash) := hl
      rw [hl2, hfps]
      exact PDict_Remove_filter _ _ _
    · -- not in lastDict: the row was vetoed before and is vetoed again
      have hsend := (SendEntry_new event_registry fuel s vals idxhash valhash idxval valval hidx
        hval hnull hi hv).trans
        (SendEntry_finish_veto_new event_registry fuel s idxhash valhash .null idxval valval
          calls hfl)
      obtain ⟨l, c, calls2, hrest, hl⟩ := ih { s with currDict := s.currDict.Remove idxhash }
        hnodup2 hobj (fun v hv => hpre v (List.mem_cons_of_mem _ hv))
      refine ⟨l, c, calls ++ calls2,
        SendEntries_cons event_registry fuel s _ _ vals rest _ _ hsend hrest, ?_⟩
      have hl2 : l = List.filter (fun e => decide (e.1 ∉ fpsOf s rest)) s.lastDict := hl
      rw [hl2, hfps]
      have hnot := PDict_not_mem_keys_of_Lookup_null hobj hnull
      apply List.filter_congr
      intro e he
      have : e.1 ≠ idxhash := fun e2 => hnot (e2 ▸ List.mem_map_of_mem Prod.fst he)
      simp [this]

/-- `EndCurrentSend` on a stream whose `lastDict` is empty. -/
theorem EndCurrentSend_of_lastDict_nil (event_registry : List String) (fuel : Nat)
    (i : ReaderInfo) (hl : i.lastDict = []) :
    EndCurrentSend event_registry fuel i
      = .ok ({ i with lastDict := i.currDict, currDict := [] }, ⟨[], []⟩) := by
  unfold EndCurrentSend
  rw [hl]
  rfl

/-- A snapshot that returns: the delivery, then `EndCurrentSend`. -/
theorem Snapshot_inv (event_registry : List String) (fuel : Nat) (i k : ReaderInfo)
    (rows : List (List LogVal)) (out : Out)
    (hrun : Snapshot event_registry fuel i rows = .ok (k, out)) :
    ∃ j o1 o2, SendEntries event_registry fuel i rows = .ok (j, o1) ∧
      EndCurrentSend event_registry fuel j = .ok (k, o2) ∧
      out = ⟨o1.events ++ o2.events, o1.calls ++ o2.calls⟩ := by
  unfold Snapshot at hrun
  split at hrun
  · simp at hrun
  · rename_i j o1 h1
    split at hrun
    · simp at hrun
    · rename_i k2 o2 h2
      simp only [Except.ok.injEq, Prod.mk.injEq] at hrun
      obtain ⟨rfl, rfl⟩ := hrun
      exact ⟨j, o1, o2, h1, h2, rfl⟩

/-! ## Claim C3: a veto on a new row -/

/-- C3. Take a row whose index fingerprint `idxhash` is not in `lastDict` and that converts
to `idxval` and `valval`. If a filter predicate returns false when called with `(New,
idxval, valval)`, the predicates of the filters before it having returned true, then
`SendEntry` returns, dispatches no event, leaves the table unchanged and leaves no entry
under `idxhash` in `currDict`; and whenever the following `EndCurrentSend` returns,
`idxhash` is not in the new `lastDict`. -/
theorem C3_veto_on_new_is_a_no_op (event_registry : List String) (fuel : Nat)
    (i : ReaderInfo) (vals : List LogVal) (idxhash valhash : HashKey) (idxval valval : Val)
    (pre post : List Filter) (f : Filter) (p : EventTag → Val → Val → Bool)
    (hidx : HashLogVals i.num_idx_fields vals = .ok idxhash)
    (hval : HashLogVals i.num_val_fields (vals.drop i.num_idx_fields) = .ok valhash)
    (hnew : i.lastDict.Lookup idxhash = .null)
    (hi : LogValToIndexVal i.num_idx_fields i.itype vals = .ok idxval)
    (hv : valvalOf i vals = .ok valval)
    (hfilters : i.filters = pre ++ f :: post)
    (hpre : ∀ g ∈ pre, ∃ q, g.pred = some q ∧ q EVENT_NEW idxval valval = true)
    (hf : f.pred = some p) (hveto : p EVENT_NEW idxval valval = false)
    (hfuel : pre.length < fuel) :
    ∃ j calls, SendEntry event_registry fuel i vals = .ok (j, ⟨[], calls⟩) ∧
      j.tab = i.tab ∧ j.currDict.Lookup idxhash = .null ∧
      ∀ fuel2 k out, EndCurrentSend event_registry fuel2 j = .ok (k, out) →
        k.lastDict.Lookup idxhash = .null := by
  refine ⟨{ i with currDict := i.currDict.Remove idxhash },
    (pre ++ [f]).map fun g => ⟨g.name, EVENT_NEW, idxval, valval⟩, ?_, rfl,
    PDict_Lookup_Remove_self _ _, ?_⟩
  · rw [SendEntry_new event_registry fuel i vals idxhash valhash idxval valval hidx hval hnew
      hi hv]
    simp only [SendEntry.finish, hfilters, Bool.false_eq_true, if_false,
      SendEntry_filterLoop_veto EVENT_NEW idxval valval fuel pre post f p hpre hf hveto hfuel,
      if_true]
  · intro fuel2 k out hend
    unfold EndCurrentSend at hend
    split at hend
    · simp at hend
    · rename_i j2 out2 hloop
      simp only [Except.ok.injEq, Prod.mk.injEq] at hend
      rw [← hend.1]
      show j2.currDict.Lookup idxhash = Ptr.null
      rw [EndCurrentSend_loop_curr_other _ _ _ _ _ _ _ hloop idxhash hnew]
      exact PDict_Lookup_Remove_self _ _

/-- C3 at a concrete input: a filter that passes followed by a filter that vetoes, and the
row `(10.0.0.1, 1)`. -/
theorem C3_witness :
    ∃ j calls,
      SendEntry [] 2 { exStream with filters := [passAll "p", vetoAll "v"] } exRow1
        = .ok (j, ⟨[], calls⟩) ∧
      j.tab = [] ∧ j.currDict.Lookup exIdxHash = .null ∧
      ∀ fuel2 k out, EndCurrentSend [] fuel2 j = .ok (k, out) →
        k.lastDict.Lookup exIdxHash = .null :=
  C3_veto_on_new_is_a_no_op [] 2 { exStream with filters := [passAll "p", vetoAll "v"] }
    exRow1 exIdxHash exValHash1 (.AddrVal [10, 0, 0, 1]) (.uint 1 TYPE_COUNT)
    [passAll "p"] [] (vetoAll "v") (fun _ _ _ => false) (by rfl) (by rfl) (by rfl) (by rfl)
    (by rfl) (by rfl) (by intro g hg; simp at hg; subst hg; exact ⟨_, rfl, rfl⟩) (by rfl)
    (by rfl) (by decide)

/-! ## Claim C4: a veto on a changed row -/

/-- C4 fails on the code. The stream holds `(10.0.0.1, 1)` and has one filter that vetoes;
the row `(10.0.0.1, 2)` arrives. The predicate is called with tag `Changed`, no event is
dispatched and the table keeps the old value, but what `SendEntry` files under the
fingerprint in `currDict` is the pointer to the entry it has already deleted. After
`EndCurrentSend` the new `lastDict` holds that dangling pointer, not the prior entry, and
the next `SendEntry` for the index dereferences it. -/
theorem C4_veto_on_change_files_a_deleted_entry :
    (SendEntry [] 1 { exStreamWithRow1 with filters := [vetoAll "f"] } exRow2).toOption.map
        (fun r => (r.1.currDict, r.1.tab, r.2)) =
      some ([(exIdxHash, Ptr.deleted)], exStreamWithRow1.tab,
        ⟨[], [⟨"f", EVENT_CHANGED, .AddrVal [10, 0, 0, 1], .uint 2 TYPE_COUNT⟩]⟩) ∧
    (Snapshot [] 1 { exStreamWithRow1 with filters := [vetoAll "f"] } [exRow2]).toOption.map
        (fun r => (r.1.lastDict, r.1.tab, r.2.events)) =
      some ([(exIdxHash, Ptr.deleted)], exStreamWithRow1.tab, []) ∧
    (match Snapshot [] 1 { exStreamWithRow1 with filters := [vetoAll "f"] } [exRow2] with
      | .ok (j, _) => SendEntry [] 1 j exRow2
      | .error e => .error e) = .error .Dangling := by
  refine ⟨by decide, by decide, by rfl⟩

/-! ## Claim C5: a veto on a removal -/

/-- C5 fails on the code. The stream has two filters that both veto removals. A first
snapshot delivers `(10.0.0.1, 1)`, which files the entry in `lastDict` and the row in the
table. The next snapshot delivers nothing: `EndCurrentSend` keeps the row in the table and
dispatches nothing, but the new `lastDict` holds null under the fingerprint, because the
second veto inserts the result of a second `RemoveEntry`. With a single veto the entry is
kept as the claim says. -/
theorem C5_second_veto_on_remove_files_null :
    (Snapshot [] 2 { exStream with filters := [vetoRemoved "f", vetoRemoved "g"] }
        [exRow1]).toOption.map (fun r => (r.1.lastDict, r.1.tab)) =
      some ([(exIdxHash, Ptr.obj exEntry1)], exStreamWithRow1.tab) ∧
    (Snapshot [] 2 { exStreamWithRow1 with filters := [vetoRemoved "f", vetoRemoved "g"] }
        []).toOption.map (fun r => (r.1.lastDict, r.1.tab, r.2.events)) =
      some ([(exIdxHash, Ptr.null)], exStreamWithRow1.tab, []) ∧
    (Snapshot [] 2 { exStreamWithRow1 with filters := [vetoRemoved "f", passAll "g"] }
        []).toOption.map (fun r => (r.1.lastDict, r.1.tab, r.2.events)) =
      some ([(exIdxHash, Ptr.obj exEntry1)], exStreamWithRow1.tab, []) := by
  refine ⟨by decide, by decide, by decide⟩

/-! ## Claim C6: filters without a predicate -/

/-- C6 fails on the code. With a filter without a predicate in the list, here followed by a
filter that passes, neither `SendEntry` on a new row nor `EndCurrentSend` on a stream
holding an entry returns, whatever the fuel: the `continue` taken for the filter does not
advance the iterator. -/
theorem C6_filter_without_predicate_never_ends (fuel : Nat) :
    SendEntry [] fuel { exStream with filters := [noPred "f", passAll "g"] } exRow1
      = .error .Diverges ∧
    EndCurrentSend [] fuel { exStreamWithRow1 with filters := [noPred "f", passAll "g"] }
      = .error .Diverges := by
  constructor
  · rw [SendEntry_new [] fuel _ exRow1 exIdxHash exValHash1 (.AddrVal [10, 0, 0, 1])
      (.uint 1 TYPE_COUNT) (by rfl) (by rfl) (by rfl) (by rfl) (by rfl)]
    simp only [SendEntry.finish]
    rw [SendEntry_filterLoop_none _ _ _ _ (noPred "f") [passAll "g"] rfl]
  · exact EndCurrentSend_diverges [] fuel _ exIdxHash exEntry1 [] (noPred "f") [passAll "g"]
      (.uint 1 TYPE_COUNT) rfl rfl rfl (by rfl)

/-! ## Claim C7: removals at the end of a snapshot -/

/-- Counterexample to C7 as stated. The stream has no filters, holds `(10.0.0.1, 1)` in
`lastDict` and in the table, and the event name `removed` is subscribed, but the event
registry does not know it. `EndCurrentSend` deletes the row and dispatches no event. -/
theorem C7_unknown_event_name_gets_no_removed_event :
    ({ exStreamWithRow1 with events := ["removed"] } : ReaderInfo).filters.length = 0 ∧
    ({ exStreamWithRow1 with events := ["removed"] } : ReaderInfo).lastDict
      = [(exIdxHash, .obj exEntry1)] ∧
    EndCurrentSend [] 0 { exStreamWithRow1 with events := ["removed"] }
      = .ok ({ exStream with events := ["removed"] }, ⟨[], []⟩) := by
  refine ⟨rfl, rfl, rfl⟩

/-- C7, as amended. Take a stream without filters in which every entry of `lastDict` is an
object, the idx_keys of `lastDict` are pairwise distinct and the table holds an entry at
each of them. Then `EndCurrentSend` returns; it deletes from the table exactly the idx_keys
of `lastDict`, makes `currDict` the new `lastDict`, and dispatches, entry by entry in
iteration order and name by name in subscription order, one `Removed` event for each
subscribed name that the event registry knows, carrying the index recovered from the idx_key
and the value the table held for it. -/
theorem C7_end_current_send_removes_and_reports (event_registry : List String)
    (fuel : Nat) (i : ReaderInfo)
    (hf : i.filters = []) (hobj : PDict.AllObj i.lastDict)
    (hnd : (PDict.idxkeys i.lastDict).Nodup) (hin : PrevInDst i.lastDict i.tab) :
    EndCurrentSend event_registry fuel i
      = .ok ({ i with
                tab := i.tab.filter (fun e => decide (e.1 ∉ PDict.idxkeys i.lastDict))
                lastDict := i.currDict
                currDict := [] },
             ⟨i.lastDict.flatMap (removedEventsOf event_registry i.events i.tab), []⟩) := by
  unfold EndCurrentSend
  rw [EndCurrentSend_loop_no_filters event_registry fuel i.lastDict i ⟨[], []⟩ hf hobj hnd
    (Or.inr hin)]
  simp

/-- C7 at a concrete input: the stream holds `(10.0.0.1, 1)`; the names `removed` and
`other` are subscribed and the registry knows `removed`. -/
theorem C7_witness :
    EndCurrentSend ["removed"] 0 { exStreamWithRow1 with events := ["removed", "other"] }
      = .ok ({ exStream with events := ["removed", "other"] },
          ⟨[⟨"removed", EVENT_REMOVED, .ListVal [.AddrVal [10, 0, 0, 1]], .uint 1 TYPE_COUNT⟩],
            []⟩) :=
  (C7_end_current_send_removes_and_reports ["removed"] 0
    { exStreamWithRow1 with events := ["removed", "other"] } rfl
    (by intro e he; simp [exStreamWithRow1] at he; exact ⟨exEntry1, by rw [he]⟩)
    (by decide) (by intro fp h hm; simp [exStreamWithRow1] at hm; obtain ⟨-, rfl⟩ := hm; rfl)).trans
    (by rfl)

/-! ## Claim C8: assignment and events of SendEntry -/

/-- Counterexample to C8 as stated. The stream has no filters and the event name `added` is
subscribed, but the event registry does not know it. `SendEntry` on the new row `(10.0.0.1,
1)` assigns the row and dispatches no event. -/
theorem C8_unknown_event_name_gets_no_new_event :
    ({ exStream with events := ["added"] } : ReaderInfo).filters.length = 0 ∧
    ({ exStream with events := ["added"] } : ReaderInfo).lastDict.Lookup exIdxHash = .null ∧
    HashLogVals 1 exRow1 = .ok exIdxHash ∧
    (SendEntry [] 0 { exStream with events := ["added"] } exRow1).toOption.map
      (fun r => (r.1.tab, r.2.events)) = some (exStreamWithRow1.tab, []) := by
  refine ⟨rfl, rfl, rfl, by decide⟩

/-- C8, as amended. Take a row that converts to `idxval` and `valval`, filed by the table
under `k`, and enough fuel for the filters. If the index fingerprint is not in `lastDict`
and every filter has a predicate that returns true for `(New, idxval, valval)`, then
`SendEntry` assigns `valval` under `k` and dispatches, in subscription order, one event
`(New, idxval, valval)` for each subscribed name that the event registry knows. If the
fingerprint is in `lastDict` with another value hash, the table holds `old` for the index,
and every filter has a predicate that returns true for `(Changed, idxval, valval)`, then
`SendEntry` assigns `valval` under `k` and dispatches, in subscription order, one event
`(Changed, idxval, old)` for each subscribed name that the registry knows. After the
assignment the table holds `valval` for the index. -/
theorem C8_send_entry_assigns_and_dispatches (event_registry : List String) (fuel : Nat)
    (i : ReaderInfo) (vals : List LogVal) (idxhash valhash : HashKey) (idxval valval : Val)
    (k : IndexKey)
    (hidx : HashLogVals i.num_idx_fields vals = .ok idxhash)
    (hval : HashLogVals i.num_val_fields (vals.drop i.num_idx_fields) = .ok valhash)
    (hi : LogValToIndexVal i.num_idx_fields i.itype vals = .ok idxval)
    (hv : valvalOf i vals = .ok valval)
    (hk : ComputeHash idxval = some k)
    (hfuel : i.filters.length ≤ fuel) :
    (i.lastDict.Lookup idxhash = .null →
      (∀ g ∈ i.filters, ∃ q, g.pred = some q ∧ q EVENT_NEW idxval valval = true) →
      SendEntry event_registry fuel i vals
        = .ok ({ i with
                  tab := i.tab.Assign k valval
                  currDict := i.currDict.Insert idxhash (.obj ⟨valhash, k⟩) },
               ⟨(i.events.filter fun name => decide (name ∈ event_registry)).map fun name =>
                  ⟨name, EVENT_NEW, idxval, valval⟩,
                i.filters.map fun g => ⟨g.name, EVENT_NEW, idxval, valval⟩⟩)) ∧
    (∀ h old, i.lastDict.Lookup idxhash = .obj h → h.valhash.Hash ≠ valhash.Hash →
      i.tab.Lookup idxval = some old →
      (∀ g ∈ i.filters, ∃ q, g.pred = some q ∧ q EVENT_CHANGED idxval valval = true) →
      SendEntry event_registry fuel i vals
        = .ok ({ i with
                  tab := i.tab.Assign k valval
                  lastDict := i.lastDict.Remove idxhash
                  currDict := i.currDict.Insert idxhash (.obj ⟨valhash, k⟩) },
               ⟨(i.events.filter fun name => decide (name ∈ event_registry)).map fun name =>
                  ⟨name, EVENT_CHANGED, idxval, old⟩,
                i.filters.map fun g => ⟨g.name, EVENT_CHANGED, idxval, valval⟩⟩)) ∧
    (i.tab.Assign k valval).Lookup idxval = some valval := by
  refine ⟨?_, ?_, ?_⟩
  · intro hnew hpass
    rw [SendEntry_new event_registry fuel i vals idxhash valhash idxval valval hidx hval hnew
      hi hv]
    simp only [SendEntry.finish, Bool.false_eq_true, if_false,
      SendEntry_filterLoop_pass EVENT_NEW idxval valval fuel i.filters hpass hfuel, hk,
      SendEntry_eventLoop_new]
  · intro h old hold hne hlk hpass
    rw [SendEntry_changed event_registry fuel i vals idxhash valhash idxval valval h hidx hval
      hold hne hi hv]
    simp only [SendEntry.finish, if_true,
      SendEntry_filterLoop_pass EVENT_CHANGED idxval valval fuel i.filters hpass hfuel, hk,
      hlk, SendEntry_eventLoop_changed]
  · simp only [TableVal.Lookup, hk, TableVal_find_Assign_self]

/-- C8 at concrete inputs: the new row `(10.0.0.1, 1)` and the changed row `(10.0.0.1, 2)`,
with one filter that passes and one known event name. -/
theorem C8_witness :
    SendEntry ["added"] 1 { exStream with events := ["added"], filters := [passAll "p"] } exRow1
      = .ok ({ exStream with
                events := ["added"], filters := [passAll "p"]
                tab := [([.AddrVal [10, 0, 0, 1]], .uint 1 TYPE_COUNT)]
                currDict := [(exIdxHash, .obj exEntry1)] },
          ⟨[⟨"added", EVENT_NEW, .AddrVal [10, 0, 0, 1], .uint 1 TYPE_COUNT⟩],
            [⟨"p", EVENT_NEW, .AddrVal [10, 0, 0, 1], .uint 1 TYPE_COUNT⟩]⟩) ∧
    SendEntry ["changed"] 1
        { exStreamWithRow1 with events := ["changed"], filters := [passAll "p"] } exRow2
      = .ok ({ exStream with
                events := ["changed"], filters := [passAll "p"]
                tab := [([.AddrVal [10, 0, 0, 1]], .uint 2 TYPE_COUNT)]
                currDict := [(exIdxHash, .obj ⟨exValHash2, [.AddrVal [10, 0, 0, 1]]⟩)] },
          ⟨[⟨"changed", EVENT_CHANGED, .AddrVal [10, 0, 0, 1], .uint 1 TYPE_COUNT⟩],
            [⟨"p", EVENT_CHANGED, .AddrVal [10, 0, 0, 1], .uint 2 TYPE_COUNT⟩]⟩) :=
  ⟨((C8_send_entry_assigns_and_dispatches ["added"] 1
      { exStream with events := ["added"], filters := [passAll "p"] } exRow1 exIdxHash
      exValHash1 (.AddrVal [10, 0, 0, 1]) (.uint 1 TYPE_COUNT) [.AddrVal [10, 0, 0, 1]]
      (by rfl) (by rfl) (by rfl) (by rfl) (by rfl) (by decide)).1 (by rfl)
      (by intro g hg; simp at hg; subst hg; exact ⟨_, rfl, rfl⟩)).trans (by rfl),
   ((C8_send_entry_assigns_and_dispatches ["changed"] 1
      { exStreamWithRow1 with events := ["changed"], filters := [passAll "p"] } exRow2
      exIdxHash exValHash2 (.AddrVal [10, 0, 0, 1]) (.uint 2 TYPE_COUNT)
      [.AddrVal [10, 0, 0, 1]]
      (by rfl) (by rfl) (by rfl) (by rfl) (by rfl) (by decide)).2.1 exEntry1
      (.uint 1 TYPE_COUNT) (by rfl) (by decide) (by rfl)
      (by intro g hg; simp at hg; subst hg; exact ⟨_, rfl, rfl⟩)).trans (by rfl)⟩

/-! ## Claim C9: entries of prev are in dst -/

/-- The operations that keep the predicate `for every object filed in lastDict, the table
holds an entry at its idx_key`: `SendEntry` and `Put` preserve it. `EndCurrentSend`
establishes it for the new `lastDict` when, before the call, it holds for `lastDict` and
for `currDict`, the idx_keys of the two dictionaries are pairwise distinct and the
fingerprints of `lastDict` are distinct. `Delete` preserves it when the index it deletes is
not an idx_key of `lastDict`. -/
theorem PrevInDst_preserved :
    (∀ (event_registry : List String) (fuel : Nat) (i j : ReaderInfo) (vals : List LogVal)
        (out : Out),
      SendEntry event_registry fuel i vals = .ok (j, out) →
      PrevInDst i.lastDict i.tab → PrevInDst j.lastDict j.tab) ∧
    (∀ (i j : ReaderInfo) (vals : List LogVal),
      Put i vals = .ok j →
      PrevInDst i.lastDict i.tab → PrevInDst j.lastDict j.tab) ∧
    (∀ (event_registry : List String) (fuel : Nat) (i j : ReaderInfo) (out : Out),
      EndCurrentSend event_registry fuel i = .ok (j, out) →
      PrevInDst i.lastDict i.tab → PrevInDst i.currDict i.tab →
      (PDict.idxkeys i.lastDict ++ PDict.idxkeys i.currDict).Nodup →
      (i.lastDict.map Prod.fst).Nodup →
      PrevInDst j.lastDict j.tab) ∧
    (∀ (i j : ReaderInfo) (vals : List LogVal) (removed : Bool),
      Delete i vals = .ok (j, removed) →
      PrevInDst i.lastDict i.tab →
      (∀ k, idxkeyOf i vals = .ok k → k ∉ PDict.idxkeys i.lastDict) →
      PrevInDst j.lastDict j.tab) := by
  refine ⟨?_, ?_, ?_, ?_⟩
  · intro event_registry fuel i j vals out hrun hinv
    obtain ⟨h1, h2⟩ := SendEntry_frame _ _ _ _ _ _ hrun
    exact PrevInDst_mono h1 h2 hinv
  · intro i j vals hrun hinv
    rcases Put_inv i j vals hrun with rfl | ⟨k, v, rfl⟩
    · exact hinv
    · exact PrevInDst_mono (fun e he => he)
        (fun k2 hk => TableVal_find_Assign_isSome _ _ _ _ hk) hinv
  · intro event_registry fuel i j out hrun hlast hcurr hnd hkeys
    unfold EndCurrentSend at hrun
    split at hrun
    · simp at hrun
    · rename_i j2 out2 hloop
      simp only [Except.ok.injEq, Prod.mk.injEq] at hrun
      rw [← hrun.1]
      exact EndCurrentSend_loop_keeps _ _ _ _ _ _ _ hloop hcurr hlast hnd hkeys
        (fun e he => PDict_Lookup_of_mem hkeys he)
  · intro i j vals removed hrun hinv hfresh
    unfold Delete at hrun
    split at hrun
    · simp at hrun
    · rename_i idxval hi
      split at hrun
      · simp only [Except.ok.injEq, Prod.mk.injEq] at hrun
        rw [← hrun.1]
        exact hinv
      · rename_i k hk
        simp only [Except.ok.injEq, Prod.mk.injEq] at hrun
        rw [← hrun.1]
        intro fp h hm
        have hne : h.idxkey ≠ k := by
          intro e
          apply hfresh k (by simp [idxkeyOf, hi, hk])
          rw [← e]
          exact PDict_mem_idxkeys.2 ⟨fp, h, hm, rfl⟩
        show ((i.tab.Delete k).find h.idxkey).isSome = true
        rw [TableVal_find_Delete_ne _ hne]
        exact hinv fp h hm

/-- The preservation at concrete inputs: `SendEntry` of a new row, `Put` of a row,
`EndCurrentSend`, and `Delete` of a row that is not stored, all on the stream that holds
`(10.0.0.1, 1)`. -/
theorem PrevInDst_preserved_at_row1 :
    PrevInDst exStreamWithRow1.lastDict
      [([.AddrVal [10, 0, 0, 1]], .uint 1 TYPE_COUNT), ([.AddrVal [10, 0, 0, 2]], .uint 7 TYPE_COUNT)] ∧
    PrevInDst exStreamWithRow1.lastDict [([.AddrVal [10, 0, 0, 1]], .uint 2 TYPE_COUNT)] ∧
    PrevInDst ([] : PDict) [] ∧
    PrevInDst exStreamWithRow1.lastDict exStreamWithRow1.tab := by
  have h0 : PrevInDst exStreamWithRow1.lastDict exStreamWithRow1.tab := by
    intro fp h hm
    simp [exStreamWithRow1] at hm
    obtain ⟨-, rfl⟩ := hm
    rfl
  refine ⟨?_, ?_, ?_, ?_⟩
  · exact PrevInDst_preserved.1 [] 0 exStreamWithRow1
      { exStreamWithRow1 with
          tab := [([.AddrVal [10, 0, 0, 1]], .uint 1 TYPE_COUNT),
            ([.AddrVal [10, 0, 0, 2]], .uint 7 TYPE_COUNT)]
          currDict := [(⟨(addrBytes [10, 0, 0, 2]).map some⟩,
            .obj ⟨⟨(toBytes 8 7).map some⟩, [.AddrVal [10, 0, 0, 2]]⟩)] }
      exRow3 ⟨[], []⟩ (by rfl) h0
  · exact PrevInDst_preserved.2.1 exStreamWithRow1
      { exStreamWithRow1 with tab := [([.AddrVal [10, 0, 0, 1]], .uint 2 TYPE_COUNT)] }
      exRow2 (by rfl) h0
  · exact PrevInDst_preserved.2.2.1 [] 0 exStreamWithRow1 exStream ⟨[], []⟩ (by rfl) h0
      (by intro fp h hm; simp [exStreamWithRow1, exStream] at hm) (by decide) (by decide)
  · exact PrevInDst_preserved.2.2.2 exStreamWithRow1 exStreamWithRow1 exRow3 false
      (by rfl) h0 (by intro k hk; cases hk; decide)

/-- Claim C9 fails on the code. The stream holds `(10.0.0.1, 1)` in `lastDict` and in the
table, so the predicate holds. After `Clear`, and after `Delete` of that row, the table is
empty while `lastDict` still holds the entry, so the predicate fails; with the event `added`
subscribed the next `EndCurrentSend` stops at `assert(val != 0)`. -/
theorem C9_clear_and_delete_break_prev_in_dst :
    PrevInDst exStreamWithRow1.lastDict exStreamWithRow1.tab ∧
    ¬ PrevInDst (Clear exStreamWithRow1).lastDict (Clear exStreamWithRow1).tab ∧
    Delete exStreamWithRow1 exRow1 = .ok ({ exStreamWithRow1 with tab := [] }, true) ∧
    ¬ PrevInDst exStreamWithRow1.lastDict [] ∧
    EndCurrentSend ["added"] 0 (Clear exStreamAddedWithRow1) = .error .AssertFailed ∧
    (∃ j, Delete exStreamAddedWithRow1 exRow1 = .ok (j, true) ∧
      EndCurrentSend ["added"] 0 j = .error .AssertFailed) := by
  have hbad : ¬ PrevInDst exStreamWithRow1.lastDict [] := by
    intro h
    have := h exIdxHash exEntry1 (by simp [exStreamWithRow1])
    simp [TableVal.find] at this
  refine ⟨?_, hbad, rfl, hbad, rfl, ⟨_, rfl, rfl⟩⟩
  intro fp h hm
  simp [exStreamWithRow1] at hm
  obtain ⟨-, rfl⟩ := hm
  rfl

/-! ## Claim C10: Put writes through -/

/-- C10. For a row that converts to `idxval` and `valval`, filed by the table under `k`:
`Put` returns; it leaves `lastDict`, `currDict`, `events` and `filters` unchanged;
afterwards the table holds `valval` for the index and what it held before under every other
key; `valval` is the conversion of the single value cell when `num_val_fields == 1` and
`want_record` is false, and a record assembled from the value cells otherwise; and every
delivery of rows that returns on the stream before the `Put` returns on the stream after it,
with the same classification of each row, the same dictionaries and the same predicate
calls. -/
theorem C10_put_is_write_through (i : ReaderInfo) (vals : List LogVal) (idxval valval : Val)
    (k : IndexKey)
    (hi : LogValToIndexVal i.num_idx_fields i.itype vals = .ok idxval)
    (hv : valvalOf i vals = .ok valval)
    (hk : ComputeHash idxval = some k) :
    ∃ j, Put i vals = .ok j ∧
      j.lastDict = i.lastDict ∧ j.currDict = i.currDict ∧ j.events = i.events ∧
      j.filters = i.filters ∧
      j.tab.Lookup idxval = some valval ∧
      (∀ k2, k2 ≠ k → j.tab.find k2 = i.tab.find k2) ∧
      (i.num_val_fields = 1 ∧ i.want_record = false →
        ∃ c, readCell vals i.num_idx_fields = .ok c ∧ LogValToVal c TYPE_ANY = .ok valval) ∧
      (¬ (i.num_val_fields = 1 ∧ i.want_record = false) →
        ∃ r p, convertFields vals i.rtype i.num_idx_fields = .ok (r, p) ∧
          valval = .RecordVal r) ∧
      (∀ (event_registry : List String) (fuel : Nat) (rows : List (List LogVal))
          (j1 : ReaderInfo) (out1 : Out),
        SendEntries event_registry fuel i rows = .ok (j1, out1) →
        ∃ j2 out2, SendEntries event_registry fuel j rows = .ok (j2, out2) ∧
          classifyRows event_registry fuel j rows = classifyRows event_registry fuel i rows ∧
          j2.lastDict = j1.lastDict ∧ j2.currDict = j1.currDict ∧
          out2.calls = out1.calls) := by
  refine ⟨{ i with tab := i.tab.Assign k valval }, ?_, rfl, rfl, rfl, rfl, ?_, ?_, ?_, ?_, ?_⟩
  · simp only [Put, hi, hv, hk]
  · simp only [TableVal.Lookup, hk, TableVal_find_Assign_self]
  · intro k2 hk2
    exact TableVal_find_Assign_ne _ _ hk2
  · intro hc
    unfold valvalOf at hv
    rw [if_pos hc] at hv
    split at hv
    · rename_i c hcell
      exact ⟨c, hcell, hv⟩
    · simp at hv
  · intro hc
    unfold valvalOf at hv
    rw [if_neg hc] at hv
    split at hv
    · rename_i r p hconv
      simp only [Except.ok.injEq] at hv
      exact ⟨r, p, hconv, hv.symm⟩
    · simp at hv
  · intro event_registry fuel rows j1 out1 hrun
    obtain ⟨t3, out2, h1, h2, h3⟩ := SendEntries_sim event_registry fuel rows i j1 out1
      (i.tab.Assign k valval) (fun k2 hk2 => TableVal_find_Assign_isSome _ _ _ _ hk2) hrun
    exact ⟨{ j1 with tab := t3 }, out2, h1, h2, rfl, rfl, h3⟩

/-- C10 at a concrete input: `Put` of `(10.0.0.1, 2)` on the stream that holds `(10.0.0.1,
1)`. -/
theorem C10_witness :
    ∃ j, Put exStreamWithRow1 exRow2 = .ok j ∧
      j.lastDict = exStreamWithRow1.lastDict ∧ j.currDict = exStreamWithRow1.currDict ∧
      j.events = exStreamWithRow1.events ∧ j.filters = exStreamWithRow1.filters ∧
      j.tab.Lookup (.AddrVal [10, 0, 0, 1]) = some (.uint 2 TYPE_COUNT) ∧
      (∀ k2, k2 ≠ [.AddrVal [10, 0, 0, 1]] → j.tab.find k2 = exStreamWithRow1.tab.find k2) ∧
      (exStreamWithRow1.num_val_fields = 1 ∧ exStreamWithRow1.want_record = false →
        ∃ c, readCell exRow2 exStreamWithRow1.num_idx_fields = .ok c ∧
          LogValToVal c TYPE_ANY = .ok (.uint 2 TYPE_COUNT)) ∧
      (¬ (exStreamWithRow1.num_val_fields = 1 ∧ exStreamWithRow1.want_record = false) →
        ∃ r p, convertFields exRow2 exStreamWithRow1.rtype exStreamWithRow1.num_idx_fields
            = .ok (r, p) ∧ Val.uint 2 TYPE_COUNT = .RecordVal r) ∧
      (∀ (event_registry : List String) (fuel : Nat) (rows : List (List LogVal))
          (j1 : ReaderInfo) (out1 : Out),
        SendEntries event_registry fuel exStreamWithRow1 rows = .ok (j1, out1) →
        ∃ j2 out2, SendEntries event_registry fuel j rows = .ok (j2, out2) ∧
          classifyRows event_registry fuel j rows
            = classifyRows event_registry fuel exStreamWithRow1 rows ∧
          j2.lastDict = j1.lastDict ∧ j2.currDict = j1.currDict ∧
          out2.calls = out1.calls) :=
  C10_put_is_write_through exStreamWithRow1 exRow2 (.AddrVal [10, 0, 0, 1])
    (.uint 2 TYPE_COUNT) [.AddrVal [10, 0, 0, 1]] (by rfl) (by rfl) (by rfl)

/-! ## Claim C11: the types a stream accepts -/

theorem IsCompatibleType_switch_atomic_only (inner : Option BroType → Bool) (t : BroType) :
    IsCompatibleType.switch inner t true = true ↔ t.Tag ∈ atomicKinds := by
  unfold IsCompatibleType.switch
  cases h : t.Tag <;> simp [atomicKinds]

theorem IsCompatibleType_atomic_only (t : Option BroType) :
    IsCompatibleType t true = true ↔ ∃ ty, t = some ty ∧ ty.Tag ∈ atomicKinds := by
  cases t with
  | none => simp [IsCompatibleType]
  | some ty =>
    simp only [IsCompatibleType]
    rw [IsCompatibleType_switch_atomic_only]
    simp

/-- The equation of the source: the table and vector cases call `IsCompatibleType`
itself with `atomic_only` set. -/
theorem IsCompatibleType_eq (t : BroType) (atomic_only : Bool) :
    IsCompatibleType (some t) atomic_only =
      IsCompatibleType.switch (fun u => IsCompatibleType u true) t atomic_only := by
  have hinner : (fun u : Option BroType =>
        match u with
        | none => false
        | some u => IsCompatibleType.switch (fun _ => false) u true)
      = fun u => IsCompatibleType u true := by
    funext u
    cases u with
    | none => rfl
    | some u =>
      rw [Bool.eq_iff_iff, IsCompatibleType_atomic_only]
      simp only [IsCompatibleType_switch_atomic_only]
      simp
  rw [← hinner]
  rfl

/-- Claim C11: `IsCompatibleType(t, true)` holds exactly for a type of one of the twelve
atomic kinds, and `IsCompatibleType(t, false)` exactly for such a type, a record, a set
whose index list has a pure type of an atomic kind, or a vector whose yield type is of
an atomic kind; a null type is rejected either way. -/
theorem C11_is_compatible_type (t : Option BroType) :
    (IsCompatibleType t true = true ↔ ∃ ty, t = some ty ∧ ty.Tag ∈ atomicKinds) ∧
    (IsCompatibleType t false = true ↔
      ∃ ty, t = some ty ∧
        (ty.Tag ∈ atomicKinds ∨ ty.Tag = TYPE_RECORD ∨
          (ty.Tag = TYPE_TABLE ∧ ty.IsSet = true ∧
            ∃ p, PureType ty.Indices = some p ∧ p.Tag ∈ atomicKinds) ∨
          (ty.Tag = TYPE_VECTOR ∧ ∃ y, ty.YieldType = some y ∧ y.Tag ∈ atomicKinds))) := by
  refine ⟨IsCompatibleType_atomic_only t, ?_⟩
  cases t with
  | none => simp [IsCompatibleType]
  | some ty =>
    rw [IsCompatibleType_eq]
    unfold IsCompatibleType.switch
    cases h : ty.Tag <;> simp [atomicKinds, h, IsCompatibleType_atomic_only]

/-! ## Claims C12 and C13: the schema and the walk over a row -/

mutual
theorem leafPaths_ne_nil : ∀ (rec : List (String × BroType)) (l : List String × BroType),
    l ∈ leafPaths rec → l.1 ≠ []
  | [], l, h => by simp [leafPaths] at h
  | (name, t) :: rest, l, h => by
    rw [leafPaths, List.mem_append] at h
    rcases h with h | h
    · exact leafPaths_field_ne_nil t name l h
    · exact leafPaths_ne_nil rest l h
theorem leafPaths_field_ne_nil : ∀ (t : BroType) (name : String)
    (l : List String × BroType), l ∈ leafPaths.field name t → l.1 ≠ []
  | .record sub, name, l, h => by
    rw [leafPaths.field, List.mem_map] at h
    obtain ⟨l0, _, rfl⟩ := h
    simp
  | .base tag, name, l, h => by
    rw [leafPaths.field, List.mem_singleton] at h
    subst h; simp
  | .table indices yield, name, l, h => by
    rw [leafPaths.field, List.mem_singleton] at h
    subst h; simp
  | .vector yield, name, l, h => by
    rw [leafPaths.field, List.mem_singleton] at h
    subst h; simp
end

theorem dotJoined_cons (name : String) (path : List String) (h : path ≠ []) :
    dotJoined (name :: path) = name ++ "." ++ dotJoined path := by
  cases path with
  | nil => exact absurd rfl h
  | cons a as => rfl

theorem leafField_cons (p name : String) (l : List String × BroType) (h : l.1 ≠ []) :
    leafField p (name :: l.1, l.2) = leafField (p ++ name ++ ".") l := by
  simp only [leafField, dotJoined_cons name l.1 h, String.append_assoc]

mutual
theorem UnrollRecordType_leaves : ∀ (rec : List (String × BroType))
    (fields : List LogField) (p : String) (out : List LogField),
    UnrollRecordType fields rec p = .ok (true, out) →
      out = fields ++ (leafPaths rec).map (leafField p)
  | [], fields, p, out, h => by
    simp only [UnrollRecordType, Except.ok.injEq, Prod.mk.injEq, true_and] at h
    simp [leafPaths, ← h]
  | (name, t) :: rest, fields, p, out, h => by
    rw [UnrollRecordType] at h
    split at h
    · simp at h
    · split at h
      · rename_i fields1 hf
        have h1 := UnrollRecordType_field_leaves t name fields p fields1 hf
        have h2 := UnrollRecordType_leaves rest fields1 p out h
        rw [h2, h1, leafPaths, List.map_append, List.append_assoc]
      · simp at h
      · simp at h
theorem UnrollRecordType_field_leaves : ∀ (t : BroType) (name : String)
    (fields : List LogField) (p : String) (out : List LogField),
    UnrollRecordType.field fields name t p = .ok (true, out) →
      out = fields ++ (leafPaths.field name t).map (leafField p)
  | .record sub, name, fields, p, out, h => by
    rw [UnrollRecordType.field] at h
    have h1 := UnrollRecordType_leaves sub fields (p ++ name ++ ".") out h
    rw [h1, leafPaths.field, List.map_map]
    congr 1
    apply List.map_congr_left
    intro l hl
    exact (leafField_cons p name l (leafPaths_ne_nil sub l hl)).symm
  | .base tag, name, fields, p, out, h => by
    rw [UnrollRecordType.field] at h
    split at h
    · simp at h
    · split at h
      · simp at h
      · split at h
        · simp at h
        · simp only [Except.ok.injEq, Prod.mk.injEq, true_and] at h
          simp [← h, leafPaths.field, leafField, dotJoined, BroType.Tag, innerKind]
  | .table indices yield, name, fields, p, out, h => by
    rw [UnrollRecordType.field] at h
    split at h
    · rename_i q hq
      simp only [Except.ok.injEq, Prod.mk.injEq, true_and] at h
      simp [← h, leafPaths.field, leafField, dotJoined, BroType.Tag, innerKind, hq]
    · simp at h
  | .vector yield, name, fields, p, out, h => by
    rw [UnrollRecordType.field] at h
    simp only [Except.ok.injEq, Prod.mk.injEq, true_and] at h
    simp [← h, leafPaths.field, leafField, dotJoined, BroType.Tag, innerKind]
end

theorem convertCells_append (vals : List LogVal) :
    ∀ (a b : List LogField) (p : Nat) (vs : List Val),
      convertCells vals p (a ++ b) = .ok vs →
      ∃ va vb, convertCells vals p a = .ok va ∧
        convertCells vals (p + a.length) b = .ok vb ∧ vs = va ++ vb
  | [], b, p, vs, h => ⟨[], vs, rfl, by simpa using h, rfl⟩
  | f :: a, b, p, vs, h => by
    rw [List.cons_append, convertCells] at h
    rw [convertCells]
    cases hc : readCell vals p with
    | error e => rw [hc] at h; simp at h
    | ok c =>
      rw [hc] at h
      simp only at h ⊢
      cases hv : LogValToVal c f.type with
      | error e => rw [hv] at h; simp at h
      | ok v =>
        rw [hv] at h
        simp only at h ⊢
        cases hr : convertCells vals (p + 1) (a ++ b) with
        | error e => rw [hr] at h; simp at h
        | ok rest =>
          rw [hr] at h
          simp only [Except.ok.injEq] at h
          obtain ⟨va, vb, h1, h2, h3⟩ := convertCells_append vals a b (p + 1) rest hr
          refine ⟨v :: va, vb, ?_, ?_, ?_⟩
          · rw [h1]
          · rw [← h2]; congr 1; simp only [List.length_cons]; omega
          · rw [← h, h3]; rfl

theorem LogValToVal_switch_leaves (c : LogVal) (v : Val)
    (h : LogValToVal.switch c = .ok v) : Val.leaves v = [v] := by
  cases c with
  | table vals =>
    cases vals with
    | nil => simp [LogValToVal.switch] at h
    | cons x xs =>
      rw [LogValToVal.switch] at h
      split at h
      · simp only [Except.ok.injEq] at h; subst h; rfl
      · simp at h
  | vector vals =>
    cases vals with
    | nil => simp [LogValToVal.switch] at h
    | cons x xs =>
      cases xs with
      | nil => simp [LogValToVal.switch] at h
      | cons y ys =>
        rw [LogValToVal.switch] at h
        split at h
        · simp only [Except.ok.injEq] at h; subst h; rfl
        · simp at h
  | enum s => simp [LogValToVal.switch] at h
  | _ =>
    simp only [LogValToVal.switch, Except.ok.injEq] at h
    subst h; rfl

theorem LogValToVal_leaves (c : LogVal) (t : TypeTag) (v : Val)
    (h : LogValToVal c t = .ok v) : Val.leaves v = [v] := by
  rw [LogValToVal] at h
  split at h
  · simp at h
  · exact LogValToVal_switch_leaves c v h

/-- The leaf round of `LogValToRecordVal`: a cell converted at the tag of the single
`LogField`. -/
theorem convertCells_single (vals : List LogVal) (p : Nat) (f : LogField) (vs : List Val)
    (h : convertCells vals p [f] = .ok vs) :
    ∃ c v, readCell vals p = .ok c ∧ LogValToVal c f.type = .ok v ∧ vs = [v] := by
  rw [convertCells] at h
  cases hc : readCell vals p with
  | error e => rw [hc] at h; simp at h
  | ok c =>
    rw [hc] at h
    simp only at h
    cases hv : LogValToVal c f.type with
    | error e => rw [hv] at h; simp at h
    | ok v =>
      rw [hv] at h
      simp only [convertCells, Except.ok.injEq] at h
      exact ⟨c, v, rfl, hv, h.symm⟩

mutual
theorem LogValToRecordVal_loop_cells : ∀ (rec : List (String × BroType)) (pre : String)
    (vals : List LogVal) (p : Nat) (vs : List Val),
    convertCells vals p ((leafPaths rec).map (leafField pre)) = .ok vs →
      ∃ fs, LogValToRecordVal.loop vals rec p = .ok (fs, p + (leafPaths rec).length) ∧
        Val.leaves.loop fs = vs
  | [], pre, vals, p, vs, h => by
    simp only [leafPaths, List.map_nil, convertCells, Except.ok.injEq] at h
    exact ⟨[], by simp [LogValToRecordVal.loop, leafPaths], by rw [← h]; rfl⟩
  | (name, t) :: rest, pre, vals, p, vs, h => by
    rw [leafPaths, List.map_append] at h
    obtain ⟨va, vb, h1, h2, h3⟩ := convertCells_append vals _ _ p vs h
    obtain ⟨v, hv, hlv⟩ := LogValToRecordVal_field_cells t name pre vals p va h1
    rw [List.length_map] at h2
    obtain ⟨fs, hfs, hlfs⟩ := LogValToRecordVal_loop_cells rest pre vals _ vb h2
    refine ⟨v :: fs, ?_, ?_⟩
    · rw [LogValToRecordVal.loop, hv]
      simp only
      rw [hfs]
      simp only [leafPaths, List.length_append, Nat.add_assoc]
    · rw [Val.leaves.loop, hlv, hlfs, h3]
theorem LogValToRecordVal_field_cells : ∀ (t : BroType) (name pre : String)
    (vals : List LogVal) (p : Nat) (vs : List Val),
    convertCells vals p ((leafPaths.field name t).map (leafField pre)) = .ok vs →
      ∃ v, LogValToRecordVal.field vals (name, t) p
          = .ok (v, p + (leafPaths.field name t).length) ∧
        Val.leaves v = vs
  | .record sub, name, pre, vals, p, vs, h => by
    have hmap : (leafPaths.field name (.record sub)).map (leafField pre)
        = (leafPaths sub).map (leafField (pre ++ name ++ ".")) := by
      rw [leafPaths.field, List.map_map]
      apply List.map_congr_left
      intro l hl
      exact leafField_cons pre name l (leafPaths_ne_nil sub l hl)
    rw [hmap] at h
    obtain ⟨fs, hfs, hlfs⟩ := LogValToRecordVal_loop_cells sub _ vals p vs h
    refine ⟨.RecordVal fs, ?_, ?_⟩
    · rw [LogValToRecordVal.field, LogValToRecordVal, hfs]
      simp [leafPaths.field]
    · rw [Val.leaves, hlfs]
  | .base tag, name, pre, vals, p, vs, h => by
    obtain ⟨c, v, hc, hv, rfl⟩ := convertCells_single vals p _ vs h
    refine ⟨v, ?_, LogValToVal_leaves c _ v hv⟩
    simp only [leafField, BroType.Tag] at hv
    rw [LogValToRecordVal.field, hc]
    simp only
    rw [hv]
    simp [leafPaths.field]
  | .table indices yield, name, pre, vals, p, vs, h => by
    obtain ⟨c, v, hc, hv, rfl⟩ := convertCells_single vals p _ vs h
    refine ⟨v, ?_, LogValToVal_leaves c _ v hv⟩
    simp only [leafField, BroType.Tag] at hv
    rw [LogValToRecordVal.field, hc]
    simp only
    rw [hv]
    simp [leafPaths.field]
  | .vector yield, name, pre, vals, p, vs, h => by
    obtain ⟨c, v, hc, hv, rfl⟩ := convertCells_single vals p _ vs h
    refine ⟨v, ?_, LogValToVal_leaves c _ v hv⟩
    simp only [leafField, BroType.Tag] at hv
    rw [LogValToRecordVal.field, hc]
    simp only
    rw [hv]
    simp [leafPaths.field]
end

/-- Claim C12: when `UnrollRecordType` returns true, the vector holds what it held
before followed by one `LogField` for each leaf of the record type in depth-first
declaration order, named by the prefix and the dot-joined path, with the tag of the
leaf and, for a set or vector leaf, the tag of its pure index or yield type. -/
theorem C12_unroll_record_type_appends_the_leaves (fields : List LogField)
    (rec : RecordType) (p : String) (out : List LogField)
    (h : UnrollRecordType fields rec p = .ok (true, out)) :
    out = fields ++ leafFields p rec :=
  UnrollRecordType_leaves rec fields p out h

/-- Claim C12 at a record type with a nested record, a set and a vector, unrolled into
a vector that already holds a field. -/
theorem C12_witness :
    UnrollRecordType [⟨"i", TYPE_ADDR, none⟩] exRecordType "p."
        = .ok (true, ⟨"i", TYPE_ADDR, none⟩ :: exLogFields) ∧
      ⟨"i", TYPE_ADDR, none⟩ :: exLogFields
        = [⟨"i", TYPE_ADDR, none⟩] ++ leafFields "p." exRecordType :=
  ⟨by decide,
   C12_unroll_record_type_appends_the_leaves [⟨"i", TYPE_ADDR, none⟩] exRecordType "p."
     (⟨"i", TYPE_ADDR, none⟩ :: exLogFields) (by decide)⟩

/-- Claim C13 as stated fails: the record type with one set field is accepted and the
cell of the row is a set, as the leaf asks, yet `LogValToRecordVal` ends in the internal
error of the empty set and returns no cursor. -/
theorem C13_counterexample_empty_set_cell :
    UnrollRecordType [] exSetRecordType "" = .ok (true, [⟨"s", TYPE_TABLE, some TYPE_COUNT⟩]) ∧
      ([LogVal.table []].map LogVal.type = [TYPE_TABLE]) ∧
      LogValToRecordVal [.table []] (.record exSetRecordType) 0 = .error .InternalError := by
  decide

/-- Claim C13, amended: for a record type that `UnrollRecordType` accepts and a row
whose cells from the cursor on are converted by `LogValToVal` at the tags of the emitted
`LogField`s, `LogValToRecordVal` returns with the cursor advanced by the number of
`LogField`s, and the record holds, leaf by leaf, the conversion of the k-th cell at the
k-th `LogField`. -/
theorem C13_record_walk_follows_the_log_fields (T : RecordType) (pre : String)
    (specs : List LogField) (vals : List LogVal) (p : Nat) (vs : List Val)
    (hunroll : UnrollRecordType [] T pre = .ok (true, specs))
    (hconv : convertCells vals p specs = .ok vs) :
    ∃ r, LogValToRecordVal vals (.record T) p = .ok (r, p + specs.length) ∧
      Val.leaves r = vs := by
  have hs := UnrollRecordType_leaves T [] pre specs hunroll
  rw [List.nil_append] at hs
  subst hs
  obtain ⟨fs, hfs, hl⟩ := LogValToRecordVal_loop_cells T pre vals p vs hconv
  refine ⟨.RecordVal fs, ?_, ?_⟩
  · rw [LogValToRecordVal, hfs, List.length_map]
  · rw [Val.leaves, hl]

/-- Claim C13, amended, at the record type with a nested record, a set and a vector and
a row read from the cursor 1. -/
theorem C13_witness :
    UnrollRecordType [] exRecordType "p." = .ok (true, exLogFields) ∧
      convertCells exRecordRow 1 exLogFields = .ok exRecordLeaves ∧
      ∃ r, LogValToRecordVal exRecordRow (.record exRecordType) 1
          = .ok (r, 1 + exLogFields.length) ∧
        Val.leaves r = exRecordLeaves :=
  ⟨by decide, by decide,
   C13_record_walk_follows_the_log_fields exRecordType "p." exLogFields exRecordRow 1
     exRecordLeaves (by decide) (by decide)⟩

/-! ## Claims C19, C20 and C15: events, containers and the subnet encoding -/

theorem UnregisterEvent_loop_first (eventName : String) :
    ∀ (before after : List String), eventName ∉ before →
      UnregisterEvent.loop eventName (before ++ eventName :: after) = (before ++ after, true)
  | [], after, _ => by simp [UnregisterEvent.loop]
  | e :: before, after, h => by
    have hne : e ≠ eventName := fun he => h (he ▸ List.mem_cons_self _ _)
    have hb : eventName ∉ before := fun hb => h (List.mem_cons_of_mem _ hb)
    rw [List.cons_append, UnregisterEvent.loop, if_neg hne,
      UnregisterEvent_loop_first eventName before after hb]
    rfl

theorem UnregisterEvent_loop_absent (eventName : String) :
    ∀ (events : List String), eventName ∉ events →
      UnregisterEvent.loop eventName events = (events, false)
  | [], _ => rfl
  | e :: events, h => by
    have hne : e ≠ eventName := fun he => h (he ▸ List.mem_cons_self _ _)
    have hb : eventName ∉ events := fun hb => h (List.mem_cons_of_mem _ hb)
    rw [UnregisterEvent.loop, if_neg hne, UnregisterEvent_loop_absent eventName events hb]

/-- Claim C19: `RegisterEvent` appends the name at the end of `events` and returns
true; `UnregisterEvent` removes the first occurrence of the name, keeps the other names
in order and returns true, and for a name that is not subscribed it returns false and
leaves the stream as it was; so unregistering a name right after registering it, when it
was not subscribed before, gives back the original stream. -/
theorem C19_register_and_unregister_event (i : ReaderInfo) (eventName : String) :
    RegisterEvent i eventName = ({ i with events := i.events ++ [eventName] }, true) ∧
    (∀ before after : List String, i.events = before ++ eventName :: after →
      eventName ∉ before →
      UnregisterEvent i eventName = ({ i with events := before ++ after }, true)) ∧
    (eventName ∉ i.events → UnregisterEvent i eventName = (i, false)) ∧
    (eventName ∉ i.events →
      UnregisterEvent (RegisterEvent i eventName).1 eventName = (i, true)) := by
  refine ⟨rfl, ?_, ?_, ?_⟩
  · intro before after he hb
    rw [UnregisterEvent, he, UnregisterEvent_loop_first eventName before after hb]
  · intro h
    rw [UnregisterEvent, UnregisterEvent_loop_absent eventName i.events h]
  · intro h
    have h1 := UnregisterEvent_loop_first eventName i.events [] h
    rw [UnregisterEvent, RegisterEvent]
    simp only
    rw [h1, List.append_nil]

/-- Claim C19 at a stream subscribed to `a`, `b`, `a`: unregistering `a` removes the
first `a` only, and `c`, which is not subscribed, is registered and unregistered
again. -/
theorem C19_witness :
    UnregisterEvent exStreamEvents "a"
        = ({ exStreamEvents with events := [] ++ ["b", "a"] }, true) ∧
      "c" ∉ exStreamEvents.events ∧
      UnregisterEvent exStreamEvents "c" = (exStreamEvents, false) ∧
      UnregisterEvent (RegisterEvent exStreamEvents "c").1 "c" = (exStreamEvents, true) :=
  ⟨(C19_register_and_unregister_event exStreamEvents "a").2.1 [] ["b", "a"] rfl
      (by decide),
   by decide,
   (C19_register_and_unregister_event exStreamEvents "c").2.2.1 (by decide),
   (C19_register_and_unregister_event exStreamEvents "c").2.2.2 (by decide)⟩

/-- Claim C20 fails on the code: a vector cell of one contained cell stops at
`assert ( val->val.vector_val.size > 1 )`, whatever the cell is and whatever tag is
asked for, while a vector of two cells is converted element by element. -/
theorem C20_vector_of_one_cell_fails_the_assertion (c : LogVal) :
    LogValToVal (.vector [c]) TYPE_VECTOR = .error .AssertFailed ∧
      LogValToVal (.vector [c]) TYPE_ANY = .error .AssertFailed ∧
      LogValToVal (.vector [.count 5, .count 6]) TYPE_VECTOR
        = .ok (.VectorVal TYPE_COUNT [.uint 5 TYPE_COUNT, .uint 6 TYPE_COUNT]) := by
  refine ⟨?_, ?_, by decide⟩
  · simp [LogValToVal, LogVal.type, LogValToVal.switch]
  · simp [LogValToVal, LogVal.type, LogValToVal.switch]

/-- Claim C15 fails on the code: both `memcpy` calls of the subnet case write at
`data + startpos`, so the sixteen address bytes lie over the width, the last four bytes
of the twenty are never written, and two subnets that differ in the width only have the
same encoding. -/
theorem C15_subnet_width_is_overwritten :
    CopyLogVal (malloc 20) 0 (.subnet [1, 2, 3, 4] 24)
        = ((addrBytes [1, 2, 3, 4]).map some ++ [none, none, none, none], 20) ∧
      HashLogVals 1 [.subnet [1, 2, 3, 4] 24] = HashLogVals 1 [.subnet [1, 2, 3, 4] 16] ∧
      LogVal.subnet [1, 2, 3, 4] 24 ≠ LogVal.subnet [1, 2, 3, 4] 16 := by
  refine ⟨by decide, by decide, by simp⟩

/-! ## Claims C16, C17 and C18: CreateReader and the registered streams -/

theorem SendEntry_settings (event_registry : List String) (fuel : Nat) (i j : ReaderInfo)
    (vals : List LogVal) (out : Out)
    (hrun : SendEntry event_registry fuel i vals = .ok (j, out)) :
    j.settings = i.settings := by
  obtain ⟨idxhash, valhash, -, -, hcase⟩ := SendEntry_inv _ _ _ _ _ _ hrun
  rcases hcase with ⟨h, -, -, rfl, -⟩ | ⟨idxval, valval, -, -, hcase⟩
  · rfl
  · rcases hcase with ⟨-, hfin⟩ | ⟨h, -, -, hfin⟩
    · obtain ⟨b, calls, -, hc⟩ := SendEntry_finish_inv _ _ _ _ _ _ _ _ _ _ _ hfin
      rcases hc with ⟨-, -, rfl, -⟩ | ⟨-, -, rfl, -⟩ | ⟨-, k, evs, -, -, rfl, -⟩ <;> rfl
    · obtain ⟨b, calls, -, hc⟩ := SendEntry_finish_inv _ _ _ _ _ _ _ _ _ _ _ hfin
      rcases hc with ⟨-, -, rfl, -⟩ | ⟨-, -, rfl, -⟩ | ⟨-, k, evs, -, -, rfl, -⟩ <;> rfl

theorem SendEntries_settings (event_registry : List String) (fuel : Nat) :
    ∀ (rows : List (List LogVal)) (i j : ReaderInfo) (out : Out),
      SendEntries event_registry fuel i rows = .ok (j, out) → j.settings = i.settings
  | [], i, j, out, h => by
    simp only [SendEntries, Except.ok.injEq, Prod.mk.injEq] at h
    rw [h.1]
  | vals :: rows, i, j, out, h => by
    obtain ⟨s1, o1, o2, h1, h2, -⟩ := SendEntries_inv_cons _ _ _ _ _ _ _ h
    rw [SendEntries_settings event_registry fuel rows s1 j o2 h2,
      SendEntry_settings _ _ _ _ _ _ h1]

theorem EndCurrentSend_loop_settings (event_registry : List String) (fuel : Nat) :
    ∀ (l : PDict) (i j : ReaderInfo) (out out2 : Out),
      EndCurrentSend.loop event_registry fuel l i out = .ok (j, out2) →
        j.settings = i.settings
  | [], i, j, out, out2, h => by
    simp only [EndCurrentSend.loop, Except.ok.injEq, Prod.mk.injEq] at h
    rw [h.1]
  | (_, .null) :: _, i, j, out, out2, h => by
    simp only [EndCurrentSend.loop, Except.ok.injEq, Prod.mk.injEq] at h
    rw [h.1]
  | (_, .deleted) :: _, i, j, out, out2, h => by
    simp [EndCurrentSend.loop] at h
  | (key, .obj ih) :: rest, i, j, out, out2, h => by
    rw [EndCurrentSend.loop] at h
    split at h
    · split at h
      · simp at h
      · split at h
        · simp at h
        · split at h
          · simp at h
          · split at h
            · exact (EndCurrentSend_loop_settings event_registry fuel rest _ j _ out2 h).trans rfl
            · exact (EndCurrentSend_loop_settings event_registry fuel rest _ j _ out2 h).trans rfl
    · exact (EndCurrentSend_loop_settings event_registry fuel rest _ j _ out2 h).trans rfl

theorem Snapshot_settings (event_registry : List String) (fuel : Nat) (i k : ReaderInfo)
    (rows : List (List LogVal)) (out : Out)
    (hrun : Snapshot event_registry fuel i rows = .ok (k, out)) :
    k.settings = i.settings := by
  obtain ⟨j, o1, o2, h1, h2, -⟩ := Snapshot_inv _ _ _ _ _ _ hrun
  rw [← SendEntries_settings _ _ _ _ _ _ h1]
  unfold EndCurrentSend at h2
  split at h2
  · simp at h2
  · rename_i j2 o3 h3
    simp only [Except.ok.injEq, Prod.mk.injEq] at h2
    rw [← EndCurrentSend_loop_settings _ _ _ _ _ _ _ h3, ← h2.1]
    rfl

theorem CreateReader_remove_inv (m m1 : Manager) (id : EnumVal) (out out1 : Out)
    (r : Option Nat) (h : CreateReader.remove m id out = .ok (m1, r, out1)) :
    r = none ∧ m1.readers = m.readers.eraseP (fun s => decide (s.id.obj = id.obj)) := by
  unfold CreateReader.remove RemoveReader at h
  split at h
  · rename_i m2 heq
    split at heq
    · simp at heq
    · simp only [Prod.mk.injEq, and_true] at heq
      simp only [Except.ok.injEq, Prod.mk.injEq] at h
      obtain ⟨rfl, rfl, -⟩ := h
      rw [← heq]
      exact ⟨rfl, rfl⟩
  · simp at h

/-- What a returning call of `CreateReader` did to the vector `readers`: nothing, or it
pushed a stream made from the description and, where the Reader failed, erased the
first stream that holds the `EnumVal` object of the call. -/
theorem CreateReader_inv (event_registry : List String) (fuel : Nat) (m m1 : Manager)
    (id : EnumVal) (description : ReaderDescription) (r : Option Nat) (out : Out)
    (hrun : CreateReader event_registry fuel m id description = .ok (m1, r, out)) :
    (r = none ∧ m1.readers = m.readers) ∨
    ∃ info : ReaderInfo, info.id = id ∧ info.want_record = description.want_record ∧
      info.num_idx_fields = (leafPaths description.idx).length ∧
      info.num_val_fields = (leafPaths description.val).length ∧
      (1 < info.num_val_fields → info.want_record = true) ∧
      ((r = some (m.instantiated + 1) ∧ m1.readers = m.readers ++ [info]) ∨
       (r = none ∧
        m1.readers = (m.readers ++ [info]).eraseP (fun s => decide (s.id.obj = id.obj)))) := by
  unfold CreateReader at hrun
  split at hrun
  · simp only [Except.ok.injEq, Prod.mk.injEq] at hrun
    obtain ⟨rfl, rfl, -⟩ := hrun
    exact Or.inl ⟨rfl, rfl⟩
  · split at hrun
    · simp at hrun
    · simp only [Except.ok.injEq, Prod.mk.injEq] at hrun
      obtain ⟨rfl, rfl, -⟩ := hrun
      exact Or.inl ⟨rfl, rfl⟩
    · rename_i table calls factory hfind
      simp only at hrun
      split at hrun
      · simp at hrun
      · rename_i unrolled_idx fieldsV1 hidx
        split at hrun
        · simp at hrun
        · rename_i unrolled_val fieldsV hval
          split at hrun
          · simp only [Except.ok.injEq, Prod.mk.injEq] at hrun
            obtain ⟨rfl, rfl, -⟩ := hrun
            exact Or.inl ⟨rfl, rfl⟩
          · rename_i hst
            simp only [Bool.or_eq_true, Bool.not_eq_true', not_or, Bool.not_eq_false] at hst
            obtain ⟨hui, huv⟩ := hst
            subst hui huv
            simp only [Bool.not_true, Bool.false_eq_true, if_false] at hval
            have e1 := UnrollRecordType_leaves _ _ _ _ hidx
            have e2 := UnrollRecordType_leaves _ _ _ _ hval
            have hn1 : fieldsV1.length = (leafPaths description.idx).length := by
              rw [e1]; simp
            have hn2 : fieldsV.length - fieldsV1.length
                = (leafPaths description.val).length := by
              rw [e2]; simp
            split at hrun
            · simp at hrun
            · rename_i hassert
              have hwant : 1 < fieldsV.length - fieldsV1.length →
                  description.want_record = true := by
                intro h1
                by_contra h2
                exact hassert ⟨h1, by simpa using h2⟩
              split at hrun
              · obtain ⟨rfl, hm⟩ := CreateReader_remove_inv _ _ _ _ _ _ hrun
                exact Or.inr ⟨_, rfl, rfl, hn1, hn2, hwant, Or.inr ⟨rfl, hm⟩⟩
              · split at hrun
                · simp at hrun
                · rename_i info1 out1 hsnap
                  have hs := Snapshot_settings _ _ _ _ _ _ hsnap
                  have hid := congrArg ReaderInfo.id hs
                  have hw := congrArg ReaderInfo.want_record hs
                  have hni := congrArg ReaderInfo.num_idx_fields hs
                  have hnv := congrArg ReaderInfo.num_val_fields hs
                  simp only [ReaderInfo.settings] at hid hw hni hnv
                  have hwant1 : 1 < info1.num_val_fields → info1.want_record = true := by
                    rw [hnv, hw]; exact hwant
                  split at hrun
                  · obtain ⟨rfl, hm⟩ := CreateReader_remove_inv _ _ _ _ _ _ hrun
                    exact Or.inr ⟨info1, hid, hw, hni.trans hn1, hnv.trans hn2, hwant1,
                      Or.inr ⟨rfl, hm⟩⟩
                  · simp only [Except.ok.injEq, Prod.mk.injEq] at hrun
                    obtain ⟨rfl, rfl, -⟩ := hrun
                    exact Or.inr ⟨info1, hid, hw, hni.trans hn1, hnv.trans hn2, hwant1,
                      Or.inl ⟨rfl, rfl⟩⟩

/-- Claim C16 as stated fails: the value type unrolls to two leaves, the description
carries `want_record = false`, and `CreateReader` stops at `assert(info->want_record)`
and yields no stream. -/
theorem C16_counterexample_want_record_false_fails_the_assertion :
    (leafFields "" (exDescription "a" false).val).length = 2 ∧
      (exDescription "a" false).want_record = false ∧
      CreateReader [] 0 exManager ⟨7, 1⟩ (exDescription "a" false) = .error .AssertFailed :=
  ⟨by decide, rfl, rfl⟩

/-- Claim C16, amended: a stream that `CreateReader` registers carries the
`want_record` of the description, its `num_val_fields` is the number of leaves of the
value type, and with more than one leaf its `want_record` is true; when the description
carries `want_record = false` and the value type unrolls to more than one leaf, a call
that got as far as the new `ReaderInfo` stops at `assert(info->want_record)`. -/
theorem C16_registered_stream_keeps_want_record (event_registry : List String)
    (fuel : Nat) (m : Manager) (id : EnumVal) (description : ReaderDescription) :
    (∀ m1 r out, CreateReader event_registry fuel m id description = .ok (m1, some r, out) →
      ∃ info : ReaderInfo, m1.readers = m.readers ++ [info] ∧
        info.num_val_fields = (leafFields "" description.val).length ∧
        info.want_record = description.want_record ∧
        (1 < info.num_val_fields → info.want_record = true)) ∧
    (∀ table calls factory fieldsV1 fieldsV, description.right_type = true →
      CreateReader.find description.reader.AsEnum m.input_readers
        = .ok (table, calls, some factory) →
      UnrollRecordType [] description.idx "" = .ok (true, fieldsV1) →
      UnrollRecordType fieldsV1 description.val "" = .ok (true, fieldsV) →
      1 < fieldsV.length - fieldsV1.length → description.want_record = false →
      CreateReader event_registry fuel m id description = .error .AssertFailed) := by
  constructor
  · intro m1 r out hrun
    rcases CreateReader_inv _ _ _ _ _ _ _ _ hrun with ⟨h, -⟩ | ⟨info, -, hw, -, hnv, h1, h⟩
    · simp at h
    · rcases h with ⟨-, hm⟩ | ⟨h, -⟩
      · exact ⟨info, hm, by rw [hnv, leafFields, List.length_map], hw, h1⟩
      · simp at h
  · intro table calls factory fieldsV1 fieldsV hrt hfind hidx hval hlen hw
    unfold CreateReader
    simp [hrt, hfind, hidx, hval, hlen, hw]

/-- Claim C16, amended, at the description with two value fields: with
`want_record = true` the stream is registered, with `want_record = false` the assertion
stops the call. -/
theorem C16_witness :
    CreateReader [] 0 exManager ⟨7, 1⟩ (exDescription "a" true)
        = .ok (exManagerOne, some 1, ⟨[], []⟩) ∧
      (∃ info : ReaderInfo, exManagerOne.readers = exManager.readers ++ [info] ∧
        info.num_val_fields = (leafFields "" (exDescription "a" true).val).length ∧
        info.want_record = (exDescription "a" true).want_record ∧
        (1 < info.num_val_fields → info.want_record = true)) ∧
      CreateReader [] 0 exManager ⟨7, 1⟩ (exDescription "a" false) = .error .AssertFailed :=
  ⟨rfl,
   (C16_registered_stream_keeps_want_record [] 0 exManager ⟨7, 1⟩
      (exDescription "a" true)).1 exManagerOne 1 ⟨[], []⟩ rfl,
   (C16_registered_stream_keeps_want_record [] 0 exManager ⟨7, 1⟩
      (exDescription "a" false)).2 exManager.input_readers [] exAscii
      [⟨"i", TYPE_COUNT, none⟩]
      [⟨"i", TYPE_COUNT, none⟩, ⟨"a", TYPE_COUNT, none⟩, ⟨"b", TYPE_STRING, none⟩]
      rfl rfl (by decide) (by decide) (by decide) rfl⟩

/-- Claim C17 fails on the code: with a stream registered under the `EnumVal` object of
the call, a `CreateReader` whose Reader fails in `Init` returns 0 after `RemoveReader`
erased the older stream, the one with the Reader object 1, and the stream just pushed,
with the Reader object 2, stays registered. -/
theorem C17_failed_init_removes_the_older_stream :
    CreateReader [] 0 exManager ⟨7, 1⟩ (exDescription "a" true)
        = .ok (exManagerOne, some 1, ⟨[], []⟩) ∧
      CreateReader [] 0 exManagerOne ⟨7, 1⟩ (exDescription "missing" true)
        = .ok (exManagerAfterFailure, none, ⟨[], []⟩) ∧
      exManagerOne.readers.map (fun s => s.reader) = [1] ∧
      exManagerAfterFailure.readers.map (fun s => s.reader) = [2] :=
  ⟨rfl, rfl, rfl, rfl⟩

/-- Claim C18 as stated fails: a second `CreateReader` with the id of a registered
stream succeeds and leaves two streams with the enumerator 1. -/
theorem C18_counterexample_same_id_registered_twice :
    CreateReader [] 0 exManager ⟨7, 1⟩ (exDescription "a" true)
        = .ok (exManagerOne, some 1, ⟨[], []⟩) ∧
      CreateReader [] 0 exManagerOne ⟨7, 1⟩ (exDescription "b" true)
        = .ok (exManagerTwo, some 2, ⟨[], []⟩) ∧
      exManagerTwo.readers.map (fun s => s.id.AsEnum) = [1, 1] :=
  ⟨rfl, rfl, rfl⟩

theorem FindReader_of_distinct (id : EnumVal) :
    ∀ (readers : List ReaderInfo), (readers.map fun s => s.id.AsEnum).Nodup →
      ∀ s ∈ readers, s.id.AsEnum = id.AsEnum →
        readers.find? (fun s => decide (s.id.AsEnum = id.AsEnum)) = some s
  | [], _, s, hs, _ => by simp at hs
  | x :: readers, hd, s, hs, he => by
    rw [List.map_cons, List.nodup_cons] at hd
    rcases List.mem_cons.1 hs with rfl | hs
    · simp [List.find?, he]
    · have hx : x.id.AsEnum ≠ id.AsEnum := by
        intro hx
        apply hd.1
        rw [hx, ← he]
        exact List.mem_map_of_mem (fun s => s.id.AsEnum) hs
      rw [List.find?, decide_eq_false hx]
      exact FindReader_of_distinct id readers hd.2 s hs he

/-- Claim C18, amended: `CreateReader` registers a stream under an id that is already
registered, so ids are distinct only when the callers keep them so. When no two
registered streams have the same id enumerator, this is still so after
`RemoveReader(id)` and after a `CreateReader` with an id that `FindReader` does not
find, and `FindReader(id)` returns the one stream with that enumerator. -/
theorem C18_distinct_ids_are_kept (event_registry : List String) (fuel : Nat)
    (m : Manager) (id : EnumVal) (hd : DistinctIds m) :
    DistinctIds (RemoveReader m id).1 ∧
    (∀ description m1 r out, FindReader m id = none →
      CreateReader event_registry fuel m id description = .ok (m1, r, out) →
      DistinctIds m1) ∧
    (∀ s ∈ m.readers, s.id.AsEnum = id.AsEnum → FindReader m id = some s) := by
  refine ⟨?_, ?_, ?_⟩
  · unfold RemoveReader
    split
    · exact hd
    · exact List.Nodup.sublist ((List.eraseP_sublist _).map _) hd
  · intro description m1 r out hfind hrun
    have hnew : ∀ info : ReaderInfo, info.id = id →
        ((m.readers ++ [info]).map fun s => s.id.AsEnum).Nodup := by
      intro info hid
      rw [List.map_append, List.nodup_append]
      refine ⟨hd, List.nodup_singleton _, ?_⟩
      intro a ha hb
      simp only [List.map_cons, List.map_nil, List.mem_singleton] at hb
      obtain ⟨s, hs, rfl⟩ := List.mem_map.1 ha
      have := List.find?_eq_none.1 hfind s hs
      simp only [decide_eq_true_eq] at this
      exact this (by rw [hb, hid])
    rcases CreateReader_inv _ _ _ _ _ _ _ _ hrun with ⟨-, hm⟩ | ⟨info, hid, -, -, -, -, h⟩
    · unfold DistinctIds; rw [hm]; exact hd
    · rcases h with ⟨-, hm⟩ | ⟨-, hm⟩
      · unfold DistinctIds; rw [hm]; exact hnew info hid
      · unfold DistinctIds; rw [hm]
        exact List.Nodup.sublist ((List.eraseP_sublist _).map _) (hnew info hid)
  · intro s hs he
    exact FindReader_of_distinct id m.readers hd s hs he

/-- Claim C18, amended, at the manager with one stream and an id that is not
registered. -/
theorem C18_witness :
    DistinctIds exManagerOne ∧ FindReader exManagerOne ⟨9, 2⟩ = none ∧
      DistinctIds (RemoveReader exManagerOne ⟨9, 2⟩).1 ∧
      (∀ description m1 r out, FindReader exManagerOne ⟨9, 2⟩ = none →
        CreateReader [] 0 exManagerOne ⟨9, 2⟩ description = .ok (m1, r, out) →
        DistinctIds m1) ∧
      (∀ s ∈ exManagerOne.readers, s.id.AsEnum = (⟨9, 2⟩ : EnumVal).AsEnum →
        FindReader exManagerOne ⟨9, 2⟩ = some s) :=
  ⟨List.nodup_singleton _, rfl,
   C18_distinct_ids_are_kept [] 0 exManagerOne ⟨9, 2⟩ (List.nodup_singleton _)⟩

/-! ## Claim C14: equal encodings within a schema -/

theorem toBytes_length : ∀ (n v : Nat), (toBytes n v).length = n
  | 0, _ => rfl
  | n + 1, v => by rw [toBytes, List.length_cons, toBytes_length n]

theorem toBytes_inj : ∀ (n v w : Nat), v < 256 ^ n → w < 256 ^ n →
    toBytes n v = toBytes n w → v = w
  | 0, v, w, hv, hw, _ => by simp at hv hw; omega
  | n + 1, v, w, hv, hw, h => by
    rw [toBytes, toBytes, List.cons.injEq] at h
    have hv2 : v / 256 < 256 ^ n := by
      rw [Nat.div_lt_iff_lt_mul (by norm_num)]; rw [pow_succ] at hv; exact hv
    have hw2 : w / 256 < 256 ^ n := by
      rw [Nat.div_lt_iff_lt_mul (by norm_num)]; rw [pow_succ] at hw; exact hw
    have := toBytes_inj n _ _ hv2 hw2 h.2
    omega

theorem intBytes_length (n : Nat) (v : Int) : (intBytes n v).length = n := by
  rw [intBytes, toBytes_length]

theorem intBytes_inj (v w : Int) (hv : -(2 ^ 63 : Int) ≤ v ∧ v < 2 ^ 63)
    (hw : -(2 ^ 63 : Int) ≤ w ∧ w < 2 ^ 63)
    (h : intBytes sizeof_int_val v = intBytes sizeof_int_val w) : v = w := by
  unfold intBytes sizeof_int_val at h
  have hpos : (0 : Int) < ((256 ^ 8 : Nat) : Int) := by norm_num
  have h1 : (v % ((256 ^ 8 : Nat) : Int)).toNat < 256 ^ 8 := by
    have := Int.emod_lt_of_pos v hpos
    have := Int.emod_nonneg v (ne_of_gt hpos)
    omega
  have h2 : (w % ((256 ^ 8 : Nat) : Int)).toNat < 256 ^ 8 := by
    have := Int.emod_lt_of_pos w hpos
    have := Int.emod_nonneg w (ne_of_gt hpos)
    omega
  have h3 := toBytes_inj 8 _ _ h1 h2 h
  have h4 := Int.emod_nonneg v (ne_of_gt hpos)
  have h5 := Int.emod_nonneg w (ne_of_gt hpos)
  have h6 : v % ((256 ^ 8 : Nat) : Int) = w % ((256 ^ 8 : Nat) : Int) := by omega
  norm_num at h6 hv hw
  omega

theorem addrBytes_eq (a : List Nat) :
    addrBytes a = toBytes 4 (a.getD 0 0) ++ (toBytes 4 (a.getD 1 0) ++
      (toBytes 4 (a.getD 2 0) ++ toBytes 4 (a.getD 3 0))) := by
  simp [addrBytes, NUM_ADDR_WORDS, sizeof_uint32_t, List.range_succ]

theorem addrBytes_length (a : List Nat) : (addrBytes a).length = 16 := by
  rw [addrBytes_eq]
  simp [toBytes_length]

theorem addrBytes_inj (a b : List Nat) (ha : a.length = 4) (hb : b.length = 4)
    (ha2 : ∀ w ∈ a, w < 2 ^ 32) (hb2 : ∀ w ∈ b, w < 2 ^ 32)
    (h : addrBytes a = addrBytes b) : a = b := by
  match a, ha with
  | [a0, a1, a2, a3], _ =>
    match b, hb with
    | [b0, b1, b2, b3], _ =>
      rw [addrBytes_eq, addrBytes_eq] at h
      simp only [List.getD_cons_zero, List.getD_cons_succ] at h
      have hlt : ∀ w, w < 2 ^ 32 → w < 256 ^ 4 := fun w hw => by norm_num at hw ⊢; exact hw
      obtain ⟨h0, h⟩ := List.append_inj h (by simp [toBytes_length])
      obtain ⟨h1, h⟩ := List.append_inj h (by simp [toBytes_length])
      obtain ⟨h2, h3⟩ := List.append_inj h (by simp [toBytes_length])
      have e0 := toBytes_inj 4 _ _ (hlt _ (ha2 a0 (by simp))) (hlt _ (hb2 b0 (by simp))) h0
      have e1 := toBytes_inj 4 _ _ (hlt _ (ha2 a1 (by simp))) (hlt _ (hb2 b1 (by simp))) h1
      have e2 := toBytes_inj 4 _ _ (hlt _ (ha2 a2 (by simp))) (hlt _ (hb2 b2 (by simp))) h2
      have e3 := toBytes_inj 4 _ _ (hlt _ (ha2 a3 (by simp))) (hlt _ (hb2 b3 (by simp))) h3
      rw [e0, e1, e2, e3]

theorem memcpy_nil (data : Buffer) (pos : Nat) : memcpy data pos [] = data := by
  induction data generalizing pos with
  | nil => rfl
  | cons d ds ih =>
    cases pos with
    | zero => rfl
    | succ p => rw [memcpy, ih]

theorem memcpy_append : ∀ (data : Buffer) (pos : Nat) (a b : List Nat),
    memcpy (memcpy data pos a) (pos + a.length) b = memcpy data pos (a ++ b)
  | [], pos, a, b => by simp [memcpy]
  | d :: ds, p + 1, a, b => by
    rw [memcpy, memcpy, show p + 1 + a.length = (p + a.length) + 1 by omega, memcpy,
      memcpy_append ds p a b]
  | d :: ds, 0, [], b => by
    rw [memcpy_nil]; rfl
  | d :: ds, 0, x :: xs, b => by
    rw [memcpy, List.cons_append, memcpy, List.length_cons,
      show 0 + (xs.length + 1) = xs.length + 1 by omega, memcpy]
    have := memcpy_append ds 0 xs b
    rw [Nat.zero_add] at this
    rw [this]

theorem memcpy_malloc : ∀ (src : List Nat),
    memcpy (malloc src.length) 0 src = src.map some
  | [] => rfl
  | x :: xs => by
    have := memcpy_malloc xs
    unfold malloc at this ⊢
    rw [List.length_cons, List.replicate_succ, memcpy, this, List.map_cons]

mutual
theorem GetLogValLength_eq : ∀ (c : LogVal),
    GetLogValLength c = (canonicalEncoding c).length
  | .bool v => by rw [GetLogValLength, canonicalEncoding, intBytes_length]
  | .int v => by rw [GetLogValLength, canonicalEncoding, intBytes_length]
  | .count v => by rw [GetLogValLength, canonicalEncoding, toBytes_length]
  | .counter v => by rw [GetLogValLength, canonicalEncoding, toBytes_length]
  | .port v => by rw [GetLogValLength, canonicalEncoding, toBytes_length]
  | .double v => by rw [GetLogValLength, canonicalEncoding, toBytes_length]
  | .time v => by rw [GetLogValLength, canonicalEncoding, toBytes_length]
  | .interval v => by rw [GetLogValLength, canonicalEncoding, toBytes_length]
  | .string s => by rw [GetLogValLength, canonicalEncoding]
  | .enum s => by rw [GetLogValLength, canonicalEncoding]
  | .addr a => by rw [GetLogValLength, canonicalEncoding, addrBytes_length]; rfl
  | .subnet net width => by
    rw [GetLogValLength, canonicalEncoding, List.length_append, addrBytes_length,
      toBytes_length]
    rfl
  | .table vals => by rw [GetLogValLength, canonicalEncoding, GetLogValLength_loop_eq vals]
  | .vector vals => by rw [GetLogValLength, canonicalEncoding, GetLogValLength_loop_eq vals]
theorem GetLogValLength_loop_eq : ∀ (vals : List LogVal),
    GetLogValLength.loop vals = (canonicalEncoding.loop vals).length
  | [] => rfl
  | v :: vs => by
    rw [GetLogValLength.loop, canonicalEncoding.loop, List.length_append,
      GetLogValLength_eq v, GetLogValLength_loop_eq vs]
end

mutual
theorem CopyLogVal_eq : ∀ (c : LogVal), c.noSubnet = true → ∀ (data : Buffer) (pos : Nat),
    CopyLogVal data pos c
      = (memcpy data pos (canonicalEncoding c), (canonicalEncoding c).length)
  | .bool v, _, data, pos => by rw [CopyLogVal, canonicalEncoding, intBytes_length]
  | .int v, _, data, pos => by rw [CopyLogVal, canonicalEncoding, intBytes_length]
  | .count v, _, data, pos => by rw [CopyLogVal, canonicalEncoding, toBytes_length]
  | .counter v, _, data, pos => by rw [CopyLogVal, canonicalEncoding, toBytes_length]
  | .port v, _, data, pos => by rw [CopyLogVal, canonicalEncoding, toBytes_length]
  | .double v, _, data, pos => by rw [CopyLogVal, canonicalEncoding, toBytes_length]
  | .time v, _, data, pos => by rw [CopyLogVal, canonicalEncoding, toBytes_length]
  | .interval v, _, data, pos => by rw [CopyLogVal, canonicalEncoding, toBytes_length]
  | .string s, _, data, pos => by rw [CopyLogVal, canonicalEncoding]
  | .enum s, _, data, pos => by rw [CopyLogVal, canonicalEncoding]
  | .addr a, _, data, pos => by rw [CopyLogVal, canonicalEncoding, addrBytes_length]; rfl
  | .subnet net width, h, _, _ => by simp [LogVal.noSubnet] at h
  | .table vals, h, data, pos => by
    rw [LogVal.noSubnet] at h
    rw [CopyLogVal, canonicalEncoding, CopyLogVal_loop_eq vals h pos data 0]
    simp
  | .vector vals, h, data, pos => by
    rw [LogVal.noSubnet] at h
    rw [CopyLogVal, canonicalEncoding, CopyLogVal_loop_eq vals h pos data 0]
    simp
theorem CopyLogVal_loop_eq : ∀ (vals : List LogVal), LogVal.noSubnet.loop vals = true →
    ∀ (startpos : Nat) (data : Buffer) (length : Nat),
    CopyLogVal.loop startpos vals data length
      = (memcpy data (startpos + length) (canonicalEncoding.loop vals),
         length + (canonicalEncoding.loop vals).length)
  | [], _, startpos, data, length => by
    rw [CopyLogVal.loop, canonicalEncoding.loop, memcpy_nil]; rfl
  | v :: vs, h, startpos, data, length => by
    rw [LogVal.noSubnet.loop, Bool.and_eq_true] at h
    rw [CopyLogVal.loop, CopyLogVal_eq v h.1, CopyLogVal_loop_eq vs h.2]
    simp only
    rw [canonicalEncoding.loop, ← memcpy_append, List.length_append, Nat.add_assoc,
      Nat.add_assoc]
end

theorem HashLogVals_length_eq : ∀ (vals : List LogVal),
    HashLogVals.length vals.length vals = .ok (canonicalEncoding.loop vals).length
  | [] => rfl
  | v :: vs => by
    rw [List.length_cons, HashLogVals.length, HashLogVals_length_eq vs]
    simp only
    rw [canonicalEncoding.loop, List.length_append, GetLogValLength_eq]

theorem HashLogVals_copy_eq : ∀ (vals : List LogVal), LogVal.noSubnet.loop vals = true →
    ∀ (data : Buffer) (position : Nat),
    HashLogVals.copy vals.length vals data position
      = .ok (memcpy data position (canonicalEncoding.loop vals),
          position + (canonicalEncoding.loop vals).length)
  | [], _, data, position => by
    rw [List.length_nil, HashLogVals.copy, canonicalEncoding.loop, memcpy_nil]; rfl
  | v :: vs, h, data, position => by
    rw [LogVal.noSubnet.loop, Bool.and_eq_true] at h
    rw [List.length_cons, HashLogVals.copy, CopyLogVal_eq v h.1, HashLogVals_copy_eq vs h.2]
    simp only
    rw [canonicalEncoding.loop, ← memcpy_append, List.length_append, Nat.add_assoc]

/-- The fingerprint of a row without Subnet cells is the canonical encoding of the spec:
the encodings of the cells one after the other. -/
theorem HashLogVals_eq (vals : List LogVal) (h : LogVal.noSubnet.loop vals = true) :
    HashLogVals vals.length vals = .ok ⟨(canonicalEncoding.loop vals).map some⟩ := by
  rw [HashLogVals, HashLogVals_length_eq]
  simp only
  rw [HashLogVals_copy_eq vals h]
  simp only [Nat.zero_add, if_true]
  rw [memcpy_malloc]

theorem toBytes_inj_64 (v w : Nat) (hv : v < 2 ^ 64) (hw : w < 2 ^ 64)
    (h : toBytes 8 v = toBytes 8 w) : v = w :=
  toBytes_inj 8 v w (by norm_num at hv ⊢; exact hv) (by norm_num at hw ⊢; exact hw) h

mutual
theorem canonicalEncoding_inj : ∀ (a b : LogVal), a.schema = b.schema →
    a.noSubnet = true → a.representable = true → b.representable = true →
    (canonicalEncoding a).length = (canonicalEncoding b).length ∧
      (canonicalEncoding a = canonicalEncoding b → a = b)
  | .bool v, b, hs, _, ha, hb => by
    cases b <;> simp only [LogVal.schema, Schema.atom.injEq, reduceCtorEq] at hs
    simp only [LogVal.representable, decide_eq_true_eq] at ha hb
    simp only [canonicalEncoding, intBytes_length, true_and]
    intro h; rw [intBytes_inj _ _ ha hb h]
  | .int v, b, hs, _, ha, hb => by
    cases b <;> simp only [LogVal.schema, Schema.atom.injEq, reduceCtorEq] at hs
    simp only [LogVal.representable, decide_eq_true_eq] at ha hb
    simp only [canonicalEncoding, intBytes_length, true_and]
    intro h; rw [intBytes_inj _ _ ha hb h]
  | .count v, b, hs, _, ha, hb => by
    cases b <;> simp only [LogVal.schema, Schema.atom.injEq, reduceCtorEq] at hs
    simp only [LogVal.representable, decide_eq_true_eq] at ha hb
    simp only [canonicalEncoding, toBytes_length, true_and]
    intro h; rw [toBytes_inj_64 _ _ ha hb h]
  | .counter v, b, hs, _, ha, hb => by
    cases b <;> simp only [LogVal.schema, Schema.atom.injEq, reduceCtorEq] at hs
    simp only [LogVal.representable, decide_eq_true_eq] at ha hb
    simp only [canonicalEncoding, toBytes_length, true_and]
    intro h; rw [toBytes_inj_64 _ _ ha hb h]
  | .port v, b, hs, _, ha, hb => by
    cases b <;> simp only [LogVal.schema, Schema.atom.injEq, reduceCtorEq] at hs
    simp only [LogVal.representable, decide_eq_true_eq] at ha hb
    simp only [canonicalEncoding, toBytes_length, true_and]
    intro h; rw [toBytes_inj_64 _ _ ha hb h]
  | .double v, b, hs, _, ha, hb => by
    cases b <;> simp only [LogVal.schema, Schema.atom.injEq, reduceCtorEq] at hs
    simp only [LogVal.representable, decide_eq_true_eq] at ha hb
    simp only [canonicalEncoding, toBytes_length, true_and]
    intro h; rw [toBytes_inj_64 _ _ ha hb h]
  | .time v, b, hs, _, ha, hb => by
    cases b <;> simp only [LogVal.schema, Schema.atom.injEq, reduceCtorEq] at hs
    simp only [LogVal.representable, decide_eq_true_eq] at ha hb
    simp only [canonicalEncoding, toBytes_length, true_and]
    intro h; rw [toBytes_inj_64 _ _ ha hb h]
  | .interval v, b, hs, _, ha, hb => by
    cases b <;> simp only [LogVal.schema, Schema.atom.injEq, reduceCtorEq] at hs
    simp only [LogVal.representable, decide_eq_true_eq] at ha hb
    simp only [canonicalEncoding, toBytes_length, true_and]
    intro h; rw [toBytes_inj_64 _ _ ha hb h]
  | .string s, b, hs, _, _, _ => by
    cases b <;> simp only [LogVal.schema, Schema.bytes.injEq, reduceCtorEq, false_and] at hs
    simp only [canonicalEncoding]
    exact ⟨hs.2, fun h => by rw [h]⟩
  | .enum s, b, hs, _, _, _ => by
    cases b <;> simp only [LogVal.schema, Schema.bytes.injEq, reduceCtorEq, false_and] at hs
    simp only [canonicalEncoding]
    exact ⟨hs.2, fun h => by rw [h]⟩
  | .addr x, b, hs, _, ha, hb => by
    cases b <;> simp only [LogVal.schema, Schema.atom.injEq, reduceCtorEq] at hs
    simp only [LogVal.representable, Bool.and_eq_true, decide_eq_true_eq, List.all_eq_true,
      NUM_ADDR_WORDS] at ha hb
    simp only [canonicalEncoding, addrBytes_length, true_and]
    intro h; rw [addrBytes_inj _ _ ha.1 hb.1 ha.2 hb.2 h]
  | .subnet net width, _, _, h, _, _ => by simp [LogVal.noSubnet] at h
  | .table vals, b, hs, hn, ha, hb => by
    cases b <;> simp only [LogVal.schema, Schema.container.injEq, reduceCtorEq, false_and,
      true_and] at hs
    rename_i ws
    rw [LogVal.noSubnet] at hn
    rw [LogVal.representable] at ha hb
    have := canonicalEncoding_loop_inj vals ws hs hn ha hb
    simp only [canonicalEncoding]
    exact ⟨this.1, fun h => by rw [this.2 h]⟩
  | .vector vals, b, hs, hn, ha, hb => by
    cases b <;> simp only [LogVal.schema, Schema.container.injEq, reduceCtorEq, false_and,
      true_and] at hs
    rename_i ws
    rw [LogVal.noSubnet] at hn
    rw [LogVal.representable] at ha hb
    have := canonicalEncoding_loop_inj vals ws hs hn ha hb
    simp only [canonicalEncoding]
    exact ⟨this.1, fun h => by rw [this.2 h]⟩
theorem canonicalEncoding_loop_inj : ∀ (as bs : List LogVal),
    LogVal.schema.loop as = LogVal.schema.loop bs →
    LogVal.noSubnet.loop as = true → LogVal.representable.loop as = true →
    LogVal.representable.loop bs = true →
    (canonicalEncoding.loop as).length = (canonicalEncoding.loop bs).length ∧
      (canonicalEncoding.loop as = canonicalEncoding.loop bs → as = bs)
  | [], [], _, _, _, _ => ⟨rfl, fun _ => rfl⟩
  | [], b :: bs, hs, _, _, _ => by simp [LogVal.schema.loop] at hs
  | a :: as, [], hs, _, _, _ => by simp [LogVal.schema.loop] at hs
  | a :: as, b :: bs, hs, hn, ha, hb => by
    simp only [LogVal.schema.loop, List.cons.injEq] at hs
    rw [LogVal.noSubnet.loop, Bool.and_eq_true] at hn
    rw [LogVal.representable.loop, Bool.and_eq_true] at ha hb
    have h1 := canonicalEncoding_inj a b hs.1 hn.1 ha.1 hb.1
    have h2 := canonicalEncoding_loop_inj as bs hs.2 hn.2 ha.2 hb.2
    simp only [canonicalEncoding.loop, List.length_append]
    refine ⟨by rw [h1.1, h2.1], fun h => ?_⟩
    obtain ⟨e1, e2⟩ := List.append_inj h h1.1
    rw [h1.2 e1, h2.2 e2]
end

/-- Claim C14 as stated fails: the rows (`ab`, `c`) and (`a`, `bc`) have the same
length and the same kind at every position, `HashLogVals` gives both the bytes of
`abc`, and the rows differ. -/
theorem C14_counterexample_strings_of_other_lengths :
    [LogVal.string [97, 98], LogVal.string [99]].map LogVal.type
        = [LogVal.string [97], LogVal.string [98, 99]].map LogVal.type ∧
      HashLogVals 2 [.string [97, 98], .string [99]] = .ok ⟨[some 97, some 98, some 99]⟩ ∧
      HashLogVals 2 [.string [97], .string [98, 99]] = .ok ⟨[some 97, some 98, some 99]⟩ ∧
      [LogVal.string [97, 98], LogVal.string [99]]
        ≠ [LogVal.string [97], LogVal.string [98, 99]] := by
  refine ⟨by decide, by decide, by decide, by simp⟩

/-- Claim C14, amended: two rows without Subnet cells that have the same schema, String
and Enum cells of the same numbers of bytes and Sets and Vectors of the same numbers of
cells included, and whose numbers are ones the machine holds, are equal when
`HashLogVals` gives them equal encodings. -/
theorem C14_rows_of_one_shape_with_equal_encodings_are_equal (r1 r2 : List LogVal)
    (hschema : LogVal.schema.loop r1 = LogVal.schema.loop r2)
    (hsub1 : LogVal.noSubnet.loop r1 = true) (hsub2 : LogVal.noSubnet.loop r2 = true)
    (hrep1 : LogVal.representable.loop r1 = true)
    (hrep2 : LogVal.representable.loop r2 = true)
    (henc : HashLogVals r1.length r1 = HashLogVals r2.length r2) : r1 = r2 := by
  rw [HashLogVals_eq r1 hsub1, HashLogVals_eq r2 hsub2] at henc
  simp only [Except.ok.injEq, HashKey.mk.injEq] at henc
  have h := List.map_injective_iff.2 (Option.some_injective Nat) henc
  exact (canonicalEncoding_loop_inj r1 r2 hschema hsub1 hrep1 hrep2).2 h

/-- Claim C14, amended, at a row with a Count, a String, a Set and a Vector. -/
theorem C14_witness :
    LogVal.schema.loop exMixedRow = LogVal.schema.loop exMixedRow ∧
      LogVal.noSubnet.loop exMixedRow = true ∧
      LogVal.representable.loop exMixedRow = true ∧
      HashLogVals exMixedRow.length exMixedRow = HashLogVals exMixedRow.length exMixedRow ∧
      exMixedRow = exMixedRow :=
  ⟨rfl, by decide, by decide, rfl,
   C14_rows_of_one_shape_with_equal_encodings_are_equal exMixedRow exMixedRow rfl
     (by decide) (by decide) (by decide) (by decide) rfl⟩

/-! ## Claim C21: the walk over the index fields -/

theorem LogVal_type_ne_record (c : LogVal) : c.type ≠ TYPE_RECORD := by
  cases c <;> simp [LogVal.type]

theorem LogValToVal_any (c : LogVal) (t : TypeTag) (v : Val)
    (h : LogValToVal c t = .ok v) : LogValToVal c TYPE_ANY = .ok v := by
  rw [LogValToVal] at h
  split at h
  · simp at h
  · simpa [LogValToVal] using h

/-- The round of `LogValToIndexVal`, `SendEntry` and `Put` returns what the round of
`LogValToRecordVal` returns. -/
theorem convertField_ok_iff (vals : List LogVal) (name : String) (t : BroType) (p : Nat)
    (r : Val × Nat) :
    convertField vals t p = .ok r ↔ LogValToRecordVal.field vals (name, t) p = .ok r := by
  cases t with
  | record fields => simp [convertField, LogValToRecordVal.field, BroType.Tag]
  | table indices yield => simp [convertField, LogValToRecordVal.field, BroType.Tag]
  | vector yield => simp [convertField, LogValToRecordVal.field, BroType.Tag]
  | base tag =>
    by_cases ht : tag = TYPE_RECORD
    · subst ht
      simp only [convertField, BroType.Tag, if_true, LogValToRecordVal,
        LogValToRecordVal.field]
      cases hc : readCell vals p with
      | error e => simp
      | ok c =>
        have hne := LogVal_type_ne_record c
        simp [LogValToVal, Ne.symm hne]
    · simp [convertField, LogValToRecordVal.field, BroType.Tag, ht]

theorem convertFields_ok_iff (vals : List LogVal) :
    ∀ (type : RecordType) (p : Nat) (r : List Val × Nat),
      convertFields vals type p = .ok r ↔ LogValToRecordVal.loop vals type p = .ok r
  | [], p, r => by simp [convertFields, LogValToRecordVal.loop]
  | (name, t) :: rest, p, r => by
    rw [convertFields, LogValToRecordVal.loop]
    cases h1 : convertField vals t p with
    | error e =>
      cases h2 : LogValToRecordVal.field vals (name, t) p with
      | error e2 => simp
      | ok x => rw [(convertField_ok_iff vals name t p x).2 h2] at h1; simp at h1
    | ok x =>
      rw [(convertField_ok_iff vals name t p x).1 h1]
      obtain ⟨v, q⟩ := x
      simp only
      cases h3 : convertFields vals rest q with
      | error e =>
        cases h4 : LogValToRecordVal.loop vals rest q with
        | error e2 => simp
        | ok y => rw [(convertFields_ok_iff vals rest q y).2 h4] at h3; simp at h3
      | ok y =>
        rw [(convertFields_ok_iff vals rest q y).1 h3]

mutual
theorem LogValToRecordVal_loop_cursor : ∀ (rec : List (String × BroType))
    (vals : List LogVal) (p q : Nat) (fs : List Val),
    LogValToRecordVal.loop vals rec p = .ok (fs, q) → q = p + (leafPaths rec).length
  | [], vals, p, q, fs, h => by
    simp only [LogValToRecordVal.loop, Except.ok.injEq, Prod.mk.injEq] at h
    simp [leafPaths, h.2]
  | (name, t) :: rest, vals, p, q, fs, h => by
    rw [LogValToRecordVal.loop] at h
    split at h
    · rename_i v p1 h1
      split at h
      · rename_i fs1 q1 h2
        simp only [Except.ok.injEq, Prod.mk.injEq] at h
        have e1 := LogValToRecordVal_field_cursor t name vals p p1 v h1
        have e2 := LogValToRecordVal_loop_cursor rest vals p1 q1 fs1 h2
        rw [leafPaths, List.length_append, ← h.2, e2, e1, Nat.add_assoc]
      · simp at h
    · simp at h
theorem LogValToRecordVal_field_cursor : ∀ (t : BroType) (name : String)
    (vals : List LogVal) (p q : Nat) (v : Val),
    LogValToRecordVal.field vals (name, t) p = .ok (v, q) →
      q = p + (leafPaths.field name t).length
  | .record sub, name, vals, p, q, v, h => by
    rw [LogValToRecordVal.field, LogValToRecordVal] at h
    split at h
    · rename_i fs p1 h1
      simp only [Except.ok.injEq, Prod.mk.injEq] at h
      have e := LogValToRecordVal_loop_cursor sub vals p p1 fs h1
      rw [leafPaths.field, List.length_map, ← h.2, e]
    · simp at h
  | .base tag, name, vals, p, q, v, h => by
    rw [LogValToRecordVal.field] at h
    split at h
    · split at h
      · simp only [Except.ok.injEq, Prod.mk.injEq] at h
        simp [leafPaths.field, h.2]
      · simp at h
    · simp at h
  | .table indices yield, name, vals, p, q, v, h => by
    rw [LogValToRecordVal.field] at h
    split at h
    · split at h
      · simp only [Except.ok.injEq, Prod.mk.injEq] at h
        simp [leafPaths.field, h.2]
      · simp at h
    · simp at h
  | .vector yield, name, vals, p, q, v, h => by
    rw [LogValToRecordVal.field] at h
    split at h
    · split at h
      · simp only [Except.ok.injEq, Prod.mk.injEq] at h
        simp [leafPaths.field, h.2]
      · simp at h
    · simp at h
end

/-- Claim C21 as stated fails: the index type is accepted with two `LogField`s, the two
cells of the row have the kinds of the two, and `LogValToIndexVal` ends in the internal
error of the empty set before it reaches its final assertion. -/
theorem C21_counterexample_empty_set_in_the_index :
    UnrollRecordType [] exIndexWithSet ""
        = .ok (true, [⟨"a", TYPE_COUNT, none⟩, ⟨"s", TYPE_TABLE, some TYPE_ADDR⟩]) ∧
      [LogVal.count 1, LogVal.table []].map LogVal.type = [TYPE_COUNT, TYPE_TABLE] ∧
      LogValToIndexVal 2 exIndexWithSet [.count 1, .table []] = .error .InternalError := by
  decide

/-- Claim C21, amended: for an index type that `UnrollRecordType` accepts, with
`num_fields` the number of `LogField`s it emits, a walk of `LogValToIndexVal` that ends
ends with `position == num_fields`, so the final assertion is never the statement that
fails: the call returns the value of the walk, and stops only where the walk stops; and
for a row whose first cells `LogValToVal` converts at the tags of the `LogField`s the
call returns. -/
theorem C21_index_walk_ends_at_num_fields (T : RecordType) (pre : String)
    (specs : List LogField) (vals : List LogVal)
    (hunroll : UnrollRecordType [] T pre = .ok (true, specs)) :
    (∀ idxval position,
      LogValToIndexVal.walk specs.length T vals = .ok (idxval, position) →
        position = specs.length ∧ LogValToIndexVal specs.length T vals = .ok idxval) ∧
    (∀ e, LogValToIndexVal.walk specs.length T vals = .error e →
      LogValToIndexVal specs.length T vals = .error e) ∧
    (∀ vs, convertCells vals 0 specs = .ok vs →
      ∃ idxval, LogValToIndexVal specs.length T vals = .ok idxval) := by
  have hs := UnrollRecordType_leaves T [] pre specs hunroll
  rw [List.nil_append] at hs
  have hlen : specs.length = (leafPaths T).length := by rw [hs, List.length_map]
  have hlist : ∀ idxval position, LogValToIndexVal.list T vals = .ok (idxval, position) →
      position = specs.length := by
    intro idxval position h
    unfold LogValToIndexVal.list at h
    split at h
    · rename_i l p hl
      simp only [Except.ok.injEq, Prod.mk.injEq] at h
      have := LogValToRecordVal_loop_cursor T vals 0 p l
        ((convertFields_ok_iff vals T 0 (l, p)).1 hl)
      rw [← h.2, this, hlen, Nat.zero_add]
    · simp at h
  have hpos : ∀ idxval position,
      LogValToIndexVal.walk specs.length T vals = .ok (idxval, position) →
        position = specs.length := by
    intro idxval position h
    unfold LogValToIndexVal.walk at h
    split at h
    · rename_i h1
      split at h
      · simp at h
      · split at h
        · split at h
          · split at h
            · simp only [Except.ok.injEq, Prod.mk.injEq] at h
              rw [← h.2, h1]
            · simp at h
          · simp at h
        · exact hlist _ _ h
    · exact hlist _ _ h
  refine ⟨?_, ?_, ?_⟩
  · intro idxval position h
    have hp := hpos idxval position h
    refine ⟨hp, ?_⟩
    unfold LogValToIndexVal
    rw [h]
    simp [hp]
  · intro e h
    unfold LogValToIndexVal
    rw [h]
  · intro vs hconv
    have hwalk : ∃ idxval position,
        LogValToIndexVal.walk specs.length T vals = .ok (idxval, position) := by
      have hl : ∃ idxval position, LogValToIndexVal.list T vals = .ok (idxval, position) := by
        rw [hs] at hconv
        obtain ⟨fs, hfs, -⟩ := LogValToRecordVal_loop_cells T pre vals 0 vs hconv
        have := (convertFields_ok_iff vals T 0 _).2 hfs
        exact ⟨.ListVal fs, _, by rw [LogValToIndexVal.list, this]⟩
      unfold LogValToIndexVal.walk
      by_cases h1 : specs.length = 1
      · rw [if_pos h1]
        cases T with
        | nil => rw [leafPaths, List.length_nil] at hlen; omega
        | cons ft rest =>
          obtain ⟨name, t⟩ := ft
          simp only
          by_cases ht : t.Tag ≠ TYPE_RECORD
          · rw [if_pos ht]
            match specs, h1, hconv with
            | [f], _, hconv =>
              obtain ⟨c, v, hc, hv, -⟩ := convertCells_single vals 0 f vs hconv
              rw [hc]
              simp only
              rw [LogValToVal_any c _ v hv]
              exact ⟨_, _, rfl⟩
          · rw [if_neg ht]
            exact hl
      · rw [if_neg h1]
        exact hl
    obtain ⟨idxval, position, hw⟩ := hwalk
    refine ⟨idxval, ?_⟩
    unfold LogValToIndexVal
    rw [hw]
    simp [hpos idxval position hw]

/-- Claim C21, amended, at an index type with an empty record whose single leaf is
reached through a nested record. -/
theorem C21_witness :
    UnrollRecordType [] exIndexNested "" = .ok (true, [⟨"r.x", TYPE_COUNT, none⟩]) ∧
      convertCells [.count 5] 0 [⟨"r.x", TYPE_COUNT, none⟩] = .ok [.uint 5 TYPE_COUNT] ∧
      LogValToIndexVal.walk 1 exIndexNested [.count 5]
        = .ok (.ListVal [.RecordVal [], .RecordVal [.uint 5 TYPE_COUNT]], 1) ∧
      ∃ idxval, LogValToIndexVal 1 exIndexNested [.count 5] = .ok idxval :=
  ⟨by decide, by decide, by decide,
   (C21_index_walk_ends_at_num_fields exIndexNested "" [⟨"r.x", TYPE_COUNT, none⟩]
      [.count 5] (by decide)).2.2 [.uint 5 TYPE_COUNT] (by decide)⟩

/-! ## Claims C22 and C23: the init function and the Enum cells -/

/-- Claim C22 fails on the code: the first `CreateReader` for a kind whose `init`
returns false calls `init`, clears the factory and returns 0, but leaves `init` set, and
the second `CreateReader` for the kind calls `init` again before it returns 0. -/
theorem C22_failed_init_is_called_again :
    CreateReader [] 0 exManagerFailingInit ⟨7, 1⟩ (exDescription "a" true)
        = .ok (exManagerFailedInit [READER_ASCII], none, ⟨[], []⟩) ∧
      CreateReader [] 0 (exManagerFailedInit [READER_ASCII]) ⟨7, 1⟩ (exDescription "a" true)
        = .ok (exManagerFailedInit [READER_ASCII, READER_ASCII], none, ⟨[], []⟩) ∧
      (exManagerFailedInit [READER_ASCII, READER_ASCII]).init_calls.count READER_ASCII = 2 :=
  ⟨rfl, rfl, rfl⟩

/-- Claim C23 fails on the code: `IsCompatibleType` accepts the tag of an Enum, also as
the kind of the cells of a set or vector, and `LogValToVal` ends every Enum cell in the
internal error of its Enum case, asked for `TYPE_ENUM` or for no tag; the cells of the
other eleven atomic kinds are converted. -/
theorem C23_enum_cell_ends_in_an_internal_error (s : List Nat) (v : Int) (n : Nat)
    (a : List Nat) :
    IsCompatibleType (some (.base TYPE_ENUM)) true = true ∧
      LogValToVal (.enum s) TYPE_ENUM = .error .InternalError ∧
      LogValToVal (.enum s) TYPE_ANY = .error .InternalError ∧
      LogValToVal (.bool v) TYPE_BOOL = .ok (.int v TYPE_BOOL) ∧
      LogValToVal (.int v) TYPE_INT = .ok (.int v TYPE_INT) ∧
      LogValToVal (.count n) TYPE_COUNT = .ok (.uint n TYPE_COUNT) ∧
      LogValToVal (.counter n) TYPE_COUNTER = .ok (.uint n TYPE_COUNTER) ∧
      LogValToVal (.port n) TYPE_PORT = .ok (.PortVal n) ∧
      LogValToVal (.subnet a n) TYPE_SUBNET = .ok (.SubNetVal a n) ∧
      LogValToVal (.addr a) TYPE_ADDR = .ok (.AddrVal a) ∧
      LogValToVal (.double n) TYPE_DOUBLE = .ok (.double n TYPE_DOUBLE) ∧
      LogValToVal (.time n) TYPE_TIME = .ok (.double n TYPE_TIME) ∧
      LogValToVal (.interval n) TYPE_INTERVAL = .ok (.double n TYPE_INTERVAL) ∧
      LogValToVal (.string s) TYPE_STRING = .ok (.StringVal s) := by
  refine ⟨by decide, ?_, ?_, ?_, ?_, ?_, ?_, ?_, ?_, ?_, ?_, ?_, ?_, ?_⟩ <;>
    simp [LogValToVal, LogVal.type, LogValToVal.switch]

/-! ## Claim C24: CopyLogVal and the fingerprint of a row -/

theorem overlay_nil (data : Buffer) (pos : Nat) : overlay data pos [] = data := by
  induction data generalizing pos with
  | nil => rfl
  | cons d ds ih =>
    cases pos with
    | zero => rfl
    | succ p => rw [overlay, ih]

theorem overlay_map_some : ∀ (data : Buffer) (pos : Nat) (src : List Nat),
    overlay data pos (src.map some) = memcpy data pos src
  | [], pos, src => by simp [overlay, memcpy]
  | d :: ds, p + 1, src => by rw [overlay, memcpy, overlay_map_some ds p src]
  | d :: ds, 0, [] => rfl
  | d :: ds, 0, x :: xs => by
    rw [List.map_cons, overlay, memcpy, overlay_map_some ds 0 xs]
    rfl

theorem overlay_length : ∀ (data : Buffer) (pos : Nat) (bytes : Buffer),
    (overlay data pos bytes).length = data.length
  | [], pos, bytes => by simp [overlay]
  | d :: ds, p + 1, bytes => by
    rw [overlay, List.length_cons, List.length_cons, overlay_length ds p bytes]
  | d :: ds, 0, [] => rfl
  | d :: ds, 0, b :: bs => by
    rw [overlay, List.length_cons, List.length_cons, overlay_length ds 0 bs]

theorem overlay_append : ∀ (data : Buffer) (pos : Nat) (a b : Buffer),
    overlay (overlay data pos a) (pos + a.length) b = overlay data pos (a ++ b)
  | [], pos, a, b => by simp [overlay]
  | d :: ds, p + 1, a, b => by
    rw [overlay, overlay, show p + 1 + a.length = (p + a.length) + 1 by omega, overlay,
      overlay_append ds p a b]
  | d :: ds, 0, [], b => by
    rw [overlay_nil]; rfl
  | d :: ds, 0, x :: xs, b => by
    rw [overlay, List.cons_append, overlay, List.length_cons,
      show 0 + (xs.length + 1) = xs.length + 1 by omega, overlay]
    have := overlay_append ds 0 xs b
    rw [Nat.zero_add] at this
    rw [this]

theorem overlay_replicate_none : ∀ (data : Buffer) (pos n : Nat),
    overlay data pos (List.replicate n none) = data
  | [], pos, n => by simp [overlay]
  | d :: ds, p + 1, n => by rw [overlay, overlay_replicate_none ds p n]
  | d :: ds, 0, 0 => rfl
  | d :: ds, 0, n + 1 => by
    rw [List.replicate_succ, overlay, overlay_replicate_none ds 0 n]
    rfl

theorem memcpy_over : ∀ (data : Buffer) (pos : Nat) (a b : List Nat),
    a.length ≤ b.length → memcpy (memcpy data pos a) pos b = memcpy data pos b
  | [], pos, a, b, _ => by simp [memcpy]
  | d :: ds, p + 1, a, b, h => by
    rw [memcpy, memcpy, memcpy, memcpy_over ds p a b h]
  | d :: ds, 0, [], b, _ => by rw [memcpy_nil]
  | d :: ds, 0, x :: xs, [], h => by simp at h
  | d :: ds, 0, x :: xs, y :: ys, h => by
    rw [memcpy, memcpy, memcpy,
      memcpy_over ds 0 xs ys (by simpa using h)]

theorem overlay_malloc : ∀ (bytes : Buffer), overlay (malloc bytes.length) 0 bytes = bytes
  | [] => rfl
  | b :: bs => by
    have := overlay_malloc bs
    unfold malloc at this ⊢
    rw [List.length_cons, List.replicate_succ, overlay, this]
    cases b <;> rfl

theorem overlay_get_outside : ∀ (data : Buffer) (pos : Nat) (bytes : Buffer) (i : Nat),
    i < pos ∨ pos + bytes.length ≤ i → (overlay data pos bytes).get? i = data.get? i
  | [], pos, bytes, i, _ => by simp [overlay]
  | d :: ds, p + 1, bytes, 0, _ => by rw [overlay]; rfl
  | d :: ds, p + 1, bytes, i + 1, h => by
    rw [overlay, List.get?_cons_succ, List.get?_cons_succ]
    exact overlay_get_outside ds p bytes i (by omega)
  | d :: ds, 0, [], i, _ => by rw [overlay_nil]
  | d :: ds, 0, b :: bs, 0, h => by simp at h
  | d :: ds, 0, b :: bs, i + 1, h => by
    rw [overlay, List.get?_cons_succ, List.get?_cons_succ]
    exact overlay_get_outside ds 0 bs i (by simp only [List.length_cons] at h; omega)

theorem overlay_extend : ∀ (data : Buffer) (pos : Nat) (bytes extra : Buffer),
    pos + bytes.length ≤ data.length →
      overlay (data ++ extra) pos bytes = overlay data pos bytes ++ extra
  | [], pos, bytes, extra, h => by
    have hb : bytes = [] :=
      List.length_eq_zero.1 (by simp only [List.length_nil] at h; omega)
    subst hb
    rw [overlay_nil, overlay_nil]
  | d :: ds, p + 1, bytes, extra, h => by
    rw [List.cons_append, overlay, overlay, List.cons_append,
      overlay_extend ds p bytes extra (by simp only [List.length_cons] at h; omega)]
  | d :: ds, 0, [], extra, _ => by rw [overlay_nil, overlay_nil]
  | d :: ds, 0, b :: bs, extra, h => by
    rw [List.cons_append, overlay, overlay, List.cons_append,
      overlay_extend ds 0 bs extra (by simp only [List.length_cons] at h; omega)]

mutual
theorem LogVal_written_length : ∀ (c : LogVal), c.written.length = GetLogValLength c
  | .bool v => by rw [LogVal.written, List.length_map, intBytes_length, GetLogValLength]
  | .int v => by rw [LogVal.written, List.length_map, intBytes_length, GetLogValLength]
  | .count v => by rw [LogVal.written, List.length_map, toBytes_length, GetLogValLength]
  | .counter v => by rw [LogVal.written, List.length_map, toBytes_length, GetLogValLength]
  | .port v => by rw [LogVal.written, List.length_map, toBytes_length, GetLogValLength]
  | .double v => by rw [LogVal.written, List.length_map, toBytes_length, GetLogValLength]
  | .time v => by rw [LogVal.written, List.length_map, toBytes_length, GetLogValLength]
  | .interval v => by rw [LogVal.written, List.length_map, toBytes_length, GetLogValLength]
  | .string s => by rw [LogVal.written, List.length_map, GetLogValLength]
  | .enum s => by rw [LogVal.written, List.length_map, GetLogValLength]
  | .addr a => by
    rw [LogVal.written, List.length_map, addrBytes_length, GetLogValLength]; rfl
  | .subnet net width => by
    rw [LogVal.written, List.length_append, List.length_map, addrBytes_length,
      List.length_replicate, GetLogValLength]
    rfl
  | .table vals => by rw [LogVal.written, GetLogValLength, LogVal_written_loop_length vals]
  | .vector vals => by rw [LogVal.written, GetLogValLength, LogVal_written_loop_length vals]
theorem LogVal_written_loop_length : ∀ (vals : List LogVal),
    (LogVal.written.loop vals).length = GetLogValLength.loop vals
  | [] => rfl
  | v :: vs => by
    rw [LogVal.written.loop, List.length_append, GetLogValLength.loop,
      LogVal_written_length v, LogVal_written_loop_length vs]
end

mutual
theorem CopyLogVal_written : ∀ (c : LogVal) (data : Buffer) (pos : Nat),
    CopyLogVal data pos c = (overlay data pos c.written, GetLogValLength c)
  | .bool v, data, pos => by
    rw [CopyLogVal, LogVal.written, overlay_map_some, GetLogValLength]
  | .int v, data, pos => by
    rw [CopyLogVal, LogVal.written, overlay_map_some, GetLogValLength]
  | .count v, data, pos => by
    rw [CopyLogVal, LogVal.written, overlay_map_some, GetLogValLength]
  | .counter v, data, pos => by
    rw [CopyLogVal, LogVal.written, overlay_map_some, GetLogValLength]
  | .port v, data, pos => by
    rw [CopyLogVal, LogVal.written, overlay_map_some, GetLogValLength]
  | .double v, data, pos => by
    rw [CopyLogVal, LogVal.written, overlay_map_some, GetLogValLength]
  | .time v, data, pos => by
    rw [CopyLogVal, LogVal.written, overlay_map_some, GetLogValLength]
  | .interval v, data, pos => by
    rw [CopyLogVal, LogVal.written, overlay_map_some, GetLogValLength]
  | .string s, data, pos => by
    rw [CopyLogVal, LogVal.written, overlay_map_some, GetLogValLength]
  | .enum s, data, pos => by
    rw [CopyLogVal, LogVal.written, overlay_map_some, GetLogValLength]
  | .addr a, data, pos => by
    rw [CopyLogVal, LogVal.written, overlay_map_some, GetLogValLength]
  | .subnet net width, data, pos => by
    rw [CopyLogVal, LogVal.written, GetLogValLength]
    rw [memcpy_over data pos _ _ (by rw [toBytes_length, addrBytes_length]; decide),
      ← overlay_append, overlay_replicate_none, overlay_map_some]
  | .table vals, data, pos => by
    rw [CopyLogVal, LogVal.written, GetLogValLength, CopyLogVal_loop_written vals pos data 0,
      Nat.add_zero, Nat.zero_add]
  | .vector vals, data, pos => by
    rw [CopyLogVal, LogVal.written, GetLogValLength, CopyLogVal_loop_written vals pos data 0,
      Nat.add_zero, Nat.zero_add]
theorem CopyLogVal_loop_written : ∀ (vals : List LogVal) (startpos : Nat) (data : Buffer)
    (length : Nat),
    CopyLogVal.loop startpos vals data length
      = (overlay data (startpos + length) (LogVal.written.loop vals),
         length + GetLogValLength.loop vals)
  | [], startpos, data, length => by
    rw [CopyLogVal.loop, LogVal.written.loop, overlay_nil, GetLogValLength.loop]; rfl
  | v :: vs, startpos, data, length => by
    rw [CopyLogVal.loop, CopyLogVal_written v, CopyLogVal_loop_written vs]
    simp only
    rw [LogVal.written.loop, ← overlay_append, LogVal_written_length, GetLogValLength.loop,
      Nat.add_assoc, Nat.add_assoc]
end

theorem cellEncoding_eq_written (c : LogVal) : cellEncoding c = c.written := by
  rw [cellEncoding, CopyLogVal_written, ← LogVal_written_length, overlay_malloc]

theorem LogVal_written_loop_eq : ∀ (vals : List LogVal),
    LogVal.written.loop vals = (vals.map cellEncoding).flatten
  | [] => rfl
  | v :: vs => by
    rw [LogVal.written.loop, List.map_cons, List.flatten_cons, cellEncoding_eq_written,
      LogVal_written_loop_eq vs]

theorem HashLogVals_length_take : ∀ (n : Nat) (vals : List LogVal), n ≤ vals.length →
    HashLogVals.length n vals = .ok (GetLogValLength.loop (vals.take n))
  | 0, vals, _ => by rw [HashLogVals.length, List.take_zero, GetLogValLength.loop]
  | n + 1, [], h => by simp at h
  | n + 1, v :: vs, h => by
    rw [HashLogVals.length, HashLogVals_length_take n vs (by simpa using h)]
    simp only [List.take_succ_cons, GetLogValLength.loop]

theorem HashLogVals_copy_take : ∀ (n : Nat) (vals : List LogVal), n ≤ vals.length →
    ∀ (data : Buffer) (position : Nat),
    HashLogVals.copy n vals data position
      = .ok (overlay data position (LogVal.written.loop (vals.take n)),
          position + GetLogValLength.loop (vals.take n))
  | 0, vals, _, data, position => by
    rw [HashLogVals.copy, List.take_zero, LogVal.written.loop, overlay_nil,
      GetLogValLength.loop]
    rfl
  | n + 1, [], h, _, _ => by simp at h
  | n + 1, v :: vs, h, data, position => by
    rw [HashLogVals.copy, CopyLogVal_written,
      HashLogVals_copy_take n vs (by simpa using h)]
    simp only [List.take_succ_cons, LogVal.written.loop, GetLogValLength.loop]
    rw [← overlay_append, LogVal_written_length, Nat.add_assoc]

/-- The fingerprint of the first `n` cells of a row is what `CopyLogVal` wrote for
them, cell after cell. -/
theorem HashLogVals_take (n : Nat) (vals : List LogVal) (h : n ≤ vals.length) :
    HashLogVals n vals = .ok ⟨LogVal.written.loop (vals.take n)⟩ := by
  rw [HashLogVals, HashLogVals_length_take n vals h]
  simp only
  rw [HashLogVals_copy_take n vals h]
  simp only [Nat.zero_add, if_true]
  rw [← LogVal_written_loop_length, overlay_malloc]

/-- Claim C24: `CopyLogVal` returns `GetLogValLength` of the cell, keeps the length of
the buffer and leaves every byte outside `[startpos, startpos + length)` as it was; so
`HashLogVals` passes its assertion and returns the encodings of its cells one after the
other, and, run on a buffer with further bytes behind the `length` bytes, it leaves
those bytes as they were. -/
theorem C24_copy_log_val_stays_in_its_range (val : LogVal) (data : Buffer)
    (startpos : Nat) (vals : List LogVal) (num_elements : Nat) (extra : Buffer)
    (hn : num_elements ≤ vals.length) :
    (CopyLogVal data startpos val).2 = GetLogValLength val ∧
    (CopyLogVal data startpos val).1.length = data.length ∧
    (∀ i, i < startpos ∨ startpos + GetLogValLength val ≤ i →
      (CopyLogVal data startpos val).1.get? i = data.get? i) ∧
    HashLogVals num_elements vals
      = .ok ⟨((vals.take num_elements).map cellEncoding).flatten⟩ ∧
    HashLogVals.copy num_elements vals
        (malloc (GetLogValLength.loop (vals.take num_elements)) ++ extra) 0
      = .ok (((vals.take num_elements).map cellEncoding).flatten ++ extra,
          GetLogValLength.loop (vals.take num_elements)) := by
  refine ⟨?_, ?_, ?_, ?_, ?_⟩
  · rw [CopyLogVal_written]
  · rw [CopyLogVal_written, overlay_length]
  · intro i hi
    rw [CopyLogVal_written]
    exact overlay_get_outside data startpos _ i (by rw [LogVal_written_length]; exact hi)
  · rw [HashLogVals_take num_elements vals hn, LogVal_written_loop_eq]
  · rw [HashLogVals_copy_take num_elements vals hn, Nat.zero_add,
      overlay_extend _ _ _ _ (by
        rw [LogVal_written_loop_length, Nat.zero_add]
        simp [malloc]),
      ← LogVal_written_loop_length, overlay_malloc, LogVal_written_loop_eq]

/-- Claim C24 at a row with nested cells, for its first two cells, the address bytes of
the Subnet followed by the four bytes it leaves unwritten. -/
theorem C24_witness :
    2 ≤ exNestedRow.length ∧
      (CopyLogVal (malloc 40) 3 (.table [.vector [.string [97], .subnet [1, 2, 3, 4] 24]])).2
        = GetLogValLength (.table [.vector [.string [97], .subnet [1, 2, 3, 4] 24]]) ∧
      HashLogVals 2 exNestedRow
        = .ok ⟨((exNestedRow.take 2).map cellEncoding).flatten⟩ ∧
      ((exNestedRow.take 2).map cellEncoding).flatten
        = ([1, 0, 0, 0, 0, 0, 0, 0, 97, 1, 0, 0, 0, 2, 0, 0, 0, 3, 0, 0, 0, 4, 0, 0,
            0].map some) ++ [none, none, none, none] :=
  ⟨by decide,
   (C24_copy_log_val_stays_in_its_range
      (.table [.vector [.string [97], .subnet [1, 2, 3, 4] 24]]) (malloc 40) 3 exNestedRow 2
      [] (by decide)).1,
   (C24_copy_log_val_stays_in_its_range (.count 0) [] 0 exNestedRow 2 [] (by decide)).2.2.2.1,
   by decide⟩

/-! ## Fingerprints with all bytes written -/

mutual
theorem LogVal_written_all : ∀ (c : LogVal), c.noSubnet = true →
    c.written.all Option.isSome = true
  | .bool v, _ => by simp [LogVal.written]
  | .int v, _ => by simp [LogVal.written]
  | .count v, _ => by simp [LogVal.written]
  | .counter v, _ => by simp [LogVal.written]
  | .port v, _ => by simp [LogVal.written]
  | .double v, _ => by simp [LogVal.written]
  | .time v, _ => by simp [LogVal.written]
  | .interval v, _ => by simp [LogVal.written]
  | .string s, _ => by simp [LogVal.written]
  | .enum s, _ => by simp [LogVal.written]
  | .addr a, _ => by simp [LogVal.written]
  | .subnet net width, h => by simp [LogVal.noSubnet] at h
  | .table vals, h => by
    rw [LogVal.noSubnet] at h
    rw [LogVal.written]
    exact LogVal_written_loop_all vals h
  | .vector vals, h => by
    rw [LogVal.noSubnet] at h
    rw [LogVal.written]
    exact LogVal_written_loop_all vals h
theorem LogVal_written_loop_all : ∀ (vals : List LogVal),
    LogVal.noSubnet.loop vals = true → (LogVal.written.loop vals).all Option.isSome = true
  | [], _ => rfl
  | v :: vs, h => by
    rw [LogVal.noSubnet.loop, Bool.and_eq_true] at h
    rw [LogVal.written.loop, List.all_append, LogVal_written_all v h.1,
      LogVal_written_loop_all vs h.2]
    rfl
end

theorem LogVal_noSubnet_take : ∀ (n : Nat) (vals : List LogVal),
    LogVal.noSubnet.loop vals = true → LogVal.noSubnet.loop (vals.take n) = true
  | 0, vals, _ => by rw [List.take_zero]; rfl
  | n + 1, [], _ => rfl
  | n + 1, v :: vs, h => by
    rw [LogVal.noSubnet.loop, Bool.and_eq_true] at h
    rw [List.take_succ_cons, LogVal.noSubnet.loop, h.1, LogVal_noSubnet_take n vs h.2]
    rfl

theorem LogVal_noSubnet_drop : ∀ (n : Nat) (vals : List LogVal),
    LogVal.noSubnet.loop vals = true → LogVal.noSubnet.loop (vals.drop n) = true
  | 0, vals, h => by rw [List.drop_zero]; exact h
  | n + 1, [], _ => rfl
  | n + 1, v :: vs, h => by
    rw [LogVal.noSubnet.loop, Bool.and_eq_true] at h
    rw [List.drop_succ_cons]
    exact LogVal_noSubnet_drop n vs h.2

theorem HashLogVals_length_error : ∀ (n : Nat) (vals : List LogVal), vals.length < n →
    HashLogVals.length n vals = .error .OutOfBounds
  | 0, vals, h => by simp at h
  | n + 1, [], _ => rfl
  | n + 1, v :: vs, h => by
    rw [HashLogVals.length, HashLogVals_length_error n vs (by simpa using h)]

/-- The fingerprint of cells without a Subnet has all its bytes written. -/
theorem HashLogVals_written (n : Nat) (vals : List LogVal) (k : HashKey)
    (hsub : LogVal.noSubnet.loop vals = true) (h : HashLogVals n vals = .ok k) :
    k.written = true := by
  by_cases hn : n ≤ vals.length
  · rw [HashLogVals_take n vals hn] at h
    simp only [Except.ok.injEq] at h
    rw [← h]
    exact LogVal_written_loop_all _ (LogVal_noSubnet_take n vals hsub)
  · rw [HashLogVals, HashLogVals_length_error n vals (by omega)] at h
    simp at h

theorem PDict_Written_Remove {d : PDict} (k : HashKey) (h : PDict.Written d) :
    PDict.Written (d.Remove k) :=
  fun e he => h e (PDict_mem_Remove.1 he).1

theorem PDict_Written_Insert {d : PDict} {k : HashKey} {p : Ptr} (h : PDict.Written d)
    (hk : k.written = true) (hp : ∀ x, p = .obj x → x.valhash.written = true) :
    PDict.Written (d.Insert k p) := by
  intro e he
  rcases PDict_mem_Insert he with rfl | he
  · exact ⟨hk, hp⟩
  · exact h e he

/-- A delivery of a row without Subnet cells keeps the fingerprints of both
dictionaries fully written. -/
theorem SendEntry_written (event_registry : List String) (fuel : Nat) (i j : ReaderInfo)
    (vals : List LogVal) (out : Out)
    (hl : PDict.Written i.lastDict) (hc : PDict.Written i.currDict)
    (hsub : LogVal.noSubnet.loop vals = true)
    (hrun : SendEntry event_registry fuel i vals = .ok (j, out)) :
    PDict.Written j.lastDict ∧ PDict.Written j.currDict := by
  obtain ⟨idxhash, valhash, hi, hv, hcase⟩ := SendEntry_inv _ _ _ _ _ _ hrun
  have wi := HashLogVals_written _ _ _ hsub hi
  have wv := HashLogVals_written _ _ _ (LogVal_noSubnet_drop _ _ hsub) hv
  rcases hcase with ⟨h, hlook, -, rfl, -⟩ | ⟨idxval, valval, -, -, hcase⟩
  · have hm := PDict_mem_of_Lookup hlook (by simp)
    exact ⟨PDict_Written_Remove _ hl,
      PDict_Written_Insert hc wi (fun x hx => (hl _ hm).2 x hx)⟩
  · rcases hcase with ⟨-, hfin⟩ | ⟨h, -, -, hfin⟩
    · obtain ⟨b, calls, -, hcs⟩ := SendEntry_finish_inv _ _ _ _ _ _ _ _ _ _ _ hfin
      rcases hcs with ⟨-, -, rfl, -⟩ | ⟨-, -, rfl, -⟩ | ⟨-, k, evs, -, -, rfl, -⟩
      · exact ⟨hl, PDict_Written_Remove _ hc⟩
      · exact ⟨hl, PDict_Written_Insert hc wi (fun x hx => by simp at hx)⟩
      · exact ⟨hl, PDict_Written_Insert hc wi (fun x hx => by
          simp only [Ptr.obj.injEq] at hx; rw [← hx]; exact wv)⟩
    · have hl2 : PDict.Written (i.lastDict.Remove idxhash) := PDict_Written_Remove _ hl
      obtain ⟨b, calls, -, hcs⟩ := SendEntry_finish_inv _ _ _ _ _ _ _ _ _ _ _ hfin
      rcases hcs with ⟨-, -, rfl, -⟩ | ⟨-, -, rfl, -⟩ | ⟨-, k, evs, -, -, rfl, -⟩
      · exact ⟨hl2, PDict_Written_Remove _ hc⟩
      · exact ⟨hl2, PDict_Written_Insert hc wi (fun x hx => by simp at hx)⟩
      · exact ⟨hl2, PDict_Written_Insert hc wi (fun x hx => by
          simp only [Ptr.obj.injEq] at hx; rw [← hx]; exact wv)⟩

theorem SendEntries_written (event_registry : List String) (fuel : Nat) :
    ∀ (rows : List (List LogVal)) (i j : ReaderInfo) (out : Out),
      PDict.Written i.lastDict → PDict.Written i.currDict →
      (∀ vals ∈ rows, LogVal.noSubnet.loop vals = true) →
      SendEntries event_registry fuel i rows = .ok (j, out) →
      PDict.Written j.lastDict ∧ PDict.Written j.currDict
  | [], i, j, out, hl, hc, _, h => by
    simp only [SendEntries, Except.ok.injEq, Prod.mk.injEq] at h
    rw [← h.1]
    exact ⟨hl, hc⟩
  | vals :: rows, i, j, out, hl, hc, hsub, h => by
    obtain ⟨s1, o1, o2, h1, h2, -⟩ := SendEntries_inv_cons _ _ _ _ _ _ _ h
    obtain ⟨hl1, hc1⟩ := SendEntry_written _ _ _ _ _ _ hl hc
      (hsub vals (List.mem_cons_self _ _)) h1
    exact SendEntries_written event_registry fuel rows s1 j o2 hl1 hc1
      (fun v hv => hsub v (List.mem_cons_of_mem _ hv)) h2

/-! ## Claim C1: snapshot conservation -/

/-- C1, as amended. Take a stream without filters at the start of a snapshot: `currDict` is
empty, every entry of `lastDict` is an object, the idx_keys of `lastDict` are pairwise
distinct, the keys of the table are exactly the idx_keys of `lastDict`, and the
fingerprints `lastDict` holds have all their bytes written. Take rows without Subnet
cells that `SendEntry` can hash and convert, such that a row has the fingerprint of an
entry of `lastDict` exactly when its index has the idx_key of that entry. Then delivering
the rows through `SendEntry` and calling `EndCurrentSend` returns, and afterwards
`currDict` is empty, the keys of `lastDict` are exactly the index fingerprints of the
delivered rows, the table holds exactly the indices of the delivered rows, and the
fingerprints `lastDict` holds again have all their bytes written. -/
theorem C1_snapshot_conservation (event_registry : List String) (fuel : Nat)
    (i : ReaderInfo) (rows : List (List LogVal))
    (hf : i.filters = []) (hcurr : i.currDict = [])
    (hobj : PDict.AllObj i.lastDict) (hnd : (PDict.idxkeys i.lastDict).Nodup)
    (hcorr : ∀ k, (i.tab.find k).isSome = true ↔ k ∈ PDict.idxkeys i.lastDict)
    (hconv : ∀ vals ∈ rows, Convertible i vals)
    (hH : ∀ vals ∈ rows, ∀ fp h, (fp, Ptr.obj h) ∈ i.lastDict →
      (HashLogVals i.num_idx_fields vals = .ok fp ↔ idxkeyOf i vals = .ok h.idxkey))
    (hwritten : PDict.Written i.lastDict)
    (hnosub : ∀ vals ∈ rows, LogVal.noSubnet.loop vals = true) :
    ∃ j out, Snapshot event_registry fuel i rows = .ok (j, out) ∧
      j.currDict = [] ∧
      (∀ fp, fp ∈ j.lastDict.map Prod.fst ↔
        ∃ vals ∈ rows, HashLogVals i.num_idx_fields vals = .ok fp) ∧
      (∀ k, (j.tab.find k).isSome = true ↔ ∃ vals ∈ rows, idxkeyOf i vals = .ok k) ∧
      PDict.Written j.lastDict := by
  have hin : PrevInDst i.lastDict i.tab := fun fp h hm =>
    (hcorr _).2 (PDict_mem_idxkeys.2 ⟨fp, h, hm, rfl⟩)
  obtain ⟨t, l, c, out, hrun, hl, hc, ht⟩ := SendEntries_no_filters event_registry fuel rows i
    hf hobj hin hconv (fun vals hv fp h hm => (hH vals hv fp h hm).1)
  have hsub : ∀ e ∈ l, e ∈ i.lastDict := by
    intro e he
    rw [hl] at he
    exact (List.mem_filter.1 he).1
  have hend := EndCurrentSend_no_filters event_registry fuel
    { i with tab := t, lastDict := l, currDict := c } hf
    (fun e he => hobj e (hsub e he))
    (by
      show (PDict.idxkeys l).Nodup
      rw [hl]
      exact (PDict_idxkeys_filter_sublist _ _).nodup hnd)
    (by
      intro fp h hm
      exact (ht _).2 (Or.inl (hin fp h (hsub _ hm))))
  have hsnap : Snapshot event_registry fuel i rows
      = .ok ({ i with
                tab := t.filter (fun e => decide (e.1 ∉ PDict.idxkeys l))
                lastDict := c
                currDict := [] },
          ⟨out.events ++ l.flatMap (removedEventsOf event_registry i.events t),
            out.calls ++ []⟩) := by
    unfold Snapshot
    rw [hrun]
    simp only [hend]
  refine ⟨_, _, hsnap, rfl, ?_, ?_, ?_⟩
  · intro fp
    show fp ∈ c.map Prod.fst ↔ _
    rw [hc, hcurr, mem_fpsOf]
    simp
  · intro k
    show (TableVal.find (List.filter (fun e => decide (e.1 ∉ PDict.idxkeys l)) t) k).isSome
      = true ↔ _
    rw [TableVal_find_filter_isSome, ht, mem_keysOf]
    constructor
    · rintro ⟨h1 | h1, h2⟩
      · obtain ⟨fp, h, hm, hk⟩ := PDict_mem_idxkeys.1 ((hcorr k).1 h1)
        have hnl : (fp, Ptr.obj h) ∉ l := fun hml => h2 (PDict_mem_idxkeys.2 ⟨fp, h, hml, hk⟩)
        rw [hl, List.mem_filter] at hnl
        have hfp : fp ∈ fpsOf i rows := by
          by_contra hcon
          exact hnl ⟨hm, by simpa using hcon⟩
        obtain ⟨vals, hv, hhash⟩ := (mem_fpsOf i rows fp).1 hfp
        exact ⟨vals, hv, hk ▸ (hH vals hv fp h hm).1 hhash⟩
      · exact h1
    · rintro ⟨vals, hv, hkey⟩
      refine ⟨Or.inr ⟨vals, hv, hkey⟩, ?_⟩
      intro hkl
      obtain ⟨fp, h, hm, hk⟩ := PDict_mem_idxkeys.1 hkl
      have hm2 := hm
      rw [hl, List.mem_filter] at hm2
      have hhash := (hH vals hv fp h hm2.1).2 (hk ▸ hkey)
      have : fp ∈ fpsOf i rows := (mem_fpsOf i rows fp).2 ⟨vals, hv, hhash⟩
      simp [this] at hm2
  · exact (SendEntries_written event_registry fuel rows i _ out hwritten
      (by rw [hcurr]; intro e he; simp at he) hnosub hrun).2

/-- Counterexample to C1 as stated. The stream has index type `{a: string, b: string}`. A
first snapshot delivers `("ab", "c", 1)`; the stream is then at steady state, without
filters, the idx_keys of prev being the keys of dst. A second snapshot delivers `("a", "bc",
1)`, a row of the right length whose index fingerprint is the same bytes `abc`: `SendEntry`
takes it for the row it already has, so afterwards dst does not hold the delivered index
`("a", "bc")` and still holds `("ab", "c")`, which was not delivered. -/
theorem C1_counterexample_colliding_fingerprints :
    Snapshot [] 0 exStreamStr [exRowAB_C] = .ok (exStreamStrWithAB_C, ⟨[], []⟩) ∧
    exStreamStrWithAB_C.filters.length = 0 ∧
    exStreamStrWithAB_C.currDict = [] ∧
    PDict.idxkeys exStreamStrWithAB_C.lastDict = exStreamStrWithAB_C.tab.map Prod.fst ∧
    exRowA_BC.length
      = exStreamStrWithAB_C.num_idx_fields + exStreamStrWithAB_C.num_val_fields ∧
    Snapshot [] 0 exStreamStrWithAB_C [exRowA_BC] = .ok (exStreamStrWithAB_C, ⟨[], []⟩) ∧
    idxkeyOf exStreamStrWithAB_C exRowA_BC = .ok [.StringVal [97], .StringVal [98, 99]] ∧
    exStreamStrWithAB_C.tab.find [.StringVal [97], .StringVal [98, 99]] = none ∧
    exStreamStrWithAB_C.tab.find [.StringVal [97, 98], .StringVal [99]]
      = some (.uint 1 TYPE_COUNT) := by
  refine ⟨by rfl, by rfl, by rfl, by decide, by decide, by rfl, by decide, by decide, by decide⟩

/-- C1 at a concrete input: the stream holds `(10.0.0.1, 1)` and the snapshot delivers
`(10.0.0.1, 2)` and `(10.0.0.2, 7)`. -/
theorem C1_witness :
    ∃ j out, Snapshot ["added"] 0 exStreamAddedWithRow1 [exRow2, exRow3] = .ok (j, out) ∧
      j.currDict = [] ∧
      (∀ fp, fp ∈ j.lastDict.map Prod.fst ↔
        ∃ vals ∈ [exRow2, exRow3],
          HashLogVals exStreamAddedWithRow1.num_idx_fields vals = .ok fp) ∧
      (∀ k, (j.tab.find k).isSome = true ↔
        ∃ vals ∈ [exRow2, exRow3], idxkeyOf exStreamAddedWithRow1 vals = .ok k) ∧
      PDict.Written j.lastDict :=
  C1_snapshot_conservation ["added"] 0 exStreamAddedWithRow1 [exRow2, exRow3] (by rfl) (by rfl)
    (by intro e he
        simp [exStreamAddedWithRow1, exStreamWithRow1] at he
        exact ⟨exEntry1, by rw [he]⟩)
    (by decide)
    (by intro k
        by_cases hk : k = [.AddrVal [10, 0, 0, 1]]
        · subst hk
          decide
        · have h1 : ¬ [Val.AddrVal [10, 0, 0, 1]] = k := fun e => hk e.symm
          simp [exStreamAddedWithRow1, exStreamWithRow1, TableVal.find, PDict.idxkeys,
            exEntry1, hk, h1])
    (by intro vals hv
        simp at hv
        rcases hv with rfl | rfl
        · exact ⟨exIdxHash, exValHash2, .AddrVal [10, 0, 0, 1], .uint 2 TYPE_COUNT,
            [.AddrVal [10, 0, 0, 1]], by rfl, by rfl, by rfl, by rfl, by rfl⟩
        · exact ⟨⟨(addrBytes [10, 0, 0, 2]).map some⟩, ⟨(toBytes 8 7).map some⟩,
            .AddrVal [10, 0, 0, 2], .uint 7 TYPE_COUNT,
            [.AddrVal [10, 0, 0, 2]], by rfl, by rfl, by rfl, by rfl, by rfl⟩)
    (by intro vals hv fp h hm
        simp [exStreamAddedWithRow1, exStreamWithRow1] at hm
        obtain ⟨rfl, rfl⟩ := hm
        simp at hv
        rcases hv with rfl | rfl
        · decide
        · decide)
    (by intro e he
        simp [exStreamAddedWithRow1, exStreamWithRow1] at he
        subst he
        exact ⟨by decide, fun h hh => by
          simp only [Ptr.obj.injEq] at hh
          rw [← hh]
          decide⟩)
    (by intro vals hv
        simp at hv
        rcases hv with rfl | rfl
        · decide
        · decide)

/-! ## Claim C2: idempotent re-snapshot -/

/-- Counterexample to C2 as stated. The stream starts empty with the known event `added`
subscribed; the list is the row `(10.0.0.1, 1)` twice. In the second snapshot the first copy
is found unchanged and moved to `currDict`; the second copy is then no longer in `lastDict`,
is taken for a new row, and a `New` event is dispatched. -/
theorem C2_counterexample_row_delivered_twice :
    exStreamAdded.lastDict = [] ∧ exStreamAdded.currDict = [] ∧ exStreamAdded.tab = [] ∧
    Snapshot ["added"] 0 exStreamAdded [exRow1, exRow1]
      = .ok (exStreamAddedWithRow1,
          ⟨[⟨"added", EVENT_NEW, .AddrVal [10, 0, 0, 1], .uint 1 TYPE_COUNT⟩,
            ⟨"added", EVENT_NEW, .AddrVal [10, 0, 0, 1], .uint 1 TYPE_COUNT⟩], []⟩) ∧
    Snapshot ["added"] 0 exStreamAddedWithRow1 [exRow1, exRow1]
      = .ok (exStreamAddedWithRow1,
          ⟨[⟨"added", EVENT_NEW, .AddrVal [10, 0, 0, 1], .uint 1 TYPE_COUNT⟩], []⟩) := by
  refine ⟨rfl, rfl, rfl, by rfl, by rfl⟩

/-- C2, as amended. Take a stream with empty `lastDict` and `currDict`, any filters and
events, and a list of rows without Subnet cells whose index fingerprints are pairwise
distinct. If delivering the list followed by `EndCurrentSend` returns, then delivering the
same list again followed by `EndCurrentSend` returns as well, dispatches no event at all,
and leaves the table as it was; the fingerprints filed after each of the two snapshots
have all their bytes written. -/
theorem C2_idempotent_resnapshot (event_registry : List String) (fuel : Nat)
    (i i1 : ReaderInfo) (rows : List (List LogVal)) (out1 : Out)
    (hlast : i.lastDict = []) (hcurr : i.currDict = [])
    (hnodup : (rows.map fun vals => HashLogVals i.num_idx_fields vals).Nodup)
    (hnosub : ∀ vals ∈ rows, LogVal.noSubnet.loop vals = true)
    (hfirst : Snapshot event_registry fuel i rows = .ok (i1, out1)) :
    ∃ i2 calls, Snapshot event_registry fuel i1 rows = .ok (i2, ⟨[], calls⟩) ∧
      i2.tab = i1.tab ∧ PDict.Written i1.lastDict ∧ PDict.Written i2.lastDict := by
  obtain ⟨j1, o1, o1e, hs1, he1, -⟩ := Snapshot_inv _ _ _ _ _ _ hfirst
  obtain ⟨hcfg, hobjc, -, hkeys, hrows⟩ := SendEntries_first event_registry fuel rows i j1 o1
    hlast hnodup (by rw [hcurr]; intro e he; simp at he) hs1
  have hj1 : j1.lastDict = [] := by rw [hcfg]; exact hlast
  rw [EndCurrentSend_of_lastDict_nil _ _ _ hj1] at he1
  simp only [Except.ok.injEq, Prod.mk.injEq] at he1
  obtain ⟨rfl, -⟩ := he1
  have hnum : j1.num_idx_fields = i.num_idx_fields := by rw [hcfg]
  obtain ⟨l, c, calls, hs2, hl2⟩ := SendEntries_second event_registry fuel rows
    { j1 with lastDict := j1.currDict, currDict := [] }
    (by show (rows.map fun vals => HashLogVals j1.num_idx_fields vals).Nodup
        rw [hnum]; exact hnodup)
    hobjc
    (by
      intro vals hv
      obtain ⟨fp, vh, h1, h2, h3⟩ := hrows vals hv
      refine ⟨fp, vh, ?_, ?_, ?_⟩
      · show HashLogVals j1.num_idx_fields vals = _
        rw [hcfg]
        exact h1
      · show HashLogVals j1.num_val_fields (vals.drop j1.num_idx_fields) = _
        rw [hcfg]
        exact h2
      · rcases h3 with h3 | ⟨h3, h4⟩
        · exact Or.inl h3
        · right
          refine ⟨h3, ?_⟩
          show VetoedNew fuel { j1 with lastDict := j1.currDict, currDict := [] } vals
          rw [hcfg]
          exact h4)
  have hl3 : l = [] := by
    rw [hl2, List.filter_eq_nil_iff]
    intro e he
    have hk : e.1 ∈ j1.currDict.map Prod.fst := List.mem_map_of_mem Prod.fst he
    rcases hkeys e.1 hk with h | h
    · rw [hcurr] at h
      simp at h
    · have : e.1 ∈ fpsOf { j1 with lastDict := j1.currDict, currDict := [] } rows := by
        show e.1 ∈ fpsOf j1 rows
        rw [hcfg]
        exact h
      simp [this]
  subst hl3
  have hw1 : PDict.Written j1.currDict :=
    (SendEntries_written event_registry fuel rows i j1 o1
      (by rw [hlast]; intro e he; simp at he) (by rw [hcurr]; intro e he; simp at he)
      hnosub hs1).2
  have hw2 : PDict.Written c :=
    (SendEntries_written event_registry fuel rows
      { j1 with lastDict := j1.currDict, currDict := [] } _ _ hw1
      (by intro e he; simp at he) hnosub hs2).2
  refine ⟨{ j1 with lastDict := c, currDict := [] }, calls ++ [], ?_, rfl, hw1, hw2⟩
  unfold Snapshot
  rw [hs2]
  simp only [EndCurrentSend_of_lastDict_nil event_registry fuel
    { j1 with lastDict := [], currDict := c } rfl]
  rfl

/-- C2 at a concrete input: the event `added` is known, the filter lets only `10.0.0.1`
pass, and the rows are `(10.0.0.1, 1)` and `(10.0.0.2, 7)`. -/
theorem C2_witness :
    Snapshot ["added"] 2 exStreamGuarded [exRow1, exRow3]
      = .ok (exStreamGuardedWithRow1,
          ⟨[⟨"added", EVENT_NEW, .AddrVal [10, 0, 0, 1], .uint 1 TYPE_COUNT⟩],
            [⟨"guard", EVENT_NEW, .AddrVal [10, 0, 0, 1], .uint 1 TYPE_COUNT⟩,
              ⟨"guard", EVENT_NEW, .AddrVal [10, 0, 0, 2], .uint 7 TYPE_COUNT⟩]⟩) ∧
    ∃ i2 calls,
      Snapshot ["added"] 2 exStreamGuardedWithRow1 [exRow1, exRow3] = .ok (i2, ⟨[], calls⟩) ∧
      i2.tab = exStreamGuardedWithRow1.tab ∧
      PDict.Written exStreamGuardedWithRow1.lastDict ∧ PDict.Written i2.lastDict :=
  ⟨by rfl,
    C2_idempotent_resnapshot ["added"] 2 exStreamGuarded exStreamGuardedWithRow1
      [exRow1, exRow3] _ (by rfl) (by rfl) (by decide)
      (by intro vals hv
          simp at hv
          rcases hv with rfl | rfl
          · decide
          · decide)
      (by rfl)⟩

end InputMgr
